import Mathlib

/-!
Verification of the CodeGraphContext fact-extraction and linking pipeline.

This file gives a shallow embedding of the repository's core code:

* `ElixirTreeSitterParser` and `HeexTreeSitterParser`
  (src/codegraphcontext/tools/languages/elixir.py, heex.py), over a model of
  tree-sitter syntax trees and an oracle for `execute_query`;
* the SCIP precise-reference indexer `ScipIndexer`
  (src/codegraphcontext/tools/scip_indexer.py), over a model of the
  property-graph store where every Cypher query of the source is translated
  to an explicit state transformer.

Theorems named `C1_*` .. `C10_*` settle the frozen claims about the spec.
-/

namespace CGC

/-! ## Python-style string helpers -/

/-- Characters stripped by Python `str.strip("()")`. -/
def isParen (c : Char) : Bool := c = '(' || c = ')'

/-- Strip characters satisfying `p` from both ends of a char list,
mirroring Python `str.strip(chars)`. -/
def stripChars (p : Char → Bool) (l : List Char) : List Char :=
  ((l.dropWhile p).reverse.dropWhile p).reverse

/-- Whitespace strip on char lists, mirroring Python `str.strip()`. -/
def pyTrim (l : List Char) : List Char := stripChars Char.isWhitespace l

/-- Boolean list-prefix test. -/
def listHasPrefix : List Char → List Char → Bool
  | _, [] => true
  | [], _ :: _ => false
  | a :: as, b :: bs => a == b && listHasPrefix as bs

/-- Boolean substring test on char lists. -/
def listContainsSub (l pat : List Char) : Bool :=
  match l with
  | [] => pat.isEmpty
  | _ :: rest => listHasPrefix l pat || listContainsSub rest pat

/-- Python `pat in s` substring containment. -/
def strContains (s pat : String) : Bool := listContainsSub s.toList pat.toList

/-- Python `s.startswith(pre)`; computed on char lists so that it reduces. -/
def strStartsWith (s pre : String) : Bool := listHasPrefix s.toList pre.toList

/-- Python `s.endswith(suf)`. -/
def strEndsWith (s suf : String) : Bool :=
  listHasPrefix s.toList.reverse suf.toList.reverse

/-- Python `s.strip()`. -/
def strTrim (s : String) : String := String.mk (pyTrim s.toList)

/-- Replace every non-overlapping occurrence of `pat` (non-empty) left to
right, Python `s.replace(pat, rep)`. Fuel keeps the recursion structural. -/
def listReplaceGo (pat rep : List Char) : Nat → List Char → List Char
  | 0, l => l
  | _, [] => []
  | fuel + 1, a :: as =>
    if listHasPrefix (a :: as) pat then
      rep ++ listReplaceGo pat rep fuel ((a :: as).drop pat.length)
    else a :: listReplaceGo pat rep fuel as

def strReplace (s pat rep : String) : String :=
  if pat.toList.isEmpty then s
  else String.mk (listReplaceGo pat.toList rep.toList (s.toList.length + 1) s.toList)

/-- Split on a single-character separator, Python `s.split(sep)`: empty
pieces are kept and the empty string yields one empty piece. -/
def listSplitChar (sep : Char) : List Char → List (List Char)
  | [] => [[]]
  | c :: rest =>
    if c = sep then [] :: listSplitChar sep rest
    else
      match listSplitChar sep rest with
      | [] => [[c]]
      | p :: ps => (c :: p) :: ps

def strSplitChar (s : String) (sep : Char) : List String :=
  (listSplitChar sep s.toList).map String.mk

/-- Join with a separator, Python `sep.join(parts)`. -/
def strJoin (sep : String) : List String → String
  | [] => ""
  | [p] => p
  | p :: q :: rest => String.mk (p.toList ++ sep.toList) ++ strJoin sep (q :: rest)

/-! ## Argument splitting (`ElixirTreeSitterParser._parse_arguments`)

The source iterates over the characters of the paren-stripped argument text,
tracking a nesting depth across `()`, `{}`, `[]`, splitting on commas at
depth zero and dropping empty (whitespace-only) pieces. -/

def openDelims : List Char := ['(', '{', '[']

def closeDelims : List Char := [')', '}', ']']

/-- The character loop of `_parse_arguments`: `current` is the pending piece,
`args` the accumulated result, `depth` the current nesting depth. -/
def parse_arguments_loop : List Char → Int → List Char → List String → List String
  | [], _, current, args =>
      let arg := String.mk (pyTrim current)
      if arg ≠ "" then args ++ [arg] else args
  | ch :: rest, depth, current, args =>
      if ch ∈ openDelims then
        parse_arguments_loop rest (depth + 1) (current ++ [ch]) args
      else if ch ∈ closeDelims then
        parse_arguments_loop rest (depth - 1) (current ++ [ch]) args
      else if ch = ',' ∧ depth = 0 then
        let arg := String.mk (pyTrim current)
        parse_arguments_loop rest depth [] (if arg ≠ "" then args ++ [arg] else args)
      else
        parse_arguments_loop rest depth (current ++ [ch]) args

/-- Embedding of `ElixirTreeSitterParser._parse_arguments`. -/
def parse_arguments (s : String) : List String :=
  let argsText := stripChars isParen s.toList
  if pyTrim argsText = [] then []
  else parse_arguments_loop argsText 0 [] []

/-! Specification-level splitter: split at commas occurring at nesting depth
zero, where the depth of a position is the sum of the per-character deltas of
the prefix before it (`+1` for an opening delimiter, `-1` for a closing one).
This follows the spec's words and is compared with `parse_arguments`. -/

/-- Depth contribution of one character. -/
def depthDelta (c : Char) : Int :=
  if c ∈ openDelims then 1 else if c ∈ closeDelims then -1 else 0

/-- Split a char list at the commas whose running prefix depth is zero.
`d` is the depth carried in from the prefix, `cur` the piece in progress. -/
def topSplit : List Char → Int → List Char → List (List Char)
  | [], _, cur => [cur]
  | c :: rest, d, cur =>
      if c = ',' ∧ d = 0 then cur :: topSplit rest 0 []
      else topSplit rest (d + depthDelta c) (cur ++ [c])

/-- Trim each piece and drop the empty ones. -/
def cleanPieces (ps : List (List Char)) : List String :=
  (ps.map (fun p => String.mk (pyTrim p))).filter (fun x => x ≠ "")

/-! ## UTF-8 decoding with Python error handlers

The parsers open files with `encoding="utf-8", errors="ignore"`. `pyDecodeUtf8`
models CPython's incremental UTF-8 decoder; `rep` is what the error handler
emits per undecodable unit (`[]` for `ignore`, U+FFFD for `replace`). -/

/-- Continuation byte test `0x80..0xBF`. -/
def contByte (b : Nat) : Bool := 0x80 ≤ b && b ≤ 0xBF

/-- First continuation byte legality for a 3-byte lead. -/
def cont3Byte (b c : Nat) : Bool :=
  if b = 0xE0 then 0xA0 ≤ c && c ≤ 0xBF
  else if b = 0xED then 0x80 ≤ c && c ≤ 0x9F
  else contByte c

/-- First continuation byte legality for a 4-byte lead. -/
def cont4Byte (b c : Nat) : Bool :=
  if b = 0xF0 then 0x90 ≤ c && c ≤ 0xBF
  else if b = 0xF4 then 0x80 ≤ c && c ≤ 0x8F
  else contByte c

/-- Helper used by the truncated 4-byte case: the remaining bytes (fewer than
three) are all legal continuations of lead `b`, so the sequence is merely
truncated and consumed wholly as one error. -/
def listHasPrefixCont (b : Nat) : List Nat → Bool
  | [] => true
  | [c1] => cont4Byte b c1
  | [c1, c2] => cont4Byte b c1 && contByte c2
  | _ => false

/-- UTF-8 decoder with a pluggable error emission `rep`. The fuel argument
makes the recursion structural; it is called with more fuel than bytes, and
every step consumes at least one byte, so the zero-fuel case is unreachable. -/
def pyDecodeUtf8Go (rep : List Char) : Nat → List Nat → List Char
  | 0, _ => []
  | _, [] => []
  | fuel + 1, b :: rest =>
    if b < 0x80 then Char.ofNat b :: pyDecodeUtf8Go rep fuel rest
    else if 0xC2 ≤ b && b ≤ 0xDF then
      match rest with
      | c :: r2 =>
        if contByte c then
          Char.ofNat ((b - 0xC0) * 64 + (c - 0x80)) :: pyDecodeUtf8Go rep fuel r2
        else rep ++ pyDecodeUtf8Go rep fuel (c :: r2)
      | [] => rep
    else if 0xE0 ≤ b && b ≤ 0xEF then
      match rest with
      | c1 :: c2 :: r2 =>
        if cont3Byte b c1 && contByte c2 then
          Char.ofNat ((b - 0xE0) * 4096 + (c1 - 0x80) * 64 + (c2 - 0x80)) ::
            pyDecodeUtf8Go rep fuel r2
        else rep ++ pyDecodeUtf8Go rep fuel (c1 :: c2 :: r2)
      | [c1] => if cont3Byte b c1 then rep else rep ++ pyDecodeUtf8Go rep fuel [c1]
      | [] => rep
    else if 0xF0 ≤ b && b ≤ 0xF4 then
      match rest with
      | c1 :: c2 :: c3 :: r2 =>
        if cont4Byte b c1 && contByte c2 && contByte c3 then
          Char.ofNat ((b - 0xF0) * 262144 + (c1 - 0x80) * 4096 + (c2 - 0x80) * 64 +
            (c3 - 0x80)) :: pyDecodeUtf8Go rep fuel r2
        else rep ++ pyDecodeUtf8Go rep fuel (c1 :: c2 :: c3 :: r2)
      | r2 => if listHasPrefixCont b r2 then rep else rep ++ pyDecodeUtf8Go rep fuel r2
    else rep ++ pyDecodeUtf8Go rep fuel rest

def pyDecodeUtf8 (rep : List Char) (bs : List Nat) : List Char :=
  pyDecodeUtf8Go rep (bs.length + 1) bs

/-- Decode with `errors="ignore"` (invalid input dropped), as the source does. -/
def pyDecodeUtf8Ignore (bs : List Nat) : String := String.mk (pyDecodeUtf8 [] bs)

/-- Decode with `errors="replace"` (invalid input becomes U+FFFD); used to
state the spec's "replace-on-error" reading for comparison. -/
def pyDecodeUtf8Replace (bs : List Nat) : String :=
  String.mk (pyDecodeUtf8 [Char.ofNat 0xFFFD] bs)
/-! ## Tree-sitter model

Nodes of a parsed tree are modelled as flat records linked by ids; the tree is
a list of nodes. `execute_query` (external `tree_sitter_manager`) is an oracle
in the parser environment, returning `(node, capture_name)` pairs per query
string exactly as the source consumes them. Upward and sideways walks use a
fuel bound of the tree size, which is exact on genuine (acyclic) trees. -/

structure TSNode where
  nid : Nat
  ntype : String
  text : String
  startByte : Nat := 0
  endByte : Nat := 0
  startRow : Nat := 0
  endRow : Nat := 0
  parent : Option Nat := none
  prevSib : Option Nat := none
  children : List Nat := []
deriving DecidableEq

abbrev TSTree := List TSNode

def findNode (t : TSTree) (i : Nat) : Option TSNode := t.find? (fun n => n.nid == i)

/-- Resolved child nodes of `n`, in order. -/
def childNodes (t : TSTree) (n : TSNode) : List TSNode := n.children.filterMap (findNode t)

/-! ### `ElixirTreeSitterParser._get_parent_context` -/

/-- Name extraction from a `call` ancestor's first `arguments` child:
an `alias` child gives its text, a `call` child gives the text of its first
`identifier` child. -/
def contextArgName (t : TSTree) (curr : TSNode) : Option String :=
  match (childNodes t curr).find? (fun c => c.ntype == "arguments") with
  | none => none
  | some argsNode =>
    match (childNodes t argsNode).find? (fun c => c.ntype == "alias" || c.ntype == "call") with
    | none => none
    | some ac =>
      if ac.ntype = "alias" then some ac.text
      else
        match (childNodes t ac).find? (fun c => c.ntype == "identifier") with
        | some nn => some nn.text
        | none => none

/-- Upward walk of `_get_parent_context`: find the nearest enclosing `call`
whose first `identifier` child is one of `types` and that yields a non-empty
name. -/
def get_parent_context_go (t : TSTree) (types : List String) :
    Nat → Option Nat → Option String × Option String × Option Nat
  | 0, _ => (none, none, none)
  | _, none => (none, none, none)
  | fuel + 1, some cid =>
    match findNode t cid with
    | none => (none, none, none)
    | some curr =>
      if curr.ntype = "call" then
        match (childNodes t curr).find? (fun c => c.ntype == "identifier") with
        | some idn =>
          if idn.text ∈ types then
            match contextArgName t curr with
            | some nm =>
              if nm ≠ "" then (some nm, some idn.text, some (curr.startRow + 1))
              else get_parent_context_go t types fuel curr.parent
            | none => get_parent_context_go t types fuel curr.parent
          else get_parent_context_go t types fuel curr.parent
        | none => get_parent_context_go t types fuel curr.parent
      else get_parent_context_go t types fuel curr.parent

/-- Embedding of `ElixirTreeSitterParser._get_parent_context`. -/
def get_parent_context (t : TSTree) (node : TSNode) (types : List String) :
    Option String × Option String × Option Nat :=
  get_parent_context_go t types (t.length + 1) node.parent

/-! ### `ElixirTreeSitterParser._get_docstring` -/

/-- Previous-sibling walk of `_get_docstring`. -/
def get_docstring_go (t : TSTree) : Nat → Option Nat → Option String
  | 0, _ => none
  | _, none => none
  | fuel + 1, some sid =>
    match findNode t sid with
    | none => none
    | some sib =>
      if sib.ntype = "unary_operator" then
        if strStartsWith sib.text "@doc" || strStartsWith sib.text "@moduledoc" then
          some (strTrim sib.text)
        else get_docstring_go t fuel sib.prevSib
      else if sib.ntype = "comment" then
        if strStartsWith sib.text "#" then some (strTrim sib.text)
        else get_docstring_go t fuel sib.prevSib
      else none

/-- Embedding of `ElixirTreeSitterParser._get_docstring`. -/
def get_docstring (t : TSTree) (node : TSNode) : Option String :=
  get_docstring_go t (t.length + 1) node.prevSib

/-! ### `ElixirTreeSitterParser._calculate_complexity` -/

def complexityKeywords : List String :=
  ["case", "cond", "if", "unless", "with", "try", "rescue", "catch"]

def complexityOperators : List String := ["&&", "||", "and", "or"]

/-- Per-node contribution of the complexity walk. -/
def complexityContrib (n : TSNode) : Nat :=
  if n.ntype ∈ complexityKeywords then 1
  else if n.ntype = "identifier" ∧ n.text ∈ complexityKeywords then 1
  else if n.ntype = "binary_operator" ∧
      complexityOperators.any (fun op => strContains n.text op) then 1
  else 0

/-- Subtree walk of `_calculate_complexity` (fuel-bounded child recursion). -/
def complexity_go (t : TSTree) : Nat → TSNode → Nat
  | 0, _ => 0
  | fuel + 1, n =>
    complexityContrib n + ((childNodes t n).map (complexity_go t fuel)).sum

/-- Embedding of `ElixirTreeSitterParser._calculate_complexity`. -/
def calculate_complexity (t : TSTree) (n : TSNode) : Nat :=
  1 + complexity_go t (t.length + 1) n

/-! ## Elixir entity records and finders

Each `_find_*` method groups the oracle's captures by their seeding
"whole definition" capture, attaches fragment captures by byte-span
containment, and then builds one entry per grouped record. Field names
mirror the dict keys of the source. -/

def elixirQueryFunctions : String :=
  "(call (identifier) @def_type (arguments (call (identifier) @func_name (arguments) @func_args)) (#match? @def_type \"^(def|defp)$\")) @func_def"

def elixirQueryClasses : String :=
  "(call (identifier) @call_type (arguments (alias) @module_name) (#match? @call_type \"^defmodule$\")) @module_def (call (identifier) @proto_type (arguments (alias) @proto_name) (#match? @proto_type \"^defprotocol$\")) @proto_def"

def elixirQueryImports : String :=
  "(call (identifier) @import_type (arguments) @import_args (#match? @import_type \"^(alias|import|require|use)$\")) @import_def"

def elixirQueryCalls : String :=
  "(call (dot left: (_) @receiver right: (identifier) @method) (arguments)? @call_args) @call_node"

def elixirQueryVariables : String :=
  "(unary_operator (call (identifier) @attr_name (arguments) @attr_value)) @module_attr"

def elixirQueryMacros : String :=
  "(call (identifier) @macro_type (arguments (call (identifier) @macro_name (arguments) @macro_args)) (#match? @macro_type \"^defmacro$\")) @macro_def"

/-- Byte-span containment used by every grouping loop:
`start_byte >= record start and end_byte <= record end`. -/
def spanContains (record node : TSNode) : Bool :=
  record.startByte ≤ node.startByte && node.endByte ≤ record.endByte

/-- Ordered dict keyed by `id(node)`: overwrite in place, insert at the end. -/
def dictInsert (k : Nat) (v : α) (m : List (Nat × α)) : List (Nat × α) :=
  if m.any (fun p => p.1 == k) then
    m.map (fun p => if p.1 == k then (k, v) else p)
  else m ++ [(k, v)]

structure FunctionEntry where
  name : String
  line_number : Nat
  end_line : Nat
  args : List String
  visibility : String
  complexity : Nat
  context : Option String
  lang : String
  is_dependency : Bool
  source : Option String := none
  docstring : Option String := none
deriving DecidableEq

structure ClassEntry where
  name : String
  line_number : Nat
  end_line : Nat
  bases : List String
  context : Option String
  context_type : Option String
  kind : String
  decorators : List String
  lang : String
  is_dependency : Bool
  source : Option String := none
  docstring : Option String := none
deriving DecidableEq

structure ImportEntry where
  name : String
  full_import_name : String
  import_type : String
  line_number : Nat
  alias_name : Option String
  lang : String
  is_dependency : Bool
deriving DecidableEq

structure CallEntry where
  name : String
  full_name : String
  line_number : Nat
  args : List String
  inferred_obj_type : Option String
  context : Option String × Option String × Option Nat
  class_context : Option String
  lang : String
  is_dependency : Bool
deriving DecidableEq

structure VariableEntry where
  name : String
  line_number : Nat
  end_line : Option Nat := none
  value : Option String := none
  vtype : String := ""
  context : Option String := none
  class_context : Option String := none
  lang : String
  is_dependency : Bool
deriving DecidableEq

structure MacroEntry where
  name : String
  line_number : Nat
  end_line : Nat
  args : List String
  context : Option String
  lang : String
  is_dependency : Bool
  source : Option String := none
  docstring : Option String := none
deriving DecidableEq
/-! ### `_find_functions` -/

structure FuncCap where
  node : TSNode
  fname : Option String := none
  fargs : Option String := none
  def_type : Option String := none
deriving DecidableEq

/-- Fragment attachment for the functions query: a capture updates every
grouped record whose span contains it (the source's inner loop has no break). -/
def funcCapUpdate (cap : TSNode × String) (m : List (Nat × FuncCap)) :
    List (Nat × FuncCap) :=
  m.map (fun p =>
    if spanContains p.2.node cap.1 then
      if cap.2 = "func_name" then (p.1, { p.2 with fname := some cap.1.text })
      else if cap.2 = "func_args" then (p.1, { p.2 with fargs := some cap.1.text })
      else if cap.2 = "def_type" then (p.1, { p.2 with def_type := some cap.1.text })
      else p
    else p)

/-- Entry construction for one grouped function record with a truthy name. -/
def mkFunctionEntry (t : TSTree) (index_source : Bool) (fd : FuncCap) (nm : String) :
    FunctionEntry :=
  let def_type :=
    match fd.def_type with
    | some s => if s = "" then "def" else s
    | none => "def"
  { name := nm
    line_number := fd.node.startRow + 1
    end_line := fd.node.endRow + 1
    args := parse_arguments (fd.fargs.getD "")
    visibility := if def_type = "defp" then "private" else "public"
    complexity := calculate_complexity t fd.node
    context := (get_parent_context t fd.node ["defmodule"]).1
    lang := "elixir"
    is_dependency := false
    source := if index_source then some fd.node.text else none
    docstring := if index_source then get_docstring t fd.node else none }

/-- Embedding of `ElixirTreeSitterParser._find_functions`. -/
def find_functions (t : TSTree) (caps : List (TSNode × String)) (index_source : Bool) :
    List FunctionEntry :=
  let seeded := caps.foldl
    (fun m cap => if cap.2 = "func_def" then dictInsert cap.1.nid ⟨cap.1, none, none, none⟩ m
      else m) []
  let filled := caps.foldl (fun m cap => funcCapUpdate cap m) seeded
  (filled.map Prod.snd).filterMap (fun fd =>
    match fd.fname with
    | some nm => if nm ≠ "" then some (mkFunctionEntry t index_source fd nm) else none
    | none => none)

/-! ### `_find_classes` -/

structure ClassCap where
  node : TSNode
  cname : Option String := none
  ckind : String
deriving DecidableEq

/-- Name attachment for the classes query: a `module_name`/`proto_name`
capture updates only the first containing record (the source breaks). -/
def classNameUpdate (node : TSNode) : List (Nat × ClassCap) → List (Nat × ClassCap)
  | [] => []
  | p :: rest =>
    if spanContains p.2.node node then (p.1, { p.2 with cname := some node.text }) :: rest
    else p :: classNameUpdate node rest

def mkClassEntry (t : TSTree) (index_source : Bool) (cd : ClassCap) (nm : String) :
    ClassEntry :=
  let ctx := get_parent_context t cd.node ["defmodule"]
  { name := nm
    line_number := cd.node.startRow + 1
    end_line := cd.node.endRow + 1
    bases := []
    context := ctx.1
    context_type := ctx.2.1
    kind := if cd.ckind = "proto_def" then "protocol" else "module"
    decorators := []
    lang := "elixir"
    is_dependency := false
    source := if index_source then some cd.node.text else none
    docstring := if index_source then get_docstring t cd.node else none }

/-- Embedding of `ElixirTreeSitterParser._find_classes`. -/
def find_classes (t : TSTree) (caps : List (TSNode × String)) (index_source : Bool) :
    List ClassEntry :=
  let seeded := caps.foldl
    (fun m cap =>
      if cap.2 = "module_def" ∨ cap.2 = "proto_def" then
        dictInsert cap.1.nid ⟨cap.1, none, cap.2⟩ m
      else m) []
  let filled := caps.foldl
    (fun m cap =>
      if cap.2 = "module_name" ∨ cap.2 = "proto_name" then classNameUpdate cap.1 m
      else m) seeded
  (filled.map Prod.snd).filterMap (fun cd =>
    match cd.cname with
    | some nm => if nm ≠ "" then some (mkClassEntry t index_source cd nm) else none
    | none => none)

/-! ### `_find_imports` -/

structure ImportCap where
  node : TSNode
  import_type : Option String := none
  import_args : Option String := none
deriving DecidableEq

def importCapUpdate (cap : TSNode × String) (m : List (Nat × ImportCap)) :
    List (Nat × ImportCap) :=
  m.map (fun p =>
    if spanContains p.2.node cap.1 then
      if cap.2 = "import_type" then (p.1, { p.2 with import_type := some cap.1.text })
      else if cap.2 = "import_args" then (p.1, { p.2 with import_args := some cap.1.text })
      else p
    else p)

def mkImportEntry (im : ImportCap) (ity iargs : String) : ImportEntry :=
  let rawArgs := String.mk (stripChars isParen (pyTrim iargs.toList))
  let parts := parse_arguments rawArgs
  { name := parts.headD rawArgs
    full_import_name := im.node.text
    import_type := ity
    line_number := im.node.startRow + 1
    alias_name := none
    lang := "elixir"
    is_dependency := false }

/-- Embedding of `ElixirTreeSitterParser._find_imports`. -/
def find_imports (caps : List (TSNode × String)) : List ImportEntry :=
  let seeded := caps.foldl
    (fun m cap => if cap.2 = "import_def" then dictInsert cap.1.nid ⟨cap.1, none, none⟩ m
      else m) []
  let filled := caps.foldl (fun m cap => importCapUpdate cap m) seeded
  (filled.map Prod.snd).filterMap (fun im =>
    match im.import_type, im.import_args with
    | some ity, some iargs =>
      if ity ≠ "" ∧ iargs ≠ "" then some (mkImportEntry im ity iargs) else none
    | _, _ => none)

/-! ### `_find_calls` -/

structure CallCap where
  node : TSNode
  receiver : Option String := none
  method : Option String := none
  cargs : List String := []
deriving DecidableEq

def callCapUpdate (cap : TSNode × String) (m : List (Nat × CallCap)) :
    List (Nat × CallCap) :=
  m.map (fun p =>
    if spanContains p.2.node cap.1 then
      if cap.2 = "receiver" then (p.1, { p.2 with receiver := some cap.1.text })
      else if cap.2 = "method" then (p.1, { p.2 with method := some cap.1.text })
      else if cap.2 = "call_args" then (p.1, { p.2 with cargs := parse_arguments cap.1.text })
      else p
    else p)

def mkCallEntry (t : TSTree) (cd : CallCap) (method : String) : CallEntry :=
  let full_name :=
    match cd.receiver with
    | some r => if r ≠ "" then r ++ "." ++ method else method
    | none => method
  let ctx := get_parent_context t cd.node ["defmodule", "def", "defp"]
  let class_context :=
    if ctx.2.1 = some "def" ∨ ctx.2.1 = some "defp" then
      (get_parent_context t cd.node ["defmodule"]).1
    else if ctx.2.1 = some "defmodule" then ctx.1
    else none
  { name := method
    full_name := full_name
    line_number := cd.node.startRow + 1
    args := cd.cargs
    inferred_obj_type := none
    context := ctx
    class_context := class_context
    lang := "elixir"
    is_dependency := false }

/-- Embedding of `ElixirTreeSitterParser._find_calls`. -/
def find_calls (t : TSTree) (caps : List (TSNode × String)) : List CallEntry :=
  let seeded := caps.foldl
    (fun m cap => if cap.2 = "call_node" then dictInsert cap.1.nid ⟨cap.1, none, none, []⟩ m
      else m) []
  let filled := caps.foldl (fun m cap => callCapUpdate cap m) seeded
  (filled.map Prod.snd).filterMap (fun cd =>
    match cd.method with
    | some nm => if nm ≠ "" then some (mkCallEntry t cd nm) else none
    | none => none)

/-! ### `_find_variables` -/

structure AttrCap where
  node : TSNode
  aname : Option String := none
  avalue : Option String := none
deriving DecidableEq

def attrCapUpdate (cap : TSNode × String) (m : List (Nat × AttrCap)) :
    List (Nat × AttrCap) :=
  m.map (fun p =>
    if spanContains p.2.node cap.1 then
      if cap.2 = "attr_name" then (p.1, { p.2 with aname := some cap.1.text })
      else if cap.2 = "attr_value" then (p.1, { p.2 with avalue := some cap.1.text })
      else p
    else p)

def mkVariableEntry (t : TSTree) (ad : AttrCap) (nm : String) : VariableEntry :=
  let ctx := (get_parent_context t ad.node ["defmodule"]).1
  { name := "@" ++ nm
    line_number := ad.node.startRow + 1
    value := ad.avalue
    vtype := "module_attribute"
    context := ctx
    class_context := ctx
    lang := "elixir"
    is_dependency := false }

/-- Embedding of `ElixirTreeSitterParser._find_variables`. -/
def find_variables (t : TSTree) (caps : List (TSNode × String)) : List VariableEntry :=
  let seeded := caps.foldl
    (fun m cap => if cap.2 = "module_attr" then dictInsert cap.1.nid ⟨cap.1, none, none⟩ m
      else m) []
  let filled := caps.foldl (fun m cap => attrCapUpdate cap m) seeded
  (filled.map Prod.snd).filterMap (fun ad =>
    match ad.aname with
    | some nm => if nm ≠ "" then some (mkVariableEntry t ad nm) else none
    | none => none)

/-! ### `_find_macros` -/

structure MacroCap where
  node : TSNode
  mname : Option String := none
  margs : Option String := none
deriving DecidableEq

def macroCapUpdate (cap : TSNode × String) (m : List (Nat × MacroCap)) :
    List (Nat × MacroCap) :=
  m.map (fun p =>
    if spanContains p.2.node cap.1 then
      if cap.2 = "macro_name" then (p.1, { p.2 with mname := some cap.1.text })
      else if cap.2 = "macro_args" then (p.1, { p.2 with margs := some cap.1.text })
      else p
    else p)

def mkMacroEntry (t : TSTree) (index_source : Bool) (md : MacroCap) (nm : String) :
    MacroEntry :=
  { name := nm
    line_number := md.node.startRow + 1
    end_line := md.node.endRow + 1
    args := parse_arguments (md.margs.getD "")
    context := (get_parent_context t md.node ["defmodule"]).1
    lang := "elixir"
    is_dependency := false
    source := if index_source then some md.node.text else none
    docstring := if index_source then get_docstring t md.node else none }

/-- Embedding of `ElixirTreeSitterParser._find_macros`. -/
def find_macros (t : TSTree) (caps : List (TSNode × String)) (index_source : Bool) :
    List MacroEntry :=
  let seeded := caps.foldl
    (fun m cap => if cap.2 = "macro_def" then dictInsert cap.1.nid ⟨cap.1, none, none⟩ m
      else m) []
  let filled := caps.foldl (fun m cap => macroCapUpdate cap m) seeded
  (filled.map Prod.snd).filterMap (fun md =>
    match md.mname with
    | some nm => if nm ≠ "" then some (mkMacroEntry t index_source md nm) else none
    | none => none)
/-! ## HEEx parser (`HeexTreeSitterParser`) -/

def heexQueryComponents : String := "(component) @component"

def heexQueryTags : String := "(tag) @tag"

def heexQueryDirectives : String := "(directive) @directive"

def heexQuerySlots : String := "(slot) @slot"

def heexQueryComponentNames : String := "(component_name) @comp_name"

def heexQueryAttributes : String := "(attribute (attribute_name) @attr_name) @attr"

structure HeexEntry where
  name : String
  line_number : Nat
  end_line : Nat
  lang : String
  is_dependency : Bool
  source : Option String := none
deriving DecidableEq

structure HeexImportEntry where
  name : String
  full_import_name : String
  line_number : Nat
  alias_name : Option String
  lang : String
  is_dependency : Bool
deriving DecidableEq

/-- Name of a component node: `component_name` grandchild under the first
`start_component`/`self_closing_component` child. -/
def heexComponentName (t : TSTree) (node : TSNode) : Option String :=
  match (childNodes t node).find?
      (fun c => c.ntype == "start_component" || c.ntype == "self_closing_component") with
  | none => none
  | some child =>
    ((childNodes t child).find? (fun gc => gc.ntype == "component_name")).map (·.text)

/-- Embedding of `HeexTreeSitterParser._find_components`. -/
def heex_find_components (t : TSTree) (caps : List (TSNode × String)) (index_source : Bool) :
    List HeexEntry :=
  caps.filterMap (fun cap =>
    if cap.2 = "component" then
      match heexComponentName t cap.1 with
      | some nm =>
        if nm ≠ "" then
          some { name := nm
                 line_number := cap.1.startRow + 1
                 end_line := cap.1.endRow + 1
                 lang := "heex"
                 is_dependency := false
                 source := if index_source then some cap.1.text else none }
        else none
      | none => none
    else none)

/-- Name of a tag node: `tag_name` grandchild under the first `start_tag` child. -/
def heexTagName (t : TSTree) (node : TSNode) : Option String :=
  match (childNodes t node).find? (fun c => c.ntype == "start_tag") with
  | none => none
  | some child =>
    ((childNodes t child).find? (fun gc => gc.ntype == "tag_name")).map (·.text)

/-- Embedding of `HeexTreeSitterParser._find_tags`. -/
def heex_find_tags (t : TSTree) (caps : List (TSNode × String)) (index_source : Bool) :
    List HeexEntry :=
  caps.filterMap (fun cap =>
    if cap.2 = "tag" then
      match heexTagName t cap.1 with
      | some nm =>
        if nm ≠ "" then
          some { name := nm
                 line_number := cap.1.startRow + 1
                 end_line := cap.1.endRow + 1
                 lang := "heex"
                 is_dependency := false
                 source := if index_source then some cap.1.text else none }
        else none
      | none => none
    else none)

/-- Embedding of `HeexTreeSitterParser._find_directives`: every captured
directive produces an entry (no truthiness guard in the source). -/
def heex_find_directives (caps : List (TSNode × String)) : List HeexEntry :=
  caps.filterMap (fun cap =>
    if cap.2 = "directive" then
      some { name := strTrim cap.1.text
             line_number := cap.1.startRow + 1
             end_line := cap.1.endRow + 1
             lang := "heex"
             is_dependency := false }
    else none)

/-- Name of a slot node: `slot_name` grandchild under the first `start_slot` child. -/
def heexSlotName (t : TSTree) (node : TSNode) : Option String :=
  match (childNodes t node).find? (fun c => c.ntype == "start_slot") with
  | none => none
  | some child =>
    ((childNodes t child).find? (fun gc => gc.ntype == "slot_name")).map (·.text)

/-- Embedding of `HeexTreeSitterParser._find_slots`. -/
def heex_find_slots (t : TSTree) (caps : List (TSNode × String)) (index_source : Bool) :
    List HeexEntry :=
  caps.filterMap (fun cap =>
    if cap.2 = "slot" then
      match heexSlotName t cap.1 with
      | some nm =>
        if nm ≠ "" then
          some { name := nm
                 line_number := cap.1.startRow + 1
                 end_line := cap.1.endRow + 1
                 lang := "heex"
                 is_dependency := false
                 source := if index_source then some cap.1.text else none }
        else none
      | none => none
    else none)

/-- Module part of a dotted component name, Python `text.rsplit('.', 1)[0]`. -/
def rsplitModule (text : String) : String :=
  strJoin "." ((strSplitChar text '.').dropLast)

/-- Embedding of `HeexTreeSitterParser._find_imports`: module-qualified
component names become import records, deduplicated by module name. -/
def heex_find_imports_go (t : TSTree) (caps : List (TSNode × String))
    (seen : List String) (acc : List HeexImportEntry) : List HeexImportEntry :=
  match caps with
  | [] => acc
  | cap :: rest =>
    if cap.2 = "comp_name" then
      let compText := cap.1.text
      if strContains compText "." ∧ ¬ strStartsWith compText "." then
        let module_name := rsplitModule compText
        if module_name ∈ seen then heex_find_imports_go t rest seen acc
        else
          heex_find_imports_go t rest (seen ++ [module_name])
            (acc ++ [{ name := module_name
                       full_import_name := compText
                       line_number := cap.1.startRow + 1
                       alias_name := none
                       lang := "heex"
                       is_dependency := false }])
      else heex_find_imports_go t rest seen acc
    else heex_find_imports_go t rest seen acc

def heex_find_imports (t : TSTree) (caps : List (TSNode × String)) : List HeexImportEntry :=
  heex_find_imports_go t caps [] []

/-! ## The `parse` entry points

The file system, the tree-sitter parser and `execute_query` are external;
they enter as an environment. A missing file is the sole fatal error
(`open` raising); file bytes are decoded with `errors="ignore"`. -/

structure ParserEnv where
  fs : String → Option (List Nat)
  mkTree : String → TSTree
  execQ : TSTree → String → List (TSNode × String)

structure ElixirRecord where
  path : String
  functions : List FunctionEntry
  classes : List ClassEntry
  variable_entries : List VariableEntry
  imports : List ImportEntry
  function_calls : List CallEntry
  macros : List MacroEntry
  is_dependency : Bool
  lang : String
deriving DecidableEq

/-- Record construction after a successful read, from the decoded source. -/
def elixirBuild (env : ParserEnv) (src : String) (path : String)
    (is_dependency index_source : Bool) : ElixirRecord :=
  let t := env.mkTree src
  { path := path
    functions := find_functions t (env.execQ t elixirQueryFunctions) index_source
    classes := find_classes t (env.execQ t elixirQueryClasses) index_source
    variable_entries := find_variables t (env.execQ t elixirQueryVariables)
    imports := find_imports (env.execQ t elixirQueryImports)
    function_calls := find_calls t (env.execQ t elixirQueryCalls)
    macros := find_macros t (env.execQ t elixirQueryMacros) index_source
    is_dependency := is_dependency
    lang := "elixir" }

/-- Embedding of `ElixirTreeSitterParser.parse`. -/
def elixirParse (env : ParserEnv) (path : String) (is_dependency index_source : Bool) :
    Except String ElixirRecord :=
  match env.fs path with
  | none => .error "FileNotFoundError"
  | some bs => .ok (elixirBuild env (pyDecodeUtf8Ignore bs) path is_dependency index_source)

/-- Spec-reading variant decoding with `errors="replace"`; compared with
`elixirParse` to settle the decode clause of the error-handling claim. -/
def elixirParseReplace (env : ParserEnv) (path : String)
    (is_dependency index_source : Bool) : Except String ElixirRecord :=
  match env.fs path with
  | none => .error "FileNotFoundError"
  | some bs => .ok (elixirBuild env (pyDecodeUtf8Replace bs) path is_dependency index_source)

structure HeexRecord where
  path : String
  functions : List HeexEntry
  classes : List ClassEntry
  variable_entries : List HeexEntry
  imports : List HeexImportEntry
  function_calls : List CallEntry
  is_dependency : Bool
  lang : String
deriving DecidableEq

/-- Record construction for HEEx templates: components map to `functions`,
directives to `variables`; `classes` and `function_calls` are set empty. -/
def heexBuild (env : ParserEnv) (src : String) (path : String)
    (is_dependency index_source : Bool) : HeexRecord :=
  let t := env.mkTree src
  { path := path
    functions := heex_find_components t (env.execQ t heexQueryComponents) index_source
    classes := []
    variable_entries := heex_find_directives (env.execQ t heexQueryDirectives)
    imports := heex_find_imports t (env.execQ t heexQueryComponentNames)
    function_calls := []
    is_dependency := is_dependency
    lang := "heex" }

/-- Embedding of `HeexTreeSitterParser.parse`. -/
def heexParse (env : ParserEnv) (path : String) (is_dependency index_source : Bool) :
    Except String HeexRecord :=
  match env.fs path with
  | none => .error "FileNotFoundError"
  | some bs => .ok (heexBuild env (pyDecodeUtf8Ignore bs) path is_dependency index_source)
/-! ## SCIP precise-reference indexer (`scip_indexer.py`)

The graph store is modelled explicitly: nodes carry one label and the
properties the indexer reads or writes, edges carry `(src, type, dst)` and
the `scip_verified` flag. Every `session.run` Cypher query of
`_process_document` / `ingest_index` becomes one state transformer named
`q_*`, with Cypher `MERGE` = match-or-create and `SET` applied to all
matched rows. File-system paths are modelled as component lists. -/

abbrev FPath := List String

structure NProps where
  name : Option String := none
  path : Option FPath := none
  line_number : Option Nat := none
  relative_path : Option String := none
  scip_symbol : Option String := none
deriving DecidableEq

structure GNode where
  nid : Nat
  label : String
  props : NProps
deriving DecidableEq

structure GEdge where
  src : Nat
  typ : String
  dst : Nat
  scip_verified : Bool := false
deriving DecidableEq

structure Graph where
  nodes : List GNode
  edges : List GEdge
  nextId : Nat := 0
deriving DecidableEq

/-! ### Match sets and primitive mutations -/

/-- Nodes matching `{label} {path: p}` (used for `File`, `Directory`,
`Repository` patterns). -/
def labelAt (g : Graph) (L : String) (p : FPath) : List GNode :=
  g.nodes.filter (fun n => n.label == L && n.props.path == some p)

/-- Nodes matching `{label} {scip_symbol: s}`. -/
def symAt (g : Graph) (L : String) (s : String) : List GNode :=
  g.nodes.filter (fun n => n.label == L && n.props.scip_symbol == some s)

/-- Caller pattern `{path: p, name: nm} WHERE caller:Function OR caller:Method`. -/
def callerNameSel (p : FPath) (nm : String) (n : GNode) : Bool :=
  (n.label == "Function" || n.label == "Method") &&
    n.props.path == some p && n.props.name == some nm

/-- Caller fallback pattern `{path: p, line_number: ln}` with the same labels. -/
def callerLineSel (p : FPath) (ln : Nat) (n : GNode) : Bool :=
  (n.label == "Function" || n.label == "Method") &&
    n.props.path == some p && n.props.line_number == some ln

/-- Create a fresh node. -/
def addNode (g : Graph) (L : String) (pr : NProps) : Graph :=
  { nodes := g.nodes ++ [{ nid := g.nextId, label := L, props := pr }]
    edges := g.edges
    nextId := g.nextId + 1 }

/-- Apply a property update to every node matched by `sel`. -/
def setProps (g : Graph) (sel : GNode → Bool) (f : NProps → NProps) : Graph :=
  { g with nodes := g.nodes.map (fun n => if sel n then { n with props := f n.props } else n) }

def hasEdge (g : Graph) (a : Nat) (ty : String) (b : Nat) : Bool :=
  g.edges.any (fun e => e.src == a && e.typ == ty && e.dst == b)

/-- Cypher `MERGE (a)-[:ty]->(b)`: create the edge unless present. -/
def mergeEdge (g : Graph) (ty : String) (ab : Nat × Nat) : Graph :=
  if hasEdge g ab.1 ty ab.2 then g
  else { g with edges := g.edges ++ [{ src := ab.1, typ := ty, dst := ab.2 }] }

def mergeEdges (g : Graph) (ty : String) (pairs : List (Nat × Nat)) : Graph :=
  pairs.foldl (fun g ab => mergeEdge g ty ab) g

/-- Apply `SET r.scip_verified = true` to the CALLS edges of the given pairs. -/
def verifyEdges (g : Graph) (pairs : List (Nat × Nat)) : Graph :=
  { g with
    edges := g.edges.map (fun e =>
      if pairs.any (fun ab => e.src == ab.1 && e.typ == "CALLS" && e.dst == ab.2) then
        { e with scip_verified := true }
      else e) }

/-! ### The queries of `_process_document` -/

/-- The node created by the File merge when no match exists. -/
def mfNew (g : Graph) (p : FPath) : GNode :=
  { nid := g.nextId, label := "File", props := { path := some p } }

/-- The node created by a directory merge when no match exists. -/
def dsNew (g : Graph) (cur : FPath) : GNode :=
  { nid := g.nextId, label := "Directory", props := { path := some cur } }

/-- The node created by a definition merge when no match exists. -/
def dnNew (g : Graph) (L sym : String) : GNode :=
  { nid := g.nextId, label := L, props := { scip_symbol := some sym } }

/-- The node created by a target merge when no match exists (`ON CREATE SET`
also writes the name). -/
def qcNew (g : Graph) (tL tSym tName : String) : GNode :=
  { nid := g.nextId, label := tL, props := { scip_symbol := some tSym, name := some tName } }


/-- `MERGE (f:File {path: $path}) SET f.relative_path = $rel_path, f.name = $name`. -/
def q_merge_file (g : Graph) (p : FPath) (rel nm : String) : Graph :=
  let g1 := if (labelAt g "File" p).isEmpty then
    addNode g "File" { path := some p } else g
  setProps g1 (fun n => n.label == "File" && n.props.path == some p)
    (fun pr => { pr with relative_path := some rel, name := some nm })

/-- `MATCH (p:{parent_label} {path}) MERGE (d:Directory {path}) SET d.name
MERGE (p)-[:CONTAINS]->(d)`: a parent row must exist or nothing happens. -/
def q_dir_step (g : Graph) (parentLabel : String) (pp cur : FPath) (part : String) : Graph :=
  let P := labelAt g parentLabel pp
  if P.isEmpty then g
  else
    let g1 := if (labelAt g "Directory" cur).isEmpty then
      addNode g "Directory" { path := some cur } else g
    let g2 := setProps g1 (fun n => n.label == "Directory" && n.props.path == some cur)
      (fun pr => { pr with name := some part })
    mergeEdges g2 "CONTAINS"
      ((P.map (·.nid)).product ((labelAt g1 "Directory" cur).map (·.nid)))

/-- `MATCH (p:{parent_label} {path}) MATCH (f:File {path}) MERGE
(p)-[:CONTAINS]->(f)`. -/
def q_link_file (g : Graph) (parentLabel : String) (pp fp : FPath) : Graph :=
  mergeEdges g "CONTAINS"
    (((labelAt g parentLabel pp).map (·.nid)).product ((labelAt g "File" fp).map (·.nid)))

/-- `MATCH (f:File {path}) MERGE (n:{label} {scip_symbol}) SET n.name, n.path,
n.line_number MERGE (f)-[:CONTAINS]->(n)`. -/
def q_def_node (g : Graph) (L sym nm : String) (p : FPath) (ln : Nat) : Graph :=
  let F := labelAt g "File" p
  if F.isEmpty then g
  else
    let g1 := if (symAt g L sym).isEmpty then
      addNode g L { scip_symbol := some sym } else g
    let g2 := setProps g1 (fun n => n.label == L && n.props.scip_symbol == some sym)
      (fun pr => { pr with name := some nm, path := some p, line_number := some ln })
    mergeEdges g2 "CONTAINS"
      ((F.map (·.nid)).product ((symAt g1 L sym).map (·.nid)))

/-- The CALLS query: `MATCH (caller ...) MERGE (target:{label} {scip_symbol})
ON CREATE SET target.name MERGE (caller)-[r:CALLS]->(target) SET
r.scip_verified = true RETURN count(r)`. Returns the new state and the
aggregate count (zero iff no caller row matched). -/
def q_calls (g : Graph) (callerSel : GNode → Bool) (tL tSym tName : String) :
    Graph × Nat :=
  let C := g.nodes.filter callerSel
  if C.isEmpty then (g, 0)
  else
    let g1 := if (symAt g tL tSym).isEmpty then
      addNode g tL { scip_symbol := some tSym, name := some tName } else g
    let T := symAt g1 tL tSym
    let pairs := (C.map (·.nid)).product (T.map (·.nid))
    (verifyEdges (mergeEdges g1 "CALLS" pairs) pairs, C.length * T.length)

/-- `MATCH (n) WHERE n.scip_symbol STARTS WITH 'local' DETACH DELETE n`. -/
def localNode (n : GNode) : Bool :=
  match n.props.scip_symbol with
  | some s => strStartsWith s "local"
  | none => false

def q_cleanup (g : Graph) : Graph :=
  { nodes := g.nodes.filter (fun n => !localNode n)
    edges := g.edges.filter (fun e =>
      !(g.nodes.any (fun n => localNode n && (n.nid == e.src || n.nid == e.dst))))
    nextId := g.nextId }

/-! ### SCIP index data and symbol resolution -/

structure Occurrence where
  range : List Nat
  symbol : String
  symbol_roles : Nat
deriving DecidableEq

structure SymbolInformation where
  kind : Nat := 0
  display_name : String := ""
deriving DecidableEq

structure Document where
  relative_path : String
  occurrences : List Occurrence
  symbols : List (String × SymbolInformation)
deriving DecidableEq

structure ScipIndex where
  documents : List Document
  external_symbols : List (String × SymbolInformation)
deriving DecidableEq

abbrev SymbolMap := List (String × SymbolInformation)

def smUpsert (m : SymbolMap) (k : String) (v : SymbolInformation) : SymbolMap :=
  if m.any (fun p => p.1 == k) then
    m.map (fun p => if p.1 == k then (k, v) else p)
  else m ++ [(k, v)]

def smGet (m : SymbolMap) (k : String) : Option SymbolInformation :=
  (m.find? (fun p => p.1 == k)).map (·.2)

/-- `symbol_info_map`: external symbols first, then every document's local
symbol table, later entries overriding. -/
def buildSymbolMap (idx : ScipIndex) : SymbolMap :=
  idx.documents.foldl (fun m d => d.symbols.foldl (fun m p => smUpsert m p.1 p.2) m)
    (idx.external_symbols.foldl (fun m p => smUpsert m p.1 p.2) [])

/-- `KIND_TO_LABEL` of the source (SCIP kind numbers). -/
def KIND_TO_LABEL (k : Nat) : Option String :=
  if k = 0 then some "Symbol"
  else if k = 7 then some "Class"
  else if k = 26 then some "Function"
  else if k = 17 then some "Function"
  else if k = 61 then some "Variable"
  else if k = 21 then some "Interface"
  else if k = 9 then some "Function"
  else if k = 49 then some "Struct"
  else if k = 11 then some "Enum"
  else if k = 43 then some "Module"
  else if k = 38 then some "Module"
  else if k = 31 then some "Module"
  else none

/-- Embedding of `ScipIndexer._infer_label_from_symbol`. -/
def infer_label_from_symbol (symbol : String) : String :=
  if strEndsWith symbol ")." || strEndsWith symbol "()" then "Function"
  else if strEndsWith symbol "#" then "Class"
  else if strEndsWith symbol "/" then "Module"
  else if strContains symbol "package" && strContains symbol "module" then "Module"
  else "Symbol"

/-- Label resolution for a definition occurrence (lines 278-293 of the
source): table lookup, then syntactic inference when absent or generic. -/
def defLabelOf (kind : Nat) (symbol : String) : String :=
  let l0 := KIND_TO_LABEL kind
  let l1 :=
    if l0 = none ∨ l0 = some "Symbol" then
      let inf := infer_label_from_symbol symbol
      if inf ≠ "Symbol" then some inf else l0
    else l0
  l1.getD "Symbol"

/-- Label resolution for a reference target (lines 415-423): `.get(kind,
"Symbol")` then inference when generic. -/
def targetLabelOf (kind : Nat) (symbol : String) : String :=
  let l := (KIND_TO_LABEL kind).getD "Symbol"
  if l = "Symbol" then
    let inf := infer_label_from_symbol symbol
    if inf ≠ "Symbol" then inf else l
  else l

/-- Fallback of `_extract_name`: replace `.`/`#` by `/`, drop `()`, take the
last non-empty path piece. -/
def extractNameFallback (symbol : String) : String :=
  let clean := strReplace (strReplace (strReplace symbol "." "/") "#" "/") "()" ""
  let parts := (strSplitChar clean '/').filter (fun p => p ≠ "")
  match parts.getLast? with
  | some l => l
  | none => symbol

/-- Embedding of `ScipIndexer._extract_name`. -/
def extract_name (symbol : String) (si : Option SymbolInformation) : String :=
  match si with
  | some info => if info.display_name ≠ "" then info.display_name else extractNameFallback symbol
  | none => extractNameFallback symbol

/-! ### Occurrence handling -/

/-- SCIP `SymbolRole.Definition` bit test. -/
def isDefinition (o : Occurrence) : Bool := o.symbol_roles.land 1 != 0

def r0 (o : Occurrence) : Nat := o.range.getD 0 0

def r1 (o : Occurrence) : Nat := o.range.getD 1 0

/-- Sort key order `(range[0], range[1])` for the definitions sort. -/
def occLe (a b : Occurrence) : Prop :=
  r0 a < r0 b ∨ (r0 a = r0 b ∧ r1 a ≤ r1 b)

instance : DecidableRel occLe := fun a b => by unfold occLe; infer_instance

/-- Stable sort of the definitions list (Python `list.sort` is stable, as is
insertion sort). -/
def sortOccs (l : List Occurrence) : List Occurrence := l.insertionSort occLe

/-! ### Structural functions and caller choice (the "hybrid" step) -/

/-- A structural function span from the tree-sitter parse of the same file. -/
structure FuncSpan where
  name : String
  line_number : Nat
  end_line : Nat
deriving DecidableEq

def spanLen (f : FuncSpan) : Int := (f.end_line : Int) - (f.line_number : Int)

/-- Containment test `func['line_number'] <= ref_line <= func['end_line']`. -/
def spanHasLine (f : FuncSpan) (line : Nat) : Bool :=
  f.line_number ≤ line && line ≤ f.end_line

/-- Span-length order for the narrowest-caller sort. -/
def spanLe (a b : FuncSpan) : Prop := spanLen a ≤ spanLen b

instance : DecidableRel spanLe := fun a b => by unfold spanLe; infer_instance

instance : IsTotal FuncSpan spanLe := ⟨fun a b => le_total (spanLen a) (spanLen b)⟩

instance : IsTrans FuncSpan spanLe :=
  ⟨fun _ _ _ h1 h2 => le_trans h1 h2⟩

/-- Stable sort by `end_line - line_number` (Python `list.sort(key=...)`). -/
def sortBySpan (l : List FuncSpan) : List FuncSpan := l.insertionSort spanLe

/-- Caller selection for one reference line: filter the containing spans,
stable-sort by span length, take the head (lines 400-406 of the source). -/
def chooseCaller (functions : List FuncSpan) (refLine : Nat) : Option FuncSpan :=
  match sortBySpan (functions.filter (fun f => spanHasLine f refLine)) with
  | [] => none
  | c :: _ => some c

/-! ### Reference upsert and the per-document state machine -/

/-- Primary `(path, name)` caller lookup, then the `(path, line_number)`
fallback when the primary query bound no caller row (lines 430-464). -/
def ref_upsert (g : Graph) (p : FPath) (callerName : String) (callerLine : Nat)
    (tL tSym tName : String) : Graph :=
  let pr := q_calls g (callerNameSel p callerName) tL tSym tName
  if pr.2 = 0 then (q_calls pr.1 (callerLineSel p callerLine) tL tSym tName).1
  else pr.1

/-- Processing of one reference occurrence (the body of the `for ref in
references` loop). The first-match `caller_function` scan of the source is
dead code, superseded by the narrowest-span selection, and is not modelled. -/
def ref_step (sm : SymbolMap) (p : FPath) (functions : List FuncSpan)
    (g : Graph) (ref : Occurrence) : Graph :=
  if strStartsWith ref.symbol "local" then g
  else
    match chooseCaller functions (r0 ref + 1) with
    | none => g
    | some caller =>
      let ti := smGet sm ref.symbol
      let tKind := (ti.map (·.kind)).getD 0
      ref_upsert g p caller.name caller.line_number
        (targetLabelOf tKind ref.symbol) ref.symbol (extract_name ref.symbol ti)

/-- One definition upsert (the body of the `for occ in definitions` loop). -/
def def_step (sm : SymbolMap) (p : FPath) (g : Graph) (occ : Occurrence) : Graph :=
  if strStartsWith occ.symbol "local" then g
  else
    let si := smGet sm occ.symbol
    let kind := (si.map (·.kind)).getD 0
    q_def_node g (defLabelOf kind occ.symbol) occ.symbol (extract_name occ.symbol si)
      p (r0 occ + 1)

/-- The directory-hierarchy walk (lines 156-243; the source contains the
block twice, so `process_document` applies this function twice). -/
def hier_go (fp : FPath) : String → FPath → List String → Graph → Graph
  | parentLabel, pp, [], g => q_link_file g parentLabel pp fp
  | parentLabel, pp, part :: rest, g =>
    hier_go fp "Directory" (pp ++ [part]) rest
      (q_dir_step g parentLabel pp (pp ++ [part]) part)

/-- Environment of `_process_document`: the repository root, file existence,
and the structural tree-sitter parse (`TreeSitterParser('python').parse`,
external to this repository; `none` models a raised and caught exception). -/
structure ScipEnv where
  repoPath : FPath
  fileExists : FPath → Bool
  tsFunctions : FPath → Option (List FuncSpan)

/-- Path components of a relative path string. -/
def pathParts (rel : String) : List String := strSplitChar rel '/' 

/-- Absolute file path of a document. -/
def docFilePath (repo : FPath) (rel : String) : FPath := repo ++ pathParts rel

/-- Path components of a document. -/
def docParts (d : Document) : List String := pathParts d.relative_path

/-- Absolute file path of a document below the repository root. -/
def docFP (env : ScipEnv) (d : Document) : FPath := env.repoPath ++ docParts d

/-- Directory components of a document (all parts except the file name). -/
def docDirs (d : Document) : List String := (docParts d).dropLast

/-- The sorted definition occurrences of a document. -/
def docDefs (d : Document) : List Occurrence :=
  sortOccs (d.occurrences.filter isDefinition)

/-- The reference occurrences of a document. -/
def docRefs (d : Document) : List Occurrence :=
  d.occurrences.filter (fun o => !isDefinition o)

/-- The skip test for documents escaping the repository root. -/
def docSkip (d : Document) : Bool := strStartsWith d.relative_path ".."

/-- Stage 1: the File-node upsert. -/
def doc_stage_file (env : ScipEnv) (d : Document) (g : Graph) : Graph :=
  q_merge_file g (docFP env d) d.relative_path ((docParts d).getLastD "")

/-- Stage 2: one pass of the directory-hierarchy linking. -/
def doc_stage_hier (env : ScipEnv) (d : Document) (g : Graph) : Graph :=
  hier_go (docFP env d) "Repository" env.repoPath (docDirs d) g

/-- Stage 3: the definition-node upserts. -/
def doc_stage_defs (sm : SymbolMap) (env : ScipEnv) (d : Document) (g : Graph) : Graph :=
  (docDefs d).foldl (def_step sm (docFP env d)) g

/-- Stage 4: the reference matching and CALLS upserts, with the source's
early returns (missing file, failed or empty structural parse, no refs). -/
def doc_stage_refs (sm : SymbolMap) (env : ScipEnv) (d : Document) (g : Graph) : Graph :=
  if !env.fileExists (docFP env d) then g
  else
    match env.tsFunctions (docFP env d) with
    | none => g
    | some functions =>
      if functions.isEmpty then g
      else if (docRefs d).isEmpty then g
      else (docRefs d).foldl (ref_step sm (docFP env d) functions) g

/-- Embedding of `ScipIndexer._process_document`. The hierarchy block occurs
twice because the source contains the duplicated block (lines 156-243). -/
def process_document (env : ScipEnv) (sm : SymbolMap) (g : Graph) (doc : Document) :
    Graph :=
  if docSkip doc then g
  else
    doc_stage_refs sm env doc (doc_stage_defs sm env doc
      (doc_stage_hier env doc (doc_stage_hier env doc (doc_stage_file env doc g))))

/-- Embedding of `ScipIndexer.ingest_index`: process every document, then the
final local-symbol cleanup pass. -/
def ingest_index (env : ScipEnv) (g : Graph) (idx : ScipIndex) : Graph :=
  q_cleanup ((idx.documents.foldl (process_document env (buildSymbolMap idx)) g))
/-! ## Predicates for the re-ingestion idempotence analysis (C3)

`DocFixed` states, query by query, that re-running a document's processing
would leave the state unchanged; the invariants `GoodGraph`, `SymPathInv`,
`NoDirNodes` are what a run maintains and what makes `DocFixed` stable. -/

/-- Core well-formedness maintained through a run: nodes labelled as part of
the file hierarchy never carry a `scip_symbol`, and every `scip_symbol`
present is non-local. -/
def GoodGraph (g : Graph) : Prop :=
  (∀ n ∈ g.nodes, (n.label = "File" ∨ n.label = "Directory" ∨ n.label = "Repository") →
    n.props.scip_symbol = none) ∧
  (∀ n ∈ g.nodes, ∀ sym, n.props.scip_symbol = some sym →
    strStartsWith sym "local" = false)

/-- Non-local definition symbols of a document. -/
def defSyms (d : Document) : List String :=
  ((d.occurrences.filter isDefinition).filter
    (fun o => !strStartsWith o.symbol "local")).map (·.symbol)

/-- Every `scip_symbol`-bearing node either has no `path` yet (a target stub)
or carries the file path of a document defining its symbol. -/
def SymPathInv (env : ScipEnv) (idx : ScipIndex) (g : Graph) : Prop :=
  ∀ n ∈ g.nodes, ∀ sym, n.props.scip_symbol = some sym →
    (n.props.path = none ∨
      ∃ d ∈ idx.documents, sym ∈ defSyms d ∧ n.props.path = some (docFP env d))

def NoLocalNodes (g : Graph) : Prop := ∀ n ∈ g.nodes, localNode n = false

def NoDirNodes (g : Graph) : Prop := ∀ n ∈ g.nodes, n.label ≠ "Directory"

/-- The CALLS edge between `a` and `b` exists and every edge record with that
key is already verified. -/
def CallsEdgeOK (g : Graph) (a b : Nat) : Prop :=
  hasEdge g a "CALLS" b = true ∧
  ∀ e ∈ g.edges, e.src = a → e.typ = "CALLS" → e.dst = b → e.scip_verified = true

/-- The target of a CALLS upsert exists and all caller-target edges for the
caller set `C` exist verified. -/
def CallsFixed (g : Graph) (C : List GNode) (tL tSym : String) : Prop :=
  symAt g tL tSym ≠ [] ∧
  ∀ c ∈ C, ∀ tn ∈ symAt g tL tSym, CallsEdgeOK g c.nid tn.nid

/-- Re-running one reference occurrence leaves `g` unchanged. -/
def RefFixed (sm : SymbolMap) (p : FPath) (functions : List FuncSpan) (g : Graph)
    (ref : Occurrence) : Prop :=
  strStartsWith ref.symbol "local" = true ∨
  chooseCaller functions (r0 ref + 1) = none ∨
  ∀ caller, chooseCaller functions (r0 ref + 1) = some caller →
    ((g.nodes.filter (callerNameSel p caller.name) = [] →
      (g.nodes.filter (callerLineSel p caller.line_number) = [] ∨
        CallsFixed g (g.nodes.filter (callerLineSel p caller.line_number))
          (targetLabelOf (((smGet sm ref.symbol).map (·.kind)).getD 0) ref.symbol)
          ref.symbol)) ∧
    (g.nodes.filter (callerNameSel p caller.name) ≠ [] →
      CallsFixed g (g.nodes.filter (callerNameSel p caller.name))
        (targetLabelOf (((smGet sm ref.symbol).map (·.kind)).getD 0) ref.symbol)
        ref.symbol))

/-- Re-running one definition occurrence leaves `g` unchanged. -/
def DefFixed (sm : SymbolMap) (p : FPath) (g : Graph) (occ : Occurrence) : Prop :=
  strStartsWith occ.symbol "local" = true ∨
  labelAt g "File" p = [] ∨
  (symAt g (defLabelOf (((smGet sm occ.symbol).map (·.kind)).getD 0) occ.symbol)
      occ.symbol ≠ [] ∧
   (∀ n ∈ symAt g (defLabelOf (((smGet sm occ.symbol).map (·.kind)).getD 0) occ.symbol)
      occ.symbol,
      n.props.name = some (extract_name occ.symbol (smGet sm occ.symbol)) ∧
      n.props.path = some p ∧ n.props.line_number = some (r0 occ + 1)) ∧
   (∀ f ∈ labelAt g "File" p,
      ∀ n ∈ symAt g (defLabelOf (((smGet sm occ.symbol).map (·.kind)).getD 0) occ.symbol)
        occ.symbol,
      hasEdge g f.nid "CONTAINS" n.nid = true))

/-- Re-running the File upsert of a document leaves `g` unchanged. -/
def FileFixed (env : ScipEnv) (d : Document) (g : Graph) : Prop :=
  labelAt g "File" (docFP env d) ≠ [] ∧
  ∀ n ∈ labelAt g "File" (docFP env d),
    n.props.relative_path = some d.relative_path ∧
    n.props.name = some ((docParts d).getLastD "")

/-- Re-running the hierarchy chain leaves `g` unchanged (one conjunct per
step; a step with no parent match is a no-op). -/
def ChainFixed (g : Graph) (fp : FPath) : String → FPath → List String → Prop
  | pl, pp, [] =>
    labelAt g pl pp = [] ∨
      ∀ p ∈ labelAt g pl pp, ∀ f ∈ labelAt g "File" fp,
        hasEdge g p.nid "CONTAINS" f.nid = true
  | pl, pp, part :: rest =>
    (labelAt g pl pp = [] ∨
      (labelAt g "Directory" (pp ++ [part]) ≠ [] ∧
       (∀ dn ∈ labelAt g "Directory" (pp ++ [part]), dn.props.name = some part) ∧
       (∀ p ∈ labelAt g pl pp, ∀ dn ∈ labelAt g "Directory" (pp ++ [part]),
          hasEdge g p.nid "CONTAINS" dn.nid = true))) ∧
    ChainFixed g fp "Directory" (pp ++ [part]) rest

/-- Re-running the reference stage leaves `g` unchanged. -/
def RefsStageFixed (sm : SymbolMap) (env : ScipEnv) (d : Document) (g : Graph) : Prop :=
  env.fileExists (docFP env d) = false ∨
  env.tsFunctions (docFP env d) = none ∨
  ∃ functions, env.tsFunctions (docFP env d) = some functions ∧
    (functions = [] ∨ docRefs d = [] ∨
      ∀ ref ∈ docRefs d, RefFixed sm (docFP env d) functions g ref)

/-- Re-processing a whole document leaves `g` unchanged. -/
def DocFixed (sm : SymbolMap) (env : ScipEnv) (d : Document) (g : Graph) : Prop :=
  docSkip d = true ∨
  (FileFixed env d g ∧
   ChainFixed g (docFP env d) "Repository" env.repoPath (docDirs d) ∧
   (∀ occ ∈ docDefs d, DefFixed sm (docFP env d) g occ) ∧
   RefsStageFixed sm env d g)

/-! Concrete objects for the C3 counterexample: a pre-existing File node
carrying a reserved-prefix `scip_symbol` is deleted by the cleanup pass of
the first run and recreated (without the symbol) by the second run. -/

def exLocalFileNode : GNode :=
  { nid := 0, label := "File",
    props := { path := some ["r", "a.py"], scip_symbol := some "localA" } }

def exGraphC3 : Graph := { nodes := [exLocalFileNode], edges := [], nextId := 1 }

def exEnvC3 : ScipEnv :=
  { repoPath := ["r"], fileExists := fun _ => false, tsFunctions := fun _ => none }

def exIdxC3 : ScipIndex :=
  { documents := [{ relative_path := "a.py", occurrences := [], symbols := [] }],
    external_symbols := [] }

/-! ### Positive re-ingestion state: what one run establishes

`ChainDone` is the all-positive version of `ChainFixed` (every hierarchy
node present, named, and linked); `DocDone` strengthens `DocFixed` so that
it is stable under the processing of further documents; `IngestInv` is the
standing well-formedness a run maintains. -/

def ChainDone (g : Graph) (fp : FPath) : String → FPath → List String → Prop
  | pl, pp, [] =>
    labelAt g pl pp ≠ [] ∧
    ∀ p ∈ labelAt g pl pp, ∀ f ∈ labelAt g "File" fp,
      hasEdge g p.nid "CONTAINS" f.nid = true
  | pl, pp, part :: rest =>
    labelAt g pl pp ≠ [] ∧
    labelAt g "Directory" (pp ++ [part]) ≠ [] ∧
    (∀ dn ∈ labelAt g "Directory" (pp ++ [part]), dn.props.name = some part) ∧
    (∀ p ∈ labelAt g pl pp, ∀ dn ∈ labelAt g "Directory" (pp ++ [part]),
      hasEdge g p.nid "CONTAINS" dn.nid = true) ∧
    ChainDone g fp "Directory" (pp ++ [part]) rest

/-- Standing invariant of a run: hierarchy nodes carry no scip symbol, all
scip symbols are non-local, symbol-bearing nodes sit at the path of the
document defining their symbol (or have no path yet), and when no
Repository node exists at the root no Directory node exists either. -/
def IngestInv (env : ScipEnv) (idx : ScipIndex) (g : Graph) : Prop :=
  GoodGraph g ∧ SymPathInv env idx g ∧
  (labelAt g "Repository" env.repoPath = [] → NoDirNodes g)

/-- The stable strengthening of `DocFixed` carried through the fold over
documents: the hierarchy chain is recorded positively (conditional on the
Repository root existing), the rest as in `DocFixed`. -/
def DocDone (sm : SymbolMap) (env : ScipEnv) (d : Document) (g : Graph) : Prop :=
  docSkip d = true ∨
  (FileFixed env d g ∧
   (labelAt g "Repository" env.repoPath ≠ [] →
     ChainDone g (docFP env d) "Repository" env.repoPath (docDirs d)) ∧
   (∀ occ ∈ docDefs d, DefFixed sm (docFP env d) g occ) ∧
   RefsStageFixed sm env d g)

/-- The empty graph, a store state satisfying the amended C3 hypotheses. -/
def exGraphEmpty : Graph := { nodes := [], edges := [], nextId := 0 }
theorem parse_arguments_loop_spec (l : List Char) :
    ∀ d cur args, parse_arguments_loop l d cur args = args ++ cleanPieces (topSplit l d cur) := by
  induction l with
  | nil =>
      intro d cur args
      simp only [parse_arguments_loop, topSplit, cleanPieces, List.map_cons, List.map_nil,
        List.filter]
      by_cases h : String.mk (pyTrim cur) = ""
      · simp [h]
      · simp [h]
  | cons c rest ih =>
      intro d cur args
      simp only [parse_arguments_loop, topSplit]
      by_cases hop : c ∈ openDelims
      · have hc : ¬ (c = ',' ∧ d = 0) := by
          rintro ⟨rfl, -⟩
          simp [openDelims] at hop
        rw [if_pos hop, if_neg hc, ih]
        simp [depthDelta, hop]
      · by_cases hcl : c ∈ closeDelims
        · have hc : ¬ (c = ',' ∧ d = 0) := by
            rintro ⟨rfl, -⟩
            simp [closeDelims] at hcl
          rw [if_neg hop, if_pos hcl, if_neg hc, ih]
          simp [depthDelta, hop, hcl]
          ring_nf
        · by_cases hc : c = ',' ∧ d = 0
          · rw [if_neg hop, if_neg hcl, if_pos hc, if_pos hc, ih]
            obtain ⟨-, rfl⟩ := hc
            by_cases h : String.mk (pyTrim cur) = ""
            · simp [cleanPieces, h]
            · simp [cleanPieces, h]
          · rw [if_neg hop, if_neg hcl, if_neg hc, if_neg hc, ih]
            simp [depthDelta, hop, hcl]

/-- On a char list with no commas and no delimiters the splitter returns the
single piece consisting of everything. -/
theorem topSplit_no_comma (l : List Char) :
    ∀ d cur, (∀ c ∈ l, c ≠ ',' ∧ depthDelta c = 0) → topSplit l d cur = [cur ++ l] := by
  induction l with
  | nil => intro d cur _; simp [topSplit]
  | cons c rest ih =>
      intro d cur h
      have hc := h c (by simp)
      simp only [topSplit]
      rw [if_neg (by rintro ⟨rfl, -⟩; exact hc.1 rfl)]
      rw [ih _ _ (fun x hx => h x (by simp [hx]))]
      simp [hc.2]

theorem whitespace_no_delta (c : Char) (h : c.isWhitespace = true) :
    c ≠ ',' ∧ depthDelta c = 0 := by
  constructor
  · rintro rfl
    simp [Char.isWhitespace] at h
  · have h1 : c ∉ openDelims := by
      intro hc
      fin_cases hc <;> simp_all [Char.isWhitespace]
    have h2 : c ∉ closeDelims := by
      intro hc
      fin_cases hc <;> simp_all [Char.isWhitespace]
    simp [depthDelta, h1, h2]

/-- Characters of a list with empty whitespace-strip are all whitespace. -/
theorem pyTrim_nil_forall (l : List Char) (h : pyTrim l = []) :
    ∀ c ∈ l, c.isWhitespace = true := by
  intro c hc
  unfold pyTrim stripChars at h
  have h1 : (l.dropWhile Char.isWhitespace).reverse.dropWhile Char.isWhitespace = [] := by
    have := congrArg List.reverse h
    simpa using this
  have h2 : ∀ x ∈ (l.dropWhile Char.isWhitespace).reverse, Char.isWhitespace x = true :=
    List.dropWhile_eq_nil_iff.mp h1
  have h3 : ∀ x ∈ l.dropWhile Char.isWhitespace, Char.isWhitespace x = true := by
    intro x hx
    exact h2 x (List.mem_reverse.mpr hx)
  have hsplit : c ∈ l.takeWhile Char.isWhitespace ∨ c ∈ l.dropWhile Char.isWhitespace := by
    have : l = l.takeWhile Char.isWhitespace ++ l.dropWhile Char.isWhitespace :=
      (List.takeWhile_append_dropWhile Char.isWhitespace l).symm
    rw [this] at hc
    exact List.mem_append.mp hc
  rcases hsplit with hck | hck
  · exact List.mem_takeWhile_imp hck
  · exact h3 c hck
theorem mem_cleanPieces_ne_empty {x : String} {ps : List (List Char)}
    (h : x ∈ cleanPieces ps) : x ≠ "" := by
  unfold cleanPieces at h
  have := List.of_mem_filter h
  simpa using this

theorem whitespace_not_paren (c : Char) (h : c.isWhitespace = true) :
    isParen c = false := by
  by_contra hp
  have hp' : isParen c = true := by
    cases hiP : isParen c
    · exact absurd hiP hp
    · rfl
  unfold isParen at hp'
  have hor : c = '(' ∨ c = ')' := by simpa using hp'
  rcases hor with rfl | rfl <;> simp [Char.isWhitespace] at h

theorem dropWhile_eq_self_of_forall {p : Char → Bool} {l : List Char}
    (h : ∀ c ∈ l, p c = false) : l.dropWhile p = l := by
  cases l with
  | nil => simp
  | cons a as => simp [List.dropWhile_cons, h a (by simp)]

theorem stripChars_eq_self_of_forall {p : Char → Bool} {l : List Char}
    (h : ∀ c ∈ l, p c = false) : stripChars p l = l := by
  unfold stripChars
  rw [dropWhile_eq_self_of_forall h]
  rw [dropWhile_eq_self_of_forall (fun c hc => h c (List.mem_reverse.mp hc))]
  simp

/-- C6: the argument splitter of `ElixirTreeSitterParser._parse_arguments`
splits only on commas at nesting depth zero, tracking depth across the paired
delimiters `()`, `{}`, `[]` — it equals the depth-aware top-level split
(pieces between depth-zero commas, trimmed, empties dropped) — and the
argument text of `f(a, g(b, c), d)` yields exactly `["a", "g(b, c)", "d"]`. -/
theorem C6_top_level_argument_split :
    (∀ s : String, parse_arguments s =
      cleanPieces (topSplit (stripChars isParen s.toList) 0 [])) ∧
    parse_arguments "(a, g(b, c), d)" = ["a", "g(b, c)", "d"] := by
  constructor
  · intro s
    unfold parse_arguments
    by_cases h : pyTrim (stripChars isParen s.toList) = []
    · rw [if_pos h]
      rw [topSplit_no_comma _ 0 []
        (fun c hc => whitespace_no_delta c (pyTrim_nil_forall _ h c hc))]
      have h' : pyTrim (stripChars isParen s.data) = [] := h
      simp [cleanPieces, h']
    · rw [if_neg h, parse_arguments_loop_spec]
      simp
  · decide

/-- C10: `_parse_arguments` never returns an empty-string element; empty or
whitespace-only argument text yields `[]`; empty items between consecutive
top-level commas or after a trailing comma are dropped. -/
theorem C10_no_empty_argument_entries :
    (∀ s : String, "" ∉ parse_arguments s) ∧
    (∀ s : String, pyTrim s.toList = [] → parse_arguments s = []) ∧
    parse_arguments "a,,b," = ["a", "b"] := by
  refine ⟨?_, ?_, by decide⟩
  · intro s hmem
    unfold parse_arguments at hmem
    by_cases h : pyTrim (stripChars isParen s.toList) = []
    · rw [if_pos h] at hmem
      simp at hmem
    · rw [if_neg h, parse_arguments_loop_spec] at hmem
      simp only [List.nil_append] at hmem
      exact mem_cleanPieces_ne_empty hmem rfl
  · intro s h
    have hall : ∀ c ∈ s.toList, c.isWhitespace = true := pyTrim_nil_forall _ h
    have hstrip : stripChars isParen s.toList = s.toList :=
      stripChars_eq_self_of_forall (fun c hc => whitespace_not_paren c (hall c hc))
    unfold parse_arguments
    rw [hstrip, if_pos h]

/-- Witness for C10 at concrete inputs. -/
theorem C10_witness :
    (pyTrim (" ".toList) = [] ∧ parse_arguments " " = []) ∧
    "" ∉ parse_arguments "(a,b)" :=
  ⟨⟨by decide, C10_no_empty_argument_entries.2.1 " " (by decide)⟩,
    C10_no_empty_argument_entries.1 "(a,b)"⟩

/-- C8: a document whose relative path escapes the repository root (starts
with the parent-directory marker `..`) is skipped before any graph write:
processing it leaves the graph state unchanged. -/
theorem C8_external_document_skipped (env : ScipEnv) (sm : SymbolMap) (g : Graph)
    (doc : Document) (h : strStartsWith doc.relative_path ".." = true) :
    process_document env sm g doc = g := by
  unfold process_document docSkip
  simp [h]

def exEnvTrivial : ScipEnv :=
  { repoPath := [], fileExists := fun _ => false, tsFunctions := fun _ => none }

/-- Witness for C8 at a concrete escaping document. -/
theorem C8_witness :
    (strStartsWith "../x.py" ".." = true) ∧
    process_document exEnvTrivial [] { nodes := [], edges := [], nextId := 0 }
      { relative_path := "../x.py", occurrences := [], symbols := [] } =
      { nodes := [], edges := [], nextId := 0 } :=
  ⟨by decide, C8_external_document_skipped _ _ _ _ (by decide)⟩

/-- C2: after a full ingestion run no node whose `scip_symbol` begins with
the reserved prefix `local` remains in the graph, and hence no CALLS edge has
such a node as an endpoint: definitions and references are filtered and the
final cleanup pass deletes any that slipped through. -/
theorem C2_no_local_symbol_survives (env : ScipEnv) (g : Graph) (idx : ScipIndex) :
    (∀ n ∈ (ingest_index env g idx).nodes, localNode n = false) ∧
    (∀ e ∈ (ingest_index env g idx).edges, e.typ = "CALLS" →
      ∀ n ∈ (ingest_index env g idx).nodes,
        (n.nid = e.src ∨ n.nid = e.dst) → localNode n = false) := by
  have hmain : ∀ n ∈ (ingest_index env g idx).nodes, localNode n = false := by
    intro n hn
    unfold ingest_index q_cleanup at hn
    simp only [List.mem_filter, Bool.not_eq_true'] at hn
    exact hn.2
  exact ⟨hmain, fun e _ _ n hn _ => hmain n hn⟩

def exNodeFile : GNode := { nid := 0, label := "File", props := {} }

/-- Witness for C2: a non-local node survives an empty-index run and the
theorem applies to it. -/
theorem C2_witness :
    exNodeFile ∈ (ingest_index exEnvTrivial
      { nodes := [exNodeFile], edges := [], nextId := 1 }
      { documents := [], external_symbols := [] }).nodes ∧
    localNode exNodeFile = false :=
  ⟨by decide,
    (C2_no_local_symbol_survives exEnvTrivial
      { nodes := [exNodeFile], edges := [], nextId := 1 }
      { documents := [], external_symbols := [] }).1 exNodeFile (by decide)⟩
/-! ## Lemmas about the narrowest-span caller choice -/

theorem sortBySpan_eq_nil {l : List FuncSpan} (h : sortBySpan l = []) : l = [] := by
  have hp := List.perm_insertionSort spanLe l
  unfold sortBySpan at h
  rw [h] at hp
  exact hp.symm.eq_nil

theorem mem_sortBySpan {l : List FuncSpan} {x : FuncSpan} :
    x ∈ sortBySpan l ↔ x ∈ l := List.mem_insertionSort spanLe

theorem sortBySpan_head_min {l : List FuncSpan} {c : FuncSpan} {rest : List FuncSpan}
    (h : sortBySpan l = c :: rest) : ∀ f ∈ l, spanLen c ≤ spanLen f := by
  intro f hf
  have hs : (sortBySpan l).Sorted spanLe := List.sorted_insertionSort spanLe l
  rw [h] at hs
  have hf2 : f ∈ c :: rest := by
    rw [← h, mem_sortBySpan]
    exact hf
  rcases List.mem_cons.mp hf2 with rfl | hmem
  · exact le_refl _
  · exact (List.sorted_cons.mp hs).1 f hmem

/-- C1: for every reference the caller chosen by `_process_document` is the
structural function with the smallest line-span among all functions whose
`(line_number, end_line)` span contains the reference's 1-based line, and a
reference contained in no function span produces no graph write at all. -/
theorem C1_narrowest_containing_caller :
    (∀ (functions : List FuncSpan) (refLine : Nat),
      (chooseCaller functions refLine = none ↔
        ∀ f ∈ functions, spanHasLine f refLine = false)) ∧
    (∀ (functions : List FuncSpan) (refLine : Nat) (c : FuncSpan),
      chooseCaller functions refLine = some c →
        c ∈ functions ∧ spanHasLine c refLine = true ∧
        ∀ f ∈ functions, spanHasLine f refLine = true → spanLen c ≤ spanLen f) ∧
    (∀ (sm : SymbolMap) (p : FPath) (functions : List FuncSpan) (g : Graph)
      (ref : Occurrence),
      (∀ f ∈ functions, spanHasLine f (r0 ref + 1) = false) →
      ref_step sm p functions g ref = g) := by
  have hnone : ∀ (functions : List FuncSpan) (refLine : Nat),
      chooseCaller functions refLine = none ↔
        ∀ f ∈ functions, spanHasLine f refLine = false := by
    intro functions refLine
    unfold chooseCaller
    constructor
    · intro h
      cases hs : sortBySpan (functions.filter (fun f => spanHasLine f refLine)) with
      | nil =>
        have hfe := sortBySpan_eq_nil hs
        intro f hf
        by_contra hc
        have : f ∈ functions.filter (fun f => spanHasLine f refLine) :=
          List.mem_filter.mpr ⟨hf, by simpa using hc⟩
        rw [hfe] at this
        simp at this
      | cons c rest => rw [hs] at h; simp at h
    · intro h
      have hfe : functions.filter (fun f => spanHasLine f refLine) = [] := by
        rw [List.filter_eq_nil_iff]
        intro f hf
        simp [h f hf]
      rw [hfe]
      rfl
  refine ⟨hnone, ?_, ?_⟩
  · intro functions refLine c h
    unfold chooseCaller at h
    cases hs : sortBySpan (functions.filter (fun f => spanHasLine f refLine)) with
    | nil => rw [hs] at h; simp at h
    | cons c0 rest =>
      rw [hs] at h
      have hc0 : c0 = c := by simpa using h
      subst hc0
      have hcmem : c0 ∈ functions.filter (fun f => spanHasLine f refLine) := by
        rw [← mem_sortBySpan, hs]
        simp
      have hc1 := List.mem_filter.mp hcmem
      refine ⟨hc1.1, by simpa using hc1.2, ?_⟩
      intro f hf hfl
      exact sortBySpan_head_min hs f (List.mem_filter.mpr ⟨hf, by simpa using hfl⟩)
  · intro sm p functions g ref h
    unfold ref_step
    by_cases hl : strStartsWith ref.symbol "local" = true
    · rw [if_pos hl]
    · rw [if_neg hl]
      have : chooseCaller functions (r0 ref + 1) = none := (hnone _ _).mpr h
      rw [this]

def exOuterSpan : FuncSpan := { name := "outer", line_number := 1, end_line := 20 }

def exInnerSpan : FuncSpan := { name := "inner", line_number := 5, end_line := 10 }

/-- Witness for C1: the spec's worked example — spans `[1,20]` and `[5,10]`
with a reference at line 7 — resolves to the `[5,10]` span, and the theorem
certifies its minimality; a line outside all spans drops the reference. -/
theorem C1_witness :
    chooseCaller [exOuterSpan, exInnerSpan] 7 = some exInnerSpan ∧
    (exInnerSpan ∈ [exOuterSpan, exInnerSpan] ∧
      spanHasLine exInnerSpan 7 = true ∧
      ∀ f ∈ [exOuterSpan, exInnerSpan], spanHasLine f 7 = true →
        spanLen exInnerSpan ≤ spanLen f) ∧
    ref_step [] [] [exOuterSpan, exInnerSpan] { nodes := [], edges := [], nextId := 0 }
      { range := [24, 0, 5], symbol := "x", symbol_roles := 0 } =
      { nodes := [], edges := [], nextId := 0 } :=
  ⟨by decide,
    C1_narrowest_containing_caller.2.1 [exOuterSpan, exInnerSpan] 7 exInnerSpan (by decide),
    C1_narrowest_containing_caller.2.2 [] [] [exOuterSpan, exInnerSpan] _ _ (by decide)⟩

/-! ## Lemmas about the CALLS upsert -/

theorem mergeEdges_spec (ty : String) (pairs : List (Nat × Nat)) :
    ∀ g : Graph, (mergeEdges g ty pairs).nodes = g.nodes ∧
      (mergeEdges g ty pairs).nextId = g.nextId ∧
      ∃ suf, (mergeEdges g ty pairs).edges = g.edges ++ suf ∧
        ∀ e ∈ suf, e.typ = ty ∧ (e.src, e.dst) ∈ pairs ∧ e.scip_verified = false := by
  induction pairs with
  | nil => intro g; exact ⟨rfl, rfl, [], by simp [mergeEdges], by simp⟩
  | cons ab rest ih =>
    intro g
    have step : (mergeEdge g ty ab).nodes = g.nodes ∧ (mergeEdge g ty ab).nextId = g.nextId ∧
        ∃ s0, (mergeEdge g ty ab).edges = g.edges ++ s0 ∧
          ∀ e ∈ s0, e.typ = ty ∧ (e.src, e.dst) ∈ ab :: rest ∧ e.scip_verified = false := by
      unfold mergeEdge
      by_cases h : hasEdge g ab.1 ty ab.2 = true
      · rw [if_pos h]; exact ⟨rfl, rfl, [], by simp, by simp⟩
      · rw [if_neg h]
        exact ⟨rfl, rfl, [{ src := ab.1, typ := ty, dst := ab.2 }], rfl, by simp⟩
    obtain ⟨hn0, hi0, s0, he0, hs0⟩ := step
    obtain ⟨hn1, hi1, s1, he1, hs1⟩ := ih (mergeEdge g ty ab)
    refine ⟨by simpa [mergeEdges] using hn1.trans hn0,
      by simpa [mergeEdges] using hi1.trans hi0, s0 ++ s1, ?_, ?_⟩
    · show (mergeEdges (mergeEdge g ty ab) ty rest).edges = g.edges ++ (s0 ++ s1)
      rw [he1, he0, List.append_assoc]
    · intro e he
      rcases List.mem_append.mp he with h1 | h1
      · exact hs0 e h1
      · obtain ⟨het, hep, hev⟩ := hs1 e h1
        exact ⟨het, by simp [hep], hev⟩

theorem verifyEdges_mem {g : Graph} {pairs : List (Nat × Nat)} {e : GEdge}
    (he : e ∈ (verifyEdges g pairs).edges) :
    ∃ x ∈ g.edges, (e = x ∧
        (pairs.any (fun ab => x.src == ab.1 && x.typ == "CALLS" && x.dst == ab.2)) = false) ∨
      (e = { x with scip_verified := true } ∧
        (pairs.any (fun ab => x.src == ab.1 && x.typ == "CALLS" && x.dst == ab.2)) = true) := by
  unfold verifyEdges at he
  simp only [List.mem_map] at he
  obtain ⟨x, hx, hxe⟩ := he
  refine ⟨x, hx, ?_⟩
  by_cases h : (pairs.any (fun ab => x.src == ab.1 && x.typ == "CALLS" && x.dst == ab.2)) = true
  · right
    rw [if_pos h] at hxe
    exact ⟨hxe.symm, h⟩
  · left
    rw [if_neg h] at hxe
    rw [Bool.not_eq_true] at h
    exact ⟨hxe.symm, h⟩

/-- New edges produced by one CALLS query are verified CALLS edges. -/
theorem q_calls_new_edges (g : Graph) (sel : GNode → Bool) (tL tSym tName : String) :
    ∀ e ∈ ((q_calls g sel tL tSym tName).1).edges, e ∉ g.edges →
      e.typ = "CALLS" ∧ e.scip_verified = true := by
  intro e he hnotin
  unfold q_calls at he
  by_cases hC : (g.nodes.filter sel).isEmpty = true
  · rw [if_pos hC] at he
    exact absurd he hnotin
  · rw [if_neg hC] at he
    simp only [] at he
    set g1 := if (symAt g tL tSym).isEmpty = true then
      addNode g tL { scip_symbol := some tSym, name := some tName } else g with hg1
    set pairs := ((g.nodes.filter sel).map (·.nid)).product
      ((symAt g1 tL tSym).map (·.nid)) with hpairs
    have hg1e : g1.edges = g.edges := by
      rw [hg1]
      by_cases h : (symAt g tL tSym).isEmpty = true
      · rw [if_pos h]; rfl
      · rw [if_neg h]
    obtain ⟨x, hx, hcase⟩ := verifyEdges_mem he
    obtain ⟨-, -, suf, hesuf, hsuf⟩ := mergeEdges_spec "CALLS" pairs g1
    rw [hesuf, hg1e] at hx
    rcases hcase with ⟨he1, hfalse⟩ | ⟨he1, htrue⟩
    · rcases List.mem_append.mp hx with h1 | h1
      · exact absurd (he1 ▸ h1) hnotin
      · obtain ⟨het, hep, -⟩ := hsuf x h1
        exfalso
        have ht : (pairs.any fun ab => x.src == ab.1 && x.typ == "CALLS" && x.dst == ab.2)
            = true := by
          rw [List.any_eq_true]
          refine ⟨(x.src, x.dst), hep, ?_⟩
          simp [het]
        rw [ht] at hfalse
        exact absurd hfalse (by decide)
    · rcases List.mem_append.mp hx with h1 | h1
      · rw [List.any_eq_true] at htrue
        obtain ⟨ab, -, hab⟩ := htrue
        have hcomp : (x.src = ab.1 ∧ x.typ = "CALLS") ∧ x.dst = ab.2 := by
          simpa using hab
        rw [he1]
        exact ⟨hcomp.1.2, rfl⟩
      · rw [he1]
        exact ⟨(hsuf x h1).1, rfl⟩

/-- The caller match set is nonempty exactly when the returned count is
positive. -/
theorem q_calls_count (g : Graph) (sel : GNode → Bool) (tL tSym tName : String) :
    ((q_calls g sel tL tSym tName).2 = 0) ↔ g.nodes.filter sel = [] := by
  unfold q_calls
  by_cases hC : (g.nodes.filter sel).isEmpty = true
  · rw [if_pos hC]
    simpa [List.isEmpty_iff] using hC
  · rw [if_neg hC]
    simp only []
    have hCne : g.nodes.filter sel ≠ [] := by
      simpa [List.isEmpty_iff] using hC
    constructor
    · intro h
      exfalso
      rcases Nat.mul_eq_zero.mp h with h1 | h1
      · exact hCne (List.length_eq_zero.mp h1)
      · -- the target set after the conditional merge is nonempty
        set g1 := if (symAt g tL tSym).isEmpty = true then
          addNode g tL { scip_symbol := some tSym, name := some tName } else g with hg1
        have : symAt g1 tL tSym ≠ [] := by
          rw [hg1]
          by_cases h2 : (symAt g tL tSym).isEmpty = true
          · rw [if_pos h2]
            unfold symAt addNode
            rw [List.filter_append]
            simp
          · rw [if_neg h2]
            simpa [List.isEmpty_iff] using h2
        exact this (List.length_eq_zero.mp h1)
    · intro h
      exact absurd h hCne

/-- C4: the CALLS upsert looks the caller up by exact `(path, name)` first;
whenever that yields no caller node it falls back to `(path, line_number)`;
and every edge record created by either path carries `scip_verified = true`. -/
theorem C4_caller_lookup_fallback_verified :
    (∀ (g : Graph) (p : FPath) (nm : String) (ln : Nat) (tL tSym tName : String),
      g.nodes.filter (callerNameSel p nm) ≠ [] →
      ref_upsert g p nm ln tL tSym tName = (q_calls g (callerNameSel p nm) tL tSym tName).1) ∧
    (∀ (g : Graph) (p : FPath) (nm : String) (ln : Nat) (tL tSym tName : String),
      g.nodes.filter (callerNameSel p nm) = [] →
      ref_upsert g p nm ln tL tSym tName = (q_calls g (callerLineSel p ln) tL tSym tName).1) ∧
    (∀ (g : Graph) (p : FPath) (nm : String) (ln : Nat) (tL tSym tName : String),
      ∀ e ∈ (ref_upsert g p nm ln tL tSym tName).edges, e ∉ g.edges →
        e.typ = "CALLS" ∧ e.scip_verified = true) := by
  refine ⟨?_, ?_, ?_⟩
  · intro g p nm ln tL tSym tName h
    unfold ref_upsert
    rw [if_neg (fun hzero => h ((q_calls_count g (callerNameSel p nm) tL tSym tName).mp hzero))]
  · intro g p nm ln tL tSym tName h
    unfold ref_upsert
    have h0 : (q_calls g (callerNameSel p nm) tL tSym tName).2 = 0 :=
      (q_calls_count g (callerNameSel p nm) tL tSym tName).mpr h
    rw [if_pos h0]
    have hsame : (q_calls g (callerNameSel p nm) tL tSym tName).1 = g := by
      unfold q_calls
      rw [if_pos (by simpa [List.isEmpty_iff] using h)]
    rw [hsame]
  · intro g p nm ln tL tSym tName e he hne
    unfold ref_upsert at he
    by_cases h0 : (q_calls g (callerNameSel p nm) tL tSym tName).2 = 0
    · rw [if_pos h0] at he
      have hprim : (q_calls g (callerNameSel p nm) tL tSym tName).1 = g := by
        unfold q_calls
        rw [if_pos (by simpa [List.isEmpty_iff] using (q_calls_count _ _ _ _ _).mp h0)]
      rw [hprim] at he
      exact q_calls_new_edges g (callerLineSel p ln) tL tSym tName e he hne
    · rw [if_neg h0] at he
      exact q_calls_new_edges g (callerNameSel p nm) tL tSym tName e he hne

def exCallerNode : GNode :=
  { nid := 0, label := "Function",
    props := { name := some "f", path := some ["r", "a.py"], line_number := some 3 } }

def exGraphC4 : Graph := { nodes := [exCallerNode], edges := [], nextId := 1 }

/-- Witness for C4: with one matching caller the primary path is taken and a
fresh verified CALLS edge appears; with no matching caller the fallback by
line number runs. -/
theorem C4_witness :
    (exGraphC4.nodes.filter (callerNameSel ["r", "a.py"] "f") ≠ [] ∧
      ref_upsert exGraphC4 ["r", "a.py"] "f" 3 "Function" "sym f()." "f" =
        (q_calls exGraphC4 (callerNameSel ["r", "a.py"] "f") "Function" "sym f()." "f").1) ∧
    (exGraphC4.nodes.filter (callerNameSel ["r", "a.py"] "g") = [] ∧
      ref_upsert exGraphC4 ["r", "a.py"] "g" 3 "Function" "sym f()." "f" =
        (q_calls exGraphC4 (callerLineSel ["r", "a.py"] 3) "Function" "sym f()." "f").1) ∧
    ({ src := 0, typ := "CALLS", dst := 1, scip_verified := true } ∈
        (ref_upsert exGraphC4 ["r", "a.py"] "f" 3 "Function" "sym f()." "f").edges ∧
      ({ src := 0, typ := "CALLS", dst := 1, scip_verified := true } : GEdge).typ = "CALLS" ∧
      ({ src := 0, typ := "CALLS", dst := 1, scip_verified := true } : GEdge).scip_verified = true) :=
  ⟨⟨by decide, C4_caller_lookup_fallback_verified.1 exGraphC4 _ _ _ _ _ _ (by decide)⟩,
   ⟨by decide, C4_caller_lookup_fallback_verified.2.1 exGraphC4 _ _ _ _ _ _ (by decide)⟩,
   by decide,
   (C4_caller_lookup_fallback_verified.2.2 exGraphC4 ["r", "a.py"] "f" 3 "Function"
      "sym f()." "f" { src := 0, typ := "CALLS", dst := 1, scip_verified := true }
      (by decide) (by decide)).1,
   (C4_caller_lookup_fallback_verified.2.2 exGraphC4 ["r", "a.py"] "f" 3 "Function"
      "sym f()." "f" { src := 0, typ := "CALLS", dst := 1, scip_verified := true }
      (by decide) (by decide)).2⟩
/-! ## Entry-field lemmas for the parsers -/

theorem find_functions_fields (t : TSTree) (caps : List (TSNode × String)) (i : Bool) :
    ∀ e ∈ find_functions t caps i, e.is_dependency = false ∧ e.lang = "elixir" := by
  intro e he
  unfold find_functions at he
  simp only [List.mem_filterMap] at he
  obtain ⟨fd, -, hmk⟩ := he
  split at hmk
  · split at hmk
    · obtain rfl := Option.some.inj hmk
      exact ⟨rfl, rfl⟩
    · simp at hmk
  · simp at hmk

theorem find_classes_fields (t : TSTree) (caps : List (TSNode × String)) (i : Bool) :
    ∀ e ∈ find_classes t caps i, e.is_dependency = false ∧ e.lang = "elixir" := by
  intro e he
  unfold find_classes at he
  simp only [List.mem_filterMap] at he
  obtain ⟨cd, -, hmk⟩ := he
  split at hmk
  · split at hmk
    · obtain rfl := Option.some.inj hmk
      exact ⟨rfl, rfl⟩
    · simp at hmk
  · simp at hmk

theorem find_imports_fields (caps : List (TSNode × String)) :
    ∀ e ∈ find_imports caps, e.is_dependency = false ∧ e.lang = "elixir" := by
  intro e he
  unfold find_imports at he
  simp only [List.mem_filterMap] at he
  obtain ⟨im, -, hmk⟩ := he
  split at hmk
  · split at hmk
    · obtain rfl := Option.some.inj hmk
      exact ⟨rfl, rfl⟩
    · simp at hmk
  · simp at hmk

theorem find_calls_fields (t : TSTree) (caps : List (TSNode × String)) :
    ∀ e ∈ find_calls t caps, e.is_dependency = false ∧ e.lang = "elixir" := by
  intro e he
  unfold find_calls at he
  simp only [List.mem_filterMap] at he
  obtain ⟨cd, -, hmk⟩ := he
  split at hmk
  · split at hmk
    · obtain rfl := Option.some.inj hmk
      exact ⟨rfl, rfl⟩
    · simp at hmk
  · simp at hmk

theorem find_variables_fields (t : TSTree) (caps : List (TSNode × String)) :
    ∀ e ∈ find_variables t caps, e.is_dependency = false ∧ e.lang = "elixir" := by
  intro e he
  unfold find_variables at he
  simp only [List.mem_filterMap] at he
  obtain ⟨ad, -, hmk⟩ := he
  split at hmk
  · split at hmk
    · obtain rfl := Option.some.inj hmk
      exact ⟨rfl, rfl⟩
    · simp at hmk
  · simp at hmk

theorem find_macros_fields (t : TSTree) (caps : List (TSNode × String)) (i : Bool) :
    ∀ e ∈ find_macros t caps i, e.is_dependency = false ∧ e.lang = "elixir" := by
  intro e he
  unfold find_macros at he
  simp only [List.mem_filterMap] at he
  obtain ⟨md, -, hmk⟩ := he
  split at hmk
  · split at hmk
    · obtain rfl := Option.some.inj hmk
      exact ⟨rfl, rfl⟩
    · simp at hmk
  · simp at hmk

theorem heex_find_components_fields (t : TSTree) (caps : List (TSNode × String)) (i : Bool) :
    ∀ e ∈ heex_find_components t caps i, e.is_dependency = false ∧ e.lang = "heex" := by
  intro e he
  unfold heex_find_components at he
  simp only [List.mem_filterMap] at he
  obtain ⟨cap, -, hmk⟩ := he
  split at hmk
  · split at hmk
    · split at hmk
      · obtain rfl := Option.some.inj hmk
        exact ⟨rfl, rfl⟩
      · simp at hmk
    · simp at hmk
  · simp at hmk

theorem heex_find_directives_fields (caps : List (TSNode × String)) :
    ∀ e ∈ heex_find_directives caps, e.is_dependency = false ∧ e.lang = "heex" := by
  intro e he
  unfold heex_find_directives at he
  simp only [List.mem_filterMap] at he
  obtain ⟨cap, -, hmk⟩ := he
  split at hmk
  · obtain rfl := Option.some.inj hmk
    exact ⟨rfl, rfl⟩
  · simp at hmk

theorem heex_find_imports_go_fields (t : TSTree) :
    ∀ (caps : List (TSNode × String)) (seen : List String) (acc : List HeexImportEntry),
      ∀ e ∈ heex_find_imports_go t caps seen acc,
        e ∈ acc ∨ (e.is_dependency = false ∧ e.lang = "heex") := by
  intro caps
  induction caps with
  | nil => intro seen acc e he; exact Or.inl he
  | cons cap rest ih =>
    intro seen acc e he
    unfold heex_find_imports_go at he
    by_cases hc : cap.2 = "comp_name"
    · rw [if_pos hc] at he
      by_cases hdot : strContains cap.1.text "." = true ∧ ¬ strStartsWith cap.1.text "." = true
      · rw [if_pos hdot] at he
        by_cases hseen : rsplitModule cap.1.text ∈ seen
        · rw [if_pos hseen] at he
          exact ih _ _ e he
        · rw [if_neg hseen] at he
          rcases ih _ _ e he with hacc | hfields
          · rcases List.mem_append.mp hacc with h1 | h1
            · exact Or.inl h1
            · right
              have he2 := List.mem_singleton.mp h1
              rw [he2]
              exact ⟨rfl, rfl⟩
          · exact Or.inr hfields
      · rw [if_neg hdot] at he
        exact ih _ _ e he
    · rw [if_neg hc] at he
      exact ih _ _ e he

theorem heex_find_imports_fields (t : TSTree) (caps : List (TSNode × String)) :
    ∀ e ∈ heex_find_imports t caps, e.is_dependency = false ∧ e.lang = "heex" := by
  intro e he
  rcases heex_find_imports_go_fields t caps [] [] e he with h | h
  · simp at h
  · exact h

/-! ## C9: the HEEx structural record shape -/

/-- C9: for every successfully parsed HEEx template the structural record has
empty `classes` and `function_calls`, its `functions` are exactly the found
components and its `variables` exactly the found directives. -/
theorem C9_heex_record_shape (env : ParserEnv) (path : String) (dep idx : Bool)
    (bs : List Nat) (r : HeexRecord) (h1 : env.fs path = some bs)
    (h2 : heexParse env path dep idx = .ok r) :
    r.classes = [] ∧ r.function_calls = [] ∧
    r.functions = heex_find_components (env.mkTree (pyDecodeUtf8Ignore bs))
      (env.execQ (env.mkTree (pyDecodeUtf8Ignore bs)) heexQueryComponents) idx ∧
    r.variable_entries = heex_find_directives
      (env.execQ (env.mkTree (pyDecodeUtf8Ignore bs)) heexQueryDirectives) := by
  unfold heexParse at h2
  rw [h1] at h2
  obtain rfl := Except.ok.inj h2
  exact ⟨rfl, rfl, rfl, rfl⟩

def exEnvEmpty : ParserEnv :=
  { fs := fun _ => some [], mkTree := fun _ => [], execQ := fun _ _ => [] }

def exHeexRecord : HeexRecord :=
  { path := "t.heex", functions := [], classes := [], variable_entries := [],
    imports := [], function_calls := [], is_dependency := false, lang := "heex" }

/-- Witness for C9 on a concrete empty template. -/
theorem C9_witness :
    exHeexRecord.classes = [] ∧ exHeexRecord.function_calls = [] ∧
    exHeexRecord.functions = heex_find_components (exEnvEmpty.mkTree (pyDecodeUtf8Ignore []))
      (exEnvEmpty.execQ (exEnvEmpty.mkTree (pyDecodeUtf8Ignore [])) heexQueryComponents) false ∧
    exHeexRecord.variable_entries = heex_find_directives
      (exEnvEmpty.execQ (exEnvEmpty.mkTree (pyDecodeUtf8Ignore [])) heexQueryDirectives) :=
  C9_heex_record_shape exEnvEmpty "t.heex" false false [] exHeexRecord rfl rfl
/-! ## C5: `is_dependency` pass-through (corrected) -/

def exN0 : TSNode :=
  { nid := 0, ntype := "call", text := "def f(x) do end", startByte := 0, endByte := 15,
    startRow := 0, endRow := 2 }

def exN1 : TSNode :=
  { nid := 1, ntype := "identifier", text := "f", startByte := 4, endByte := 5 }

def exN2 : TSNode :=
  { nid := 2, ntype := "arguments", text := "(x)", startByte := 5, endByte := 8 }

def exN3 : TSNode :=
  { nid := 3, ntype := "identifier", text := "def", startByte := 0, endByte := 3 }

def exTreeFn : TSTree := [exN0, exN1, exN2, exN3]

def exCapsFn : List (TSNode × String) :=
  [(exN0, "func_def"), (exN3, "def_type"), (exN1, "func_name"), (exN2, "func_args")]

def exEnvFn : ParserEnv :=
  { fs := fun _ => some []
    mkTree := fun _ => exTreeFn
    execQ := fun _ q => if q = elixirQueryFunctions then exCapsFn else [] }

/-- Counterexample to C5 as stated: parsing with `is_dependency = true`
yields a function entry whose `is_dependency` field is `false` — the entry
records hard-code `False` and only the top-level record carries the passed
value. -/
theorem C5_counterexample :
    (elixirParse exEnvFn "a.ex" true false).toOption.map
      (fun r => (r.is_dependency, r.functions.map (fun f => f.is_dependency))) =
      some (true, [false]) := by decide

/-- C5 (amended): both parsers pass `is_dependency` through to the top-level
structural record and stamp the fixed `lang` tag on the record and on every
entry, but every entry-level record carries `is_dependency = false` regardless
of the argument. -/
theorem C5_amended_dependency_and_lang :
    (∀ (env : ParserEnv) (path : String) (dep idx : Bool) (r : ElixirRecord),
      elixirParse env path dep idx = .ok r →
      r.is_dependency = dep ∧ r.lang = "elixir" ∧
      (∀ x ∈ r.functions, x.is_dependency = false ∧ x.lang = "elixir") ∧
      (∀ x ∈ r.classes, x.is_dependency = false ∧ x.lang = "elixir") ∧
      (∀ x ∈ r.imports, x.is_dependency = false ∧ x.lang = "elixir") ∧
      (∀ x ∈ r.function_calls, x.is_dependency = false ∧ x.lang = "elixir") ∧
      (∀ x ∈ r.variable_entries, x.is_dependency = false ∧ x.lang = "elixir") ∧
      (∀ x ∈ r.macros, x.is_dependency = false ∧ x.lang = "elixir")) ∧
    (∀ (env : ParserEnv) (path : String) (dep idx : Bool) (r : HeexRecord),
      heexParse env path dep idx = .ok r →
      r.is_dependency = dep ∧ r.lang = "heex" ∧
      (∀ x ∈ r.functions, x.is_dependency = false ∧ x.lang = "heex") ∧
      (∀ x ∈ r.variable_entries, x.is_dependency = false ∧ x.lang = "heex") ∧
      (∀ x ∈ r.imports, x.is_dependency = false ∧ x.lang = "heex")) := by
  constructor
  · intro env path dep idx r h
    unfold elixirParse at h
    cases hf : env.fs path with
    | none => rw [hf] at h; exact absurd h (by simp)
    | some bs =>
      rw [hf] at h
      obtain rfl := Except.ok.inj h
      refine ⟨rfl, rfl, ?_, ?_, ?_, ?_, ?_, ?_⟩
      · exact find_functions_fields _ _ _
      · exact find_classes_fields _ _ _
      · exact find_imports_fields _
      · exact find_calls_fields _ _
      · exact find_variables_fields _ _
      · exact find_macros_fields _ _ _
  · intro env path dep idx r h
    unfold heexParse at h
    cases hf : env.fs path with
    | none => rw [hf] at h; exact absurd h (by simp)
    | some bs =>
      rw [hf] at h
      obtain rfl := Except.ok.inj h
      refine ⟨rfl, rfl, ?_, ?_, ?_⟩
      · exact heex_find_components_fields _ _ _
      · exact heex_find_directives_fields _
      · exact heex_find_imports_fields _ _

/-- Witness for the amended C5 at a concrete parse with `is_dependency = true`. -/
theorem C5_witness :
    (elixirParse exEnvFn "a.ex" true false).toOption.map (fun r => r.is_dependency) =
      some true ∧
    (elixirParse exEnvFn "a.ex" true false).toOption.map (fun r => r.lang) =
      some "elixir" := by
  cases hp : elixirParse exEnvFn "a.ex" true false with
  | error err =>
    rw [show elixirParse exEnvFn "a.ex" true false =
      Except.ok (elixirBuild exEnvFn (pyDecodeUtf8Ignore []) "a.ex" true false) from rfl] at hp
    exact Except.noConfusion hp
  | ok r =>
    obtain ⟨h1, h2, -⟩ := C5_amended_dependency_and_lang.1 exEnvFn "a.ex" true false r hp
    simp [hp, Except.toOption, h1, h2]

/-! ## C7: error handling of `parse` (corrected) -/

/-- Counterexample to the "replace-on-error" decode clause of C7: the parsers
open files with `errors="ignore"`, so the lone invalid byte `0xFF` decodes to
the empty string rather than U+FFFD, observably changing the parse result
relative to the replace-on-error variant. -/
theorem C7_counterexample :
    pyDecodeUtf8Ignore [255] = "" ∧
    pyDecodeUtf8Replace [255] = String.mk [Char.ofNat 0xFFFD] ∧
    pyDecodeUtf8Ignore [255] ≠ pyDecodeUtf8Replace [255] := by decide

/-- C7 (amended): `parse` never fails after a successful read — every
sub-extraction is total and a readable file always yields a record built from
the `errors="ignore"` (not "replace") lossy decode of its bytes; only a
failed file read is an error, for both parsers. -/
theorem C7_amended_read_failure_only :
    (∀ (env : ParserEnv) (path : String) (dep idx : Bool),
      env.fs path = none → elixirParse env path dep idx = .error "FileNotFoundError") ∧
    (∀ (env : ParserEnv) (path : String) (dep idx : Bool) (bs : List Nat),
      env.fs path = some bs →
      elixirParse env path dep idx =
        .ok (elixirBuild env (pyDecodeUtf8Ignore bs) path dep idx)) ∧
    (∀ (env : ParserEnv) (path : String) (dep idx : Bool),
      env.fs path = none → heexParse env path dep idx = .error "FileNotFoundError") ∧
    (∀ (env : ParserEnv) (path : String) (dep idx : Bool) (bs : List Nat),
      env.fs path = some bs →
      heexParse env path dep idx =
        .ok (heexBuild env (pyDecodeUtf8Ignore bs) path dep idx)) := by
  refine ⟨?_, ?_, ?_, ?_⟩ <;> intro env path dep idx
  · intro h; unfold elixirParse; rw [h]
  · intro bs h; unfold elixirParse; rw [h]
  · intro h; unfold heexParse; rw [h]
  · intro bs h; unfold heexParse; rw [h]

def exEnvMissing : ParserEnv :=
  { fs := fun _ => none, mkTree := fun _ => [], execQ := fun _ _ => [] }

/-- Witness for the amended C7: a missing file errors, a readable file with
undecodable bytes still parses. -/
theorem C7_witness :
    elixirParse exEnvMissing "gone.ex" false false = .error "FileNotFoundError" ∧
    heexParse exEnvEmpty "t.heex" false false =
      .ok (heexBuild exEnvEmpty (pyDecodeUtf8Ignore []) "t.heex" false false) :=
  ⟨C7_amended_read_failure_only.1 exEnvMissing "gone.ex" false false rfl,
    C7_amended_read_failure_only.2.2.2 exEnvEmpty "t.heex" false false [] rfl⟩
/-! ## C3 groundwork: identity lemmas for saturated queries -/

theorem list_map_id {α : Type} {l : List α} {f : α → α} (h : ∀ a ∈ l, f a = a) :
    l.map f = l := by
  induction l with
  | nil => rfl
  | cons a as ih => simp [h a (by simp), ih (fun x hx => h x (by simp [hx]))]

theorem gnode_eta (n : GNode) : { nid := n.nid, label := n.label, props := n.props } = n := rfl

theorem nprops_upd_rel_name {pr : NProps} {rel nm : String}
    (h1 : pr.relative_path = some rel) (h2 : pr.name = some nm) :
    { pr with relative_path := some rel, name := some nm } = pr := by
  cases pr
  simp_all

theorem nprops_upd_name {pr : NProps} {nm : String} (h : pr.name = some nm) :
    { pr with name := some nm } = pr := by
  cases pr
  simp_all

theorem nprops_upd_def {pr : NProps} {nm : String} {p : FPath} {ln : Nat}
    (h1 : pr.name = some nm) (h2 : pr.path = some p) (h3 : pr.line_number = some ln) :
    { pr with name := some nm, path := some p, line_number := some ln } = pr := by
  cases pr
  simp_all

theorem setProps_id {g : Graph} {sel : GNode → Bool} {f : NProps → NProps}
    (h : ∀ n ∈ g.nodes, sel n = true → f n.props = n.props) : setProps g sel f = g := by
  unfold setProps
  have : g.nodes.map (fun n => if sel n then { n with props := f n.props } else n) = g.nodes := by
    apply list_map_id
    intro n hn
    by_cases hs : sel n = true
    · rw [if_pos hs, h n hn hs]
    · rw [if_neg hs]
  rw [this]

theorem mergeEdges_id {g : Graph} {ty : String} {pairs : List (Nat × Nat)}
    (h : ∀ ab ∈ pairs, hasEdge g ab.1 ty ab.2 = true) : mergeEdges g ty pairs = g := by
  induction pairs with
  | nil => rfl
  | cons ab rest ih =>
    unfold mergeEdges
    simp only [List.foldl_cons]
    have h1 : mergeEdge g ty ab = g := by
      unfold mergeEdge
      rw [if_pos (h ab (by simp))]
    rw [h1]
    exact ih (fun x hx => h x (by simp [hx]))

theorem verifyEdges_id {g : Graph} {pairs : List (Nat × Nat)}
    (h : ∀ e ∈ g.edges,
      (pairs.any fun ab => e.src == ab.1 && e.typ == "CALLS" && e.dst == ab.2) = true →
      e.scip_verified = true) : verifyEdges g pairs = g := by
  unfold verifyEdges
  have : g.edges.map (fun e =>
      if pairs.any (fun ab => e.src == ab.1 && e.typ == "CALLS" && e.dst == ab.2) then
        { e with scip_verified := true } else e) = g.edges := by
    apply list_map_id
    intro e he
    by_cases hc : (pairs.any fun ab => e.src == ab.1 && e.typ == "CALLS" && e.dst == ab.2) = true
    · rw [if_pos hc]
      have := h e he hc
      cases e
      simp_all
    · rw [if_neg hc]
  rw [this]

theorem labelAt_mem {g : Graph} {L : String} {p : FPath} {n : GNode} :
    n ∈ labelAt g L p ↔ n ∈ g.nodes ∧ n.label = L ∧ n.props.path = some p := by
  unfold labelAt
  rw [List.mem_filter]
  constructor
  · rintro ⟨h1, h2⟩
    have h3 := Bool.and_eq_true_iff.mp h2
    exact ⟨h1, by simpa using h3.1, by simpa using h3.2⟩
  · rintro ⟨h1, h2, h3⟩
    refine ⟨h1, ?_⟩
    rw [Bool.and_eq_true_iff]
    exact ⟨by simpa using h2, by simpa using h3⟩

theorem symAt_mem {g : Graph} {L s : String} {n : GNode} :
    n ∈ symAt g L s ↔ n ∈ g.nodes ∧ n.label = L ∧ n.props.scip_symbol = some s := by
  unfold symAt
  rw [List.mem_filter]
  constructor
  · rintro ⟨h1, h2⟩
    have h3 := Bool.and_eq_true_iff.mp h2
    exact ⟨h1, by simpa using h3.1, by simpa using h3.2⟩
  · rintro ⟨h1, h2, h3⟩
    refine ⟨h1, ?_⟩
    rw [Bool.and_eq_true_iff]
    exact ⟨by simpa using h2, by simpa using h3⟩

theorem q_merge_file_fixed {g : Graph} {p : FPath} {rel nm : String}
    (h1 : labelAt g "File" p ≠ [])
    (h2 : ∀ n ∈ labelAt g "File" p,
      n.props.relative_path = some rel ∧ n.props.name = some nm) :
    q_merge_file g p rel nm = g := by
  unfold q_merge_file
  rw [if_neg (by simpa [List.isEmpty_iff] using h1)]
  apply setProps_id
  intro n hn hs
  have hmem : n ∈ labelAt g "File" p := by
    unfold labelAt
    exact List.mem_filter.mpr ⟨hn, hs⟩
  exact nprops_upd_rel_name (h2 n hmem).1 (h2 n hmem).2

theorem q_link_file_fixed {g : Graph} {pl : String} {pp fp : FPath}
    (h : ∀ p ∈ labelAt g pl pp, ∀ f ∈ labelAt g "File" fp,
      hasEdge g p.nid "CONTAINS" f.nid = true) :
    q_link_file g pl pp fp = g := by
  unfold q_link_file
  apply mergeEdges_id
  intro ab hab
  rcases List.pair_mem_product.mp hab with ⟨ha, hb⟩
  obtain ⟨p, hp, hpe⟩ := List.mem_map.mp ha
  obtain ⟨f, hf, hfe⟩ := List.mem_map.mp hb
  rw [← hpe, ← hfe]
  exact h p hp f hf

theorem q_dir_step_fixed_empty {g : Graph} {pl : String} {pp cur : FPath} {part : String}
    (h : labelAt g pl pp = []) : q_dir_step g pl pp cur part = g := by
  unfold q_dir_step
  rw [if_pos (by simpa [List.isEmpty_iff] using h)]

theorem q_dir_step_fixed {g : Graph} {pl : String} {pp : FPath} {part : String}
    (hD : labelAt g "Directory" (pp ++ [part]) ≠ [])
    (hN : ∀ dn ∈ labelAt g "Directory" (pp ++ [part]), dn.props.name = some part)
    (hE : ∀ p ∈ labelAt g pl pp, ∀ dn ∈ labelAt g "Directory" (pp ++ [part]),
      hasEdge g p.nid "CONTAINS" dn.nid = true) :
    q_dir_step g pl pp (pp ++ [part]) part = g := by
  unfold q_dir_step
  by_cases hP : (labelAt g pl pp).isEmpty = true
  · rw [if_pos hP]
  · rw [if_neg hP]
    simp only []
    rw [if_neg (by simpa [List.isEmpty_iff] using hD)]
    have hset : setProps g (fun n => n.label == "Directory" && n.props.path == some (pp ++ [part]))
        (fun pr => { pr with name := some part }) = g := by
      apply setProps_id
      intro n hn hs
      have hmem : n ∈ labelAt g "Directory" (pp ++ [part]) := by
        unfold labelAt
        exact List.mem_filter.mpr ⟨hn, hs⟩
      exact nprops_upd_name (hN n hmem)
    rw [hset]
    apply mergeEdges_id
    intro ab hab
    rcases List.pair_mem_product.mp hab with ⟨ha, hb⟩
    obtain ⟨p, hp, hpe⟩ := List.mem_map.mp ha
    obtain ⟨dn, hdn, hde⟩ := List.mem_map.mp hb
    rw [← hpe, ← hde]
    exact hE p hp dn hdn

theorem hier_go_fixed {fp : FPath} :
    ∀ (parts : List String) (pl : String) (pp : FPath) (g : Graph),
      ChainFixed g fp pl pp parts → hier_go fp pl pp parts g = g := by
  intro parts
  induction parts with
  | nil =>
    intro pl pp g h
    unfold hier_go
    rcases h with h | h
    · apply q_link_file_fixed
      intro p hp
      rw [h] at hp
      simp at hp
    · exact q_link_file_fixed h
  | cons part rest ih =>
    intro pl pp g h
    obtain ⟨hstep, hrest⟩ := h
    unfold hier_go
    have hfix : q_dir_step g pl pp (pp ++ [part]) part = g := by
      rcases hstep with h | ⟨hD, hN, hE⟩
      · exact q_dir_step_fixed_empty h
      · exact q_dir_step_fixed hD hN hE
    rw [hfix]
    exact ih "Directory" (pp ++ [part]) g hrest
theorem q_def_node_fixed {g : Graph} {L sym nm : String} {p : FPath} {ln : Nat}
    (hS : symAt g L sym ≠ [])
    (hP : ∀ n ∈ symAt g L sym,
      n.props.name = some nm ∧ n.props.path = some p ∧ n.props.line_number = some ln)
    (hE : ∀ f ∈ labelAt g "File" p, ∀ n ∈ symAt g L sym,
      hasEdge g f.nid "CONTAINS" n.nid = true) :
    q_def_node g L sym nm p ln = g := by
  unfold q_def_node
  by_cases hF : (labelAt g "File" p).isEmpty = true
  · rw [if_pos hF]
  · rw [if_neg hF]
    simp only []
    rw [if_neg (by simpa [List.isEmpty_iff] using hS)]
    have hset : setProps g (fun n => n.label == L && n.props.scip_symbol == some sym)
        (fun pr => { pr with name := some nm, path := some p, line_number := some ln }) = g := by
      apply setProps_id
      intro n hn hs
      have hmem : n ∈ symAt g L sym := by
        unfold symAt
        exact List.mem_filter.mpr ⟨hn, hs⟩
      exact nprops_upd_def (hP n hmem).1 (hP n hmem).2.1 (hP n hmem).2.2
    rw [hset]
    apply mergeEdges_id
    intro ab hab
    rcases List.pair_mem_product.mp hab with ⟨ha, hb⟩
    obtain ⟨f, hf, hfe⟩ := List.mem_map.mp ha
    obtain ⟨n, hn, hne⟩ := List.mem_map.mp hb
    rw [← hfe, ← hne]
    exact hE f hf n hn

theorem def_step_fixed {sm : SymbolMap} {p : FPath} {g : Graph} {occ : Occurrence}
    (h : DefFixed sm p g occ) : def_step sm p g occ = g := by
  unfold def_step
  rcases h with h | h | ⟨hS, hP, hE⟩
  · rw [if_pos h]
  · by_cases hl : strStartsWith occ.symbol "local" = true
    · rw [if_pos hl]
    · rw [if_neg hl]
      unfold q_def_node
      rw [if_pos (by simpa [List.isEmpty_iff] using h)]
  · by_cases hl : strStartsWith occ.symbol "local" = true
    · rw [if_pos hl]
    · rw [if_neg hl]
      exact q_def_node_fixed hS hP hE

theorem q_calls_fixed {g : Graph} {sel : GNode → Bool} {tL tSym tName : String}
    (h : g.nodes.filter sel ≠ [] → CallsFixed g (g.nodes.filter sel) tL tSym) :
    (q_calls g sel tL tSym tName).1 = g := by
  unfold q_calls
  by_cases hC : (g.nodes.filter sel).isEmpty = true
  · rw [if_pos hC]
  · rw [if_neg hC]
    simp only []
    obtain ⟨hT, hOK⟩ := h (by simpa [List.isEmpty_iff] using hC)
    rw [if_neg (by simpa [List.isEmpty_iff] using hT)]
    have hmerge : mergeEdges g "CALLS"
        (((g.nodes.filter sel).map (·.nid)).product ((symAt g tL tSym).map (·.nid))) = g := by
      apply mergeEdges_id
      intro ab hab
      rcases List.pair_mem_product.mp hab with ⟨ha, hb⟩
      obtain ⟨c, hc, hce⟩ := List.mem_map.mp ha
      obtain ⟨tn, htn, hte⟩ := List.mem_map.mp hb
      rw [← hce, ← hte]
      exact (hOK c hc tn htn).1
    rw [hmerge]
    apply verifyEdges_id
    intro e he hcond
    rw [List.any_eq_true] at hcond
    obtain ⟨ab, hab, habc⟩ := hcond
    have hcomp : (e.src = ab.1 ∧ e.typ = "CALLS") ∧ e.dst = ab.2 := by simpa using habc
    rcases List.pair_mem_product.mp hab with ⟨ha, hb⟩
    obtain ⟨c, hc, hce⟩ := List.mem_map.mp ha
    obtain ⟨tn, htn, hte⟩ := List.mem_map.mp hb
    exact (hOK c hc tn htn).2 e he (hce ▸ hcomp.1.1) hcomp.1.2 (hte ▸ hcomp.2)

theorem ref_step_fixed {sm : SymbolMap} {p : FPath} {functions : List FuncSpan}
    {g : Graph} {ref : Occurrence} (h : RefFixed sm p functions g ref) :
    ref_step sm p functions g ref = g := by
  unfold ref_step
  rcases h with h | h | h
  · rw [if_pos h]
  · by_cases hl : strStartsWith ref.symbol "local" = true
    · rw [if_pos hl]
    · rw [if_neg hl, h]
  · by_cases hl : strStartsWith ref.symbol "local" = true
    · rw [if_pos hl]
    · rw [if_neg hl]
      cases hc : chooseCaller functions (r0 ref + 1) with
      | none => rfl
      | some caller =>
        obtain ⟨hempty, hne⟩ := h caller hc
        simp only []
        unfold ref_upsert
        by_cases hC : g.nodes.filter (callerNameSel p caller.name) = []
        · have h0 : (q_calls g (callerNameSel p caller.name)
              (targetLabelOf (((smGet sm ref.symbol).map (·.kind)).getD 0) ref.symbol)
              ref.symbol (extract_name ref.symbol (smGet sm ref.symbol))).2 = 0 :=
            (q_calls_count _ _ _ _ _).mpr hC
          rw [if_pos h0]
          have hprim : (q_calls g (callerNameSel p caller.name)
              (targetLabelOf (((smGet sm ref.symbol).map (·.kind)).getD 0) ref.symbol)
              ref.symbol (extract_name ref.symbol (smGet sm ref.symbol))).1 = g := by
            unfold q_calls
            rw [if_pos (by simpa [List.isEmpty_iff] using hC)]
          rw [hprim]
          apply q_calls_fixed
          intro hC2
          rcases hempty hC with h2 | h2
          · exact absurd h2 hC2
          · exact h2
        · rw [if_neg (fun h0 => hC ((q_calls_count _ _ _ _ _).mp h0))]
          apply q_calls_fixed
          intro _
          exact hne hC

theorem doc_stage_refs_fixed {sm : SymbolMap} {env : ScipEnv} {d : Document} {g : Graph}
    (h : RefsStageFixed sm env d g) : doc_stage_refs sm env d g = g := by
  unfold doc_stage_refs
  rcases h with h | h | ⟨functions, hf, hcase⟩
  · rw [h]
    rfl
  · by_cases he : env.fileExists (docFP env d) = true
    · simp only [he, Bool.not_true, if_neg (by simp : ¬ (false = true))]
      rw [h]
    · have : env.fileExists (docFP env d) = false := by
        cases hv : env.fileExists (docFP env d)
        · rfl
        · exact absurd hv he
      rw [this]
      rfl
  · by_cases he : env.fileExists (docFP env d) = true
    · simp only [he, Bool.not_true, if_neg (by simp : ¬ (false = true))]
      rw [hf]
      change (if functions.isEmpty = true then g
        else if (docRefs d).isEmpty = true then g
        else List.foldl (ref_step sm (docFP env d) functions) g (docRefs d)) = g
      by_cases hfe : functions.isEmpty = true
      · rw [if_pos hfe]
      · rw [if_neg hfe]
        by_cases hre : (docRefs d).isEmpty = true
        · rw [if_pos hre]
        · rw [if_neg hre]
          rcases hcase with h1 | h1 | h1
          · exact absurd (by simpa [List.isEmpty_iff] using h1) hfe
          · exact absurd (by simpa [List.isEmpty_iff] using h1) hre
          · have : ∀ refs : List Occurrence, (∀ r ∈ refs, r ∈ docRefs d) →
                refs.foldl (ref_step sm (docFP env d) functions) g = g := by
              intro refs
              induction refs with
              | nil => intro _; rfl
              | cons r rest ih =>
                intro hsub
                simp only [List.foldl_cons]
                rw [ref_step_fixed (h1 r (hsub r (by simp)))]
                exact ih (fun x hx => hsub x (by simp [hx]))
            exact this (docRefs d) (fun r hr => hr)
    · have hv : env.fileExists (docFP env d) = false := by
        cases hv2 : env.fileExists (docFP env d)
        · rfl
        · exact absurd hv2 he
      rw [hv]
      rfl
theorem doc_stage_defs_fixed {sm : SymbolMap} {env : ScipEnv} {d : Document} {g : Graph}
    (h : ∀ occ ∈ docDefs d, DefFixed sm (docFP env d) g occ) :
    doc_stage_defs sm env d g = g := by
  unfold doc_stage_defs
  have : ∀ occs : List Occurrence, (∀ o ∈ occs, o ∈ docDefs d) →
      occs.foldl (def_step sm (docFP env d)) g = g := by
    intro occs
    induction occs with
    | nil => intro _; rfl
    | cons o rest ih =>
      intro hsub
      simp only [List.foldl_cons]
      rw [def_step_fixed (h o (hsub o (by simp)))]
      exact ih (fun x hx => hsub x (by simp [hx]))
  exact this (docDefs d) (fun o ho => ho)

theorem process_document_fixed {sm : SymbolMap} {env : ScipEnv} {d : Document} {g : Graph}
    (h : DocFixed sm env d g) : process_document env sm g d = g := by
  unfold process_document
  rcases h with h | ⟨hfile, hchain, hdefs, hrefs⟩
  · rw [if_pos h]
  · by_cases hskip : docSkip d = true
    · rw [if_pos hskip]
    · rw [if_neg hskip]
      rw [show doc_stage_file env d g = g from
        q_merge_file_fixed hfile.1 hfile.2]
      rw [show doc_stage_hier env d g = g from hier_go_fixed (docDirs d) _ _ _ hchain]
      rw [show doc_stage_hier env d g = g from hier_go_fixed (docDirs d) _ _ _ hchain]
      rw [doc_stage_defs_fixed hdefs]
      exact doc_stage_refs_fixed hrefs

theorem q_cleanup_fixed {g : Graph} (h : NoLocalNodes g) : q_cleanup g = g := by
  unfold q_cleanup
  have h1 : g.nodes.filter (fun n => !localNode n) = g.nodes := by
    apply List.filter_eq_self.mpr
    intro n hn
    simp [h n hn]
  have h2 : g.edges.filter (fun e =>
      !(g.nodes.any (fun n => localNode n && (n.nid == e.src || n.nid == e.dst)))) = g.edges := by
    apply List.filter_eq_self.mpr
    intro e _
    have : (g.nodes.any fun n => localNode n && (n.nid == e.src || n.nid == e.dst)) = false := by
      rw [List.any_eq_false]
      intro n hn
      simp [h n hn]
    simp [this]
  rw [h1, h2]

theorem ingest_index_fixed {env : ScipEnv} {g : Graph} {idx : ScipIndex}
    (hdocs : ∀ d ∈ idx.documents, DocFixed (buildSymbolMap idx) env d g)
    (hlocal : NoLocalNodes g) :
    ingest_index env g idx = g := by
  unfold ingest_index
  have : ∀ docs : List Document, (∀ d ∈ docs, d ∈ idx.documents) →
      docs.foldl (process_document env (buildSymbolMap idx)) g = g := by
    intro docs
    induction docs with
    | nil => intro _; rfl
    | cons d rest ih =>
      intro hsub
      simp only [List.foldl_cons]
      rw [process_document_fixed (hdocs d (hsub d (by simp)))]
      exact ih (fun x hx => hsub x (by simp [hx]))
  rw [this idx.documents (fun d hd => hd)]
  exact q_cleanup_fixed hlocal

/-- Counterexample to C3 as stated: from a graph state holding a File node
whose `scip_symbol` begins with the reserved prefix, the cleanup pass of the
first run deletes the node and the second run recreates a File node, so the
node sets of one and two runs differ. -/
theorem C3_counterexample :
    (ingest_index exEnvC3 (ingest_index exEnvC3 exGraphC3 exIdxC3) exIdxC3).nodes ≠
      (ingest_index exEnvC3 exGraphC3 exIdxC3).nodes := by decide
/-! ## C3 groundwork: frame lemmas for the queries -/

theorem filter_map_eq {l : List GNode} {u : GNode → GNode} {pred : GNode → Bool}
    (h : ∀ n ∈ l, (pred n = true → u n = n) ∧ (pred n = false → pred (u n) = false)) :
    (l.map u).filter pred = l.filter pred := by
  induction l with
  | nil => rfl
  | cons a as ih =>
    have ha := h a (by simp)
    simp only [List.map_cons, List.filter_cons]
    by_cases hp : pred a = true
    · rw [ha.1 hp, if_pos hp, if_pos hp, ih (fun x hx => h x (by simp [hx]))]
    · have hp' : pred a = false := by
        cases hv : pred a
        · rfl
        · exact absurd hv hp
      rw [if_neg (by simp [ha.2 hp']), if_neg hp,
        ih (fun x hx => h x (by simp [hx]))]

theorem labelAt_addNode {g : Graph} {L : String} {pr : NProps} {L2 : String} {p : FPath} :
    labelAt (addNode g L pr) L2 p =
      labelAt g L2 p ++
        (if L = L2 ∧ pr.path = some p then [{ nid := g.nextId, label := L, props := pr }] else []) := by
  unfold labelAt addNode
  rw [List.filter_append]
  congr 1
  by_cases h : L = L2 ∧ pr.path = some p
  · rw [if_pos h]
    simp [h.1, h.2]
  · rw [if_neg h]
    rw [List.filter_cons]
    rw [if_neg ?hng]
    · rfl
    case hng =>
      intro hcond
      have := Bool.and_eq_true_iff.mp hcond
      exact h ⟨by simpa using this.1, by simpa using this.2⟩

theorem symAt_addNode {g : Graph} {L : String} {pr : NProps} {L2 s : String} :
    symAt (addNode g L pr) L2 s =
      symAt g L2 s ++
        (if L = L2 ∧ pr.scip_symbol = some s then
          [{ nid := g.nextId, label := L, props := pr }] else []) := by
  unfold symAt addNode
  rw [List.filter_append]
  congr 1
  by_cases h : L = L2 ∧ pr.scip_symbol = some s
  · rw [if_pos h]
    simp [h.1, h.2]
  · rw [if_neg h]
    rw [List.filter_cons]
    rw [if_neg ?hng]
    · rfl
    case hng =>
      intro hcond
      have := Bool.and_eq_true_iff.mp hcond
      exact h ⟨by simpa using this.1, by simpa using this.2⟩

theorem filter_addNode {g : Graph} {L : String} {pr : NProps} {sel : GNode → Bool}
    (h : sel { nid := g.nextId, label := L, props := pr } = false) :
    (addNode g L pr).nodes.filter sel = g.nodes.filter sel := by
  unfold addNode
  rw [List.filter_append]
  simp [List.filter_cons, h]

theorem setProps_nodes (g : Graph) (sel : GNode → Bool) (f : NProps → NProps) :
    (setProps g sel f).nodes =
      g.nodes.map (fun n => if sel n then { n with props := f n.props } else n) := rfl

theorem setProps_filter {g : Graph} {sel : GNode → Bool} {f : NProps → NProps}
    {pred : GNode → Bool}
    (h : ∀ n ∈ g.nodes, (pred n = true → sel n = false) ∧
      (pred n = false → pred (if sel n then { n with props := f n.props } else n) = false)) :
    (setProps g sel f).nodes.filter pred = g.nodes.filter pred := by
  rw [setProps_nodes]
  apply filter_map_eq
  intro n hn
  refine ⟨?_, (h n hn).2⟩
  intro hp
  rw [(h n hn).1 hp]
  rfl

theorem setProps_edges (g : Graph) (sel : GNode → Bool) (f : NProps → NProps) :
    (setProps g sel f).edges = g.edges := rfl

theorem addNode_edges (g : Graph) (L : String) (pr : NProps) :
    (addNode g L pr).edges = g.edges := rfl

theorem hasEdge_mergeEdges {g : Graph} {ty : String} {pairs : List (Nat × Nat)}
    {a b : Nat} {t2 : String} (h : hasEdge g a t2 b = true) :
    hasEdge (mergeEdges g ty pairs) a t2 b = true := by
  obtain ⟨-, -, suf, he, -⟩ := mergeEdges_spec ty pairs g
  unfold hasEdge at h ⊢
  rw [he, List.any_append, h]
  rfl

theorem hasEdge_verifyEdges {g : Graph} {pairs : List (Nat × Nat)} {a b : Nat}
    {t2 : String} : hasEdge (verifyEdges g pairs) a t2 b = hasEdge g a t2 b := by
  unfold hasEdge verifyEdges
  simp only [List.any_map]
  congr 1
  funext e
  by_cases hc : (pairs.any fun ab => e.src == ab.1 && e.typ == "CALLS" && e.dst == ab.2) = true
  · simp [Function.comp, hc]
  · simp only [Function.comp]
    rw [if_neg hc]

theorem mergeEdges_ensures {ty : String} {pairs : List (Nat × Nat)} :
    ∀ {g : Graph}, ∀ ab ∈ pairs, hasEdge (mergeEdges g ty pairs) ab.1 ty ab.2 = true := by
  induction pairs with
  | nil => intro g ab hab; simp at hab
  | cons p0 rest ih =>
    intro g ab hab
    unfold mergeEdges
    simp only [List.foldl_cons]
    rcases List.mem_cons.mp hab with rfl | hmem
    · have h1 : hasEdge (mergeEdge g ty ab) ab.1 ty ab.2 = true := by
        unfold mergeEdge
        by_cases h : hasEdge g ab.1 ty ab.2 = true
        · rw [if_pos h]; exact h
        · rw [if_neg h]
          unfold hasEdge
          rw [List.any_append]
          simp
      show hasEdge (mergeEdges (mergeEdge g ty ab) ty rest) ab.1 ty ab.2 = true
      obtain ⟨-, -, suf, he, -⟩ := mergeEdges_spec ty rest (mergeEdge g ty ab)
      unfold hasEdge at h1 ⊢
      rw [show (mergeEdges (mergeEdge g ty ab) ty rest).edges = (mergeEdge g ty ab).edges ++ suf
        from he, List.any_append, h1]
      rfl
    · exact ih ab hmem
theorem verifyEdges_nodes (g : Graph) (pairs : List (Nat × Nat)) :
    (verifyEdges g pairs).nodes = g.nodes := rfl

theorem mergeEdges_nodes (g : Graph) (ty : String) (pairs : List (Nat × Nat)) :
    (mergeEdges g ty pairs).nodes = g.nodes := (mergeEdges_spec ty pairs g).1

/-- Strengthened characterization: every appended edge was absent before. -/
theorem mergeEdges_new {ty : String} {pairs : List (Nat × Nat)} :
    ∀ {g : Graph}, ∃ suf, (mergeEdges g ty pairs).edges = g.edges ++ suf ∧
      ∀ e ∈ suf, e.typ = ty ∧ e.scip_verified = false ∧
        hasEdge g e.src ty e.dst = false := by
  induction pairs with
  | nil => intro g; exact ⟨[], by simp [mergeEdges], by simp⟩
  | cons ab rest ih =>
    intro g
    obtain ⟨s1, he1, hs1⟩ := ih (g := mergeEdge g ty ab)
    by_cases h : hasEdge g ab.1 ty ab.2 = true
    · have hid : mergeEdge g ty ab = g := by unfold mergeEdge; rw [if_pos h]
      refine ⟨s1, ?_, ?_⟩
      · show (mergeEdges (mergeEdge g ty ab) ty rest).edges = g.edges ++ s1
        rw [he1, hid]
      · intro e he
        have := hs1 e he
        rw [hid] at this
        exact this
    · have hne : (mergeEdge g ty ab).edges = g.edges ++ [{ src := ab.1, typ := ty, dst := ab.2 }] := by
        unfold mergeEdge
        rw [if_neg h]
      refine ⟨{ src := ab.1, typ := ty, dst := ab.2 } :: s1, ?_, ?_⟩
      · show (mergeEdges (mergeEdge g ty ab) ty rest).edges = g.edges ++ _
        rw [he1, hne, List.append_assoc]
        rfl
      · intro e he
        rcases List.mem_cons.mp he with rfl | hmem
        · refine ⟨rfl, rfl, ?_⟩
          have h' : hasEdge g ab.1 ty ab.2 = false := by
            cases hv : hasEdge g ab.1 ty ab.2
            · rfl
            · exact absurd hv h
          simpa using h'
        · obtain ⟨h1, h2, h3⟩ := hs1 e hmem
          refine ⟨h1, h2, ?_⟩
          cases hv : hasEdge g e.src ty e.dst
          · rfl
          · exfalso
            have hmono : hasEdge (mergeEdge g ty ab) e.src ty e.dst = true := by
              unfold hasEdge at hv ⊢
              rw [hne, List.any_append, hv]
              rfl
            rw [hmono] at h3
            exact Bool.noConfusion h3

theorem callsEdgeOK_mergeEdges {g : Graph} {ty : String} {pairs : List (Nat × Nat)}
    {a b : Nat} (h : CallsEdgeOK g a b) : CallsEdgeOK (mergeEdges g ty pairs) a b := by
  obtain ⟨h1, h2⟩ := h
  refine ⟨hasEdge_mergeEdges h1, ?_⟩
  obtain ⟨suf, he, hs⟩ := @mergeEdges_new ty pairs g
  rw [he]
  intro e hmem hsrc htyp hdst
  rcases List.mem_append.mp hmem with hm | hm
  · exact h2 e hm hsrc htyp hdst
  · obtain ⟨ht, -, hne⟩ := hs e hm
    exfalso
    have hty : ty = "CALLS" := ht.symm.trans htyp
    rw [hsrc, hdst, hty] at hne
    rw [h1] at hne
    exact Bool.noConfusion hne

theorem callsEdgeOK_verifyEdges {g : Graph} {pairs : List (Nat × Nat)} {a b : Nat}
    (h : CallsEdgeOK g a b) : CallsEdgeOK (verifyEdges g pairs) a b := by
  obtain ⟨h1, h2⟩ := h
  constructor
  · rw [hasEdge_verifyEdges]
    exact h1
  · intro e hmem hsrc htyp hdst
    unfold verifyEdges at hmem
    simp only [List.mem_map] at hmem
    obtain ⟨x, hx, hxe⟩ := hmem
    by_cases hc : (pairs.any fun ab => x.src == ab.1 && x.typ == "CALLS" && x.dst == ab.2) = true
    · rw [if_pos hc] at hxe
      rw [← hxe]
    · rw [if_neg hc] at hxe
      subst hxe
      exact h2 x hx hsrc htyp hdst

theorem callsEdgeOK_setProps {g : Graph} {sel : GNode → Bool} {f : NProps → NProps}
    {a b : Nat} (h : CallsEdgeOK g a b) : CallsEdgeOK (setProps g sel f) a b := h

theorem callsEdgeOK_addNode {g : Graph} {L : String} {pr : NProps} {a b : Nat}
    (h : CallsEdgeOK g a b) : CallsEdgeOK (addNode g L pr) a b := h

theorem hasEdge_setProps (g : Graph) (sel : GNode → Bool) (f : NProps → NProps)
    (a : Nat) (t : String) (b : Nat) : hasEdge (setProps g sel f) a t b = hasEdge g a t b := rfl

theorem hasEdge_addNode (g : Graph) (L : String) (pr : NProps)
    (a : Nat) (t : String) (b : Nat) : hasEdge (addNode g L pr) a t b = hasEdge g a t b := rfl

/-! Labels produced for definition and target nodes are never hierarchy
labels, and the two label-resolution paths agree. -/

theorem infer_label_cases (symbol : String) :
    infer_label_from_symbol symbol = "Function" ∨ infer_label_from_symbol symbol = "Class" ∨
    infer_label_from_symbol symbol = "Module" ∨ infer_label_from_symbol symbol = "Symbol" := by
  unfold infer_label_from_symbol
  split_ifs <;> simp

set_option maxHeartbeats 1000000 in
theorem KIND_TO_LABEL_cases (k : Nat) :
    KIND_TO_LABEL k = none ∨ KIND_TO_LABEL k = some "Symbol" ∨
    KIND_TO_LABEL k = some "Class" ∨ KIND_TO_LABEL k = some "Function" ∨
    KIND_TO_LABEL k = some "Variable" ∨ KIND_TO_LABEL k = some "Interface" ∨
    KIND_TO_LABEL k = some "Struct" ∨ KIND_TO_LABEL k = some "Enum" ∨
    KIND_TO_LABEL k = some "Module" := by
  unfold KIND_TO_LABEL
  split_ifs <;> simp

set_option maxHeartbeats 1000000 in
theorem defLabelOf_eq_targetLabelOf (k : Nat) (symbol : String) :
    defLabelOf k symbol = targetLabelOf k symbol := by
  unfold defLabelOf targetLabelOf
  rcases KIND_TO_LABEL_cases k with h | h | h | h | h | h | h | h | h <;>
    rw [h] <;>
    rcases infer_label_cases symbol with h2 | h2 | h2 | h2 <;>
    simp [h2]

set_option maxHeartbeats 1000000 in
theorem defLabelOf_not_hier (k : Nat) (symbol : String) :
    defLabelOf k symbol ≠ "File" ∧ defLabelOf k symbol ≠ "Directory" ∧
    defLabelOf k symbol ≠ "Repository" := by
  unfold defLabelOf
  rcases KIND_TO_LABEL_cases k with h | h | h | h | h | h | h | h | h <;>
    rw [h] <;>
    rcases infer_label_cases symbol with h2 | h2 | h2 | h2 <;>
    simp [h2]
/-! ## Per-query frame lemmas -/

theorem filter_map_comm {l : List GNode} {u : GNode → GNode} {pred : GNode → Bool}
    (h : ∀ n ∈ l, pred (u n) = pred n) :
    (l.map u).filter pred = (l.filter pred).map u := by
  induction l with
  | nil => rfl
  | cons a as ih =>
    simp only [List.map_cons, List.filter_cons, h a (by simp)]
    by_cases hp : pred a = true
    · rw [if_pos hp, if_pos hp, List.map_cons, ih (fun x hx => h x (by simp [hx]))]
    · rw [if_neg hp, if_neg hp, ih (fun x hx => h x (by simp [hx]))]

theorem callerNameSel_iff {p : FPath} {nm : String} {n : GNode} :
    callerNameSel p nm n = true ↔
      (n.label = "Function" ∨ n.label = "Method") ∧
        n.props.path = some p ∧ n.props.name = some nm := by
  unfold callerNameSel
  simp [Bool.and_eq_true_iff, Bool.or_eq_true_iff]
  tauto

theorem callerLineSel_iff {p : FPath} {ln : Nat} {n : GNode} :
    callerLineSel p ln n = true ↔
      (n.label = "Function" ∨ n.label = "Method") ∧
        n.props.path = some p ∧ n.props.line_number = some ln := by
  unfold callerLineSel
  simp [Bool.and_eq_true_iff, Bool.or_eq_true_iff]
  tauto

theorem labelAtSel_iff {L : String} {p : FPath} {n : GNode} :
    (n.label == L && n.props.path == some p) = true ↔
      n.label = L ∧ n.props.path = some p := by
  simp [Bool.and_eq_true_iff]

theorem symAtSel_iff {L s : String} {n : GNode} :
    (n.label == L && n.props.scip_symbol == some s) = true ↔
      n.label = L ∧ n.props.scip_symbol = some s := by
  simp [Bool.and_eq_true_iff]

/-! ### `q_merge_file` -/

theorem mf_nodes_shape (g : Graph) (p : FPath) (rel nm : String) :
    (q_merge_file g p rel nm).nodes =
      (if (labelAt g "File" p).isEmpty then g.nodes ++ [mfNew g p] else g.nodes).map
        (fun n => if n.label == "File" && n.props.path == some p then
          { n with props := { n.props with relative_path := some rel, name := some nm } }
        else n) := by
  unfold q_merge_file
  by_cases h : (labelAt g "File" p).isEmpty = true
  · rw [if_pos h, if_pos h]
    rfl
  · rw [if_neg h, if_neg h]
    rfl

theorem mf_edges (g : Graph) (p : FPath) (rel nm : String) :
    (q_merge_file g p rel nm).edges = g.edges := by
  unfold q_merge_file
  by_cases h : (labelAt g "File" p).isEmpty = true
  · rw [if_pos h]; rfl
  · rw [if_neg h]; rfl

theorem mf_hasEdge (g : Graph) (p : FPath) (rel nm : String) (a : Nat) (t : String) (b : Nat) :
    hasEdge (q_merge_file g p rel nm) a t b = hasEdge g a t b := by
  unfold hasEdge
  rw [mf_edges]

theorem mf_callsOK {g : Graph} {p : FPath} {rel nm : String} {a b : Nat}
    (h : CallsEdgeOK g a b) : CallsEdgeOK (q_merge_file g p rel nm) a b := by
  obtain ⟨h1, h2⟩ := h
  refine ⟨by rw [mf_hasEdge]; exact h1, ?_⟩
  rw [mf_edges]
  exact h2

theorem filter_update_eq {l : List GNode} {sel : GNode → Bool} {u : GNode → GNode}
    {pred : GNode → Bool}
    (hkeep : ∀ n : GNode, pred (if sel n then u n else n) = pred n)
    (hdisj : ∀ n ∈ l, pred n = true → sel n = false) :
    (l.map (fun n => if sel n then u n else n)).filter pred = l.filter pred := by
  rw [filter_map_comm (fun n _ => hkeep n)]
  apply list_map_id
  intro n hn
  rw [hdisj n (List.mem_of_mem_filter hn) (List.of_mem_filter hn)]
  rfl

theorem mf_labelAt {g : Graph} {p : FPath} {rel nm : String} {L2 : String} {p2 : FPath}
    (h : L2 ≠ "File" ∨ p2 ≠ p) :
    labelAt (q_merge_file g p rel nm) L2 p2 = labelAt g L2 p2 := by
  unfold labelAt
  rw [mf_nodes_shape]
  rw [filter_update_eq]
  · by_cases hc : (labelAt g "File" p).isEmpty = true
    · rw [if_pos hc, List.filter_append]
      have hnew : ((mfNew g p).label == L2 && (mfNew g p).props.path == some p2) = false := by
        rw [Bool.eq_false_iff]
        intro hcond
        obtain ⟨hl, hp2⟩ := labelAtSel_iff.mp hcond
        rcases h with h | h
        · exact h hl.symm
        · exact h (Option.some.inj hp2).symm
      simp only [List.filter_cons, hnew, List.filter_nil, List.append_nil]
      simp
    · rw [if_neg hc]
  · intro n
    by_cases hs : (n.label == "File" && n.props.path == some p) = true
    · rw [if_pos hs]
    · rw [if_neg hs]
  · intro n _ hp2
    obtain ⟨hl, hpp⟩ := labelAtSel_iff.mp hp2
    rw [Bool.eq_false_iff]
    intro hsel
    obtain ⟨hl2, hpl⟩ := labelAtSel_iff.mp hsel
    rcases h with h | h
    · exact h (hl2.symm.trans hl).symm
    · rw [hpp] at hpl
      exact h (Option.some.inj hpl)

/-! ## Generic fold and filter machinery for the re-ingestion analysis -/

theorem foldl_pres {α : Type} {P : Graph → Prop} {f : Graph → α → Graph} :
    ∀ (l : List α) (g : Graph),
      (∀ g2 a, a ∈ l → P g2 → P (f g2 a)) → P g → P (l.foldl f g) := by
  intro l
  induction l with
  | nil => intro g _ hg; exact hg
  | cons a rest ih =>
    intro g hstep hg
    simp only [List.foldl_cons]
    exact ih (f g a) (fun g2 b hb => hstep g2 b (by simp [hb])) (hstep g a (by simp) hg)

theorem foldl_establish {α : Type} {Q : Graph → Prop} {P : α → Graph → Prop}
    {R : α → α → Prop} {f : Graph → α → Graph} :
    ∀ (l : List α) (g : Graph),
      List.Pairwise R l →
      (∀ g2 a, a ∈ l → Q g2 → Q (f g2 a)) →
      (∀ g2 a, a ∈ l → Q g2 → P a (f g2 a)) →
      (∀ g2 a b, a ∈ l → b ∈ l → R a b → Q g2 → P a g2 → P a (f g2 b)) →
      Q g → (∀ a ∈ l, P a (l.foldl f g)) ∧ Q (l.foldl f g) := by
  intro l
  induction l with
  | nil =>
    intro g _ _ _ _ hQ
    exact ⟨by intro a ha; simp at ha, hQ⟩
  | cons a rest ih =>
    intro g hpair hQstep hEst hPres hQ
    have hmem : a ∈ a :: rest := by simp
    have hQ1 : Q (f g a) := hQstep g a hmem hQ
    have hPa1 : P a (f g a) := hEst g a hmem hQ
    have hra : ∀ b ∈ rest, R a b := (List.pairwise_cons.mp hpair).1
    have htl : List.Pairwise R rest := (List.pairwise_cons.mp hpair).2
    simp only [List.foldl_cons]
    have ihres := ih (f g a) htl
      (fun g2 b hb => hQstep g2 b (by simp [hb]))
      (fun g2 b hb => hEst g2 b (by simp [hb]))
      (fun g2 b c hb hc => hPres g2 b c (by simp [hb]) (by simp [hc]))
      hQ1
    refine ⟨?_, ihres.2⟩
    intro x hx
    rcases List.mem_cons.mp hx with rfl | hx2
    · have hQP : Q (rest.foldl f (f g x)) ∧ P x (rest.foldl f (f g x)) := by
        apply foldl_pres (P := fun g2 => Q g2 ∧ P x g2) rest (f g x) ?_ ⟨hQ1, hPa1⟩
        intro g2 b hb hqp
        exact ⟨hQstep g2 b (by simp [hb]) hqp.1,
          hPres g2 x b hmem (by simp [hb]) (hra b hb) hqp.1 hqp.2⟩
      exact hQP.2
    · exact ihres.1 x hx2

theorem filter_shape {l : List GNode} {c : Bool} {x : GNode} {sel : GNode → Bool}
    {u : GNode → GNode} {pred : GNode → Bool}
    (hsel : ∀ n : GNode, pred n = true → sel n = false)
    (hupd : ∀ n : GNode, sel n = true → pred (u n) = false)
    (hx : sel x = true) :
    ((if c then l ++ [x] else l).map (fun n => if sel n then u n else n)).filter pred
      = l.filter pred := by
  have hmain : (l.map (fun n => if sel n then u n else n)).filter pred = l.filter pred := by
    apply filter_map_eq
    intro n _
    constructor
    · intro hp
      rw [hsel n hp]
      simp
    · intro hpf
      by_cases hs : sel n = true
      · rw [if_pos hs]
        exact hupd n hs
      · rw [if_neg hs]
        exact hpf
  by_cases hc : c = true
  · rw [if_pos hc, List.map_append, List.filter_append, hmain]
    have hxe : (fun n => if sel n then u n else n) x = u x := by simp [hx]
    simp only [List.map_cons, List.map_nil, hxe, List.filter_cons, hupd x hx]
    simp
  · rw [if_neg hc]
    exact hmain

theorem filter_shape_nids {l : List GNode} {c : Bool} {x : GNode} {sel : GNode → Bool}
    {u : GNode → GNode} {pred : GNode → Bool}
    (hkeep : ∀ n : GNode, pred (if sel n then u n else n) = pred n)
    (hnid : ∀ n : GNode, (u n).nid = n.nid)
    (hxp : pred x = false) :
    ((((if c then l ++ [x] else l).map (fun n => if sel n then u n else n)).filter pred).map
        (·.nid))
      = (l.filter pred).map (·.nid) := by
  have hmain : ((l.map (fun n => if sel n then u n else n)).filter pred).map (·.nid)
      = (l.filter pred).map (·.nid) := by
    rw [filter_map_comm (fun n _ => hkeep n), List.map_map]
    apply List.map_congr_left
    intro n _
    by_cases hs : sel n = true
    · simp only [Function.comp]
      rw [if_pos hs, hnid]
    · simp only [Function.comp]
      rw [if_neg hs]
  by_cases hc : c = true
  · rw [if_pos hc, List.map_append, List.filter_append]
    have hxf : pred ((fun n => if sel n then u n else n) x) = false := by
      rw [hkeep x]
      exact hxp
    simp only [List.map_cons, List.map_nil, List.filter_cons, hxf]
    rw [if_neg (by simp : ¬(false = true)), List.filter_nil, List.append_nil]
    exact hmain
  · rw [if_neg hc]
    exact hmain

theorem filter_shape_sel {l : List GNode} {c : Bool} {x : GNode} {sel : GNode → Bool}
    {u : GNode → GNode}
    (hup : ∀ n : GNode, sel (u n) = sel n)
    (hx : sel x = true) :
    ((if c then l ++ [x] else l).map (fun n => if sel n then u n else n)).filter sel
      = (l.filter sel).map u ++ (if c then [u x] else []) := by
  have hkeep : ∀ n, sel (if sel n then u n else n) = sel n := by
    intro n
    by_cases hs : sel n = true
    · rw [if_pos hs, hup]
    · rw [if_neg hs]
  have hmain : (l.map (fun n => if sel n then u n else n)).filter sel
      = (l.filter sel).map u := by
    rw [filter_map_comm (fun n _ => hkeep n)]
    apply List.map_congr_left
    intro n hn
    rw [if_pos (List.of_mem_filter hn)]
  by_cases hc : c = true
  · rw [if_pos hc, if_pos hc, List.map_append, List.filter_append, hmain]
    have hxe : (fun n => if sel n then u n else n) x = u x := by simp [hx]
    have hxs : sel (u x) = true := by rw [hup]; exact hx
    simp only [List.map_cons, List.map_nil, hxe, List.filter_cons, hxs]
    simp
  · rw [if_neg hc, if_neg hc, List.append_nil]
    exact hmain

theorem mem_shape {l : List GNode} {c : Bool} {x : GNode} {v : GNode → GNode} {n2 : GNode}
    (h : n2 ∈ (if c then l ++ [x] else l).map v) :
    (∃ n ∈ l, n2 = v n) ∨ n2 = v x := by
  by_cases hc : c = true
  case neg =>
    rw [if_neg hc] at h
    obtain ⟨n, hn, he⟩ := List.mem_map.mp h
    exact Or.inl ⟨n, hn, he.symm⟩
  case pos =>
    rw [if_pos hc] at h
    obtain ⟨n, hn, he⟩ := List.mem_map.mp h
    rcases List.mem_append.mp hn with hn2 | hn2
    · exact Or.inl ⟨n, hn2, he.symm⟩
    · rcases List.mem_singleton.mp hn2 with rfl
      exact Or.inr he.symm

/-! ## Node shapes and edge monotonicity of the remaining queries -/

theorem ds_nodes_shape {g : Graph} {pl : String} {pp cur : FPath} {part : String}
    (hP : labelAt g pl pp ≠ []) :
    (q_dir_step g pl pp cur part).nodes =
      (if (labelAt g "Directory" cur).isEmpty then g.nodes ++ [dsNew g cur] else g.nodes).map
        (fun n => if n.label == "Directory" && n.props.path == some cur then
          { n with props := { n.props with name := some part } } else n) := by
  unfold q_dir_step
  rw [if_neg (by simpa [List.isEmpty_iff] using hP)]
  simp only []
  rw [mergeEdges_nodes, setProps_nodes]
  by_cases hD : (labelAt g "Directory" cur).isEmpty = true
  · rw [if_pos hD, if_pos hD]
    rfl
  · rw [if_neg hD, if_neg hD]

theorem dn_nodes_shape {g : Graph} {L sym nm : String} {p : FPath} {ln : Nat}
    (hF : labelAt g "File" p ≠ []) :
    (q_def_node g L sym nm p ln).nodes =
      (if (symAt g L sym).isEmpty then g.nodes ++ [dnNew g L sym] else g.nodes).map
        (fun n => if n.label == L && n.props.scip_symbol == some sym then
          { n with props :=
            { n.props with name := some nm, path := some p, line_number := some ln } }
        else n) := by
  unfold q_def_node
  rw [if_neg (by simpa [List.isEmpty_iff] using hF)]
  simp only []
  rw [mergeEdges_nodes, setProps_nodes]
  by_cases hS : (symAt g L sym).isEmpty = true
  · rw [if_pos hS, if_pos hS]
    rfl
  · rw [if_neg hS, if_neg hS]

theorem qc_nodes_shape {g : Graph} {sel : GNode → Bool} {tL tSym tName : String}
    (hC : g.nodes.filter sel ≠ []) :
    ((q_calls g sel tL tSym tName).1).nodes =
      if (symAt g tL tSym).isEmpty then g.nodes ++ [qcNew g tL tSym tName] else g.nodes := by
  unfold q_calls
  rw [if_neg (by simpa [List.isEmpty_iff] using hC)]
  simp only []
  rw [verifyEdges_nodes, mergeEdges_nodes]
  by_cases hS : (symAt g tL tSym).isEmpty = true
  · rw [if_pos hS, if_pos hS]
    rfl
  · rw [if_neg hS, if_neg hS]

theorem lf_nodes (g : Graph) (pl : String) (pp fp : FPath) :
    (q_link_file g pl pp fp).nodes = g.nodes := by
  unfold q_link_file
  rw [mergeEdges_nodes]

theorem ds_hasEdge {g : Graph} {pl : String} {pp cur : FPath} {part : String}
    {a : Nat} {t : String} {b : Nat} (h : hasEdge g a t b = true) :
    hasEdge (q_dir_step g pl pp cur part) a t b = true := by
  unfold q_dir_step
  by_cases hP : (labelAt g pl pp).isEmpty = true
  · rw [if_pos hP]
    exact h
  · rw [if_neg hP]
    simp only []
    apply hasEdge_mergeEdges
    rw [hasEdge_setProps]
    by_cases hD : (labelAt g "Directory" cur).isEmpty = true
    · rw [if_pos hD, hasEdge_addNode]
      exact h
    · rw [if_neg hD]
      exact h

theorem ds_callsOK {g : Graph} {pl : String} {pp cur : FPath} {part : String}
    {a b : Nat} (h : CallsEdgeOK g a b) :
    CallsEdgeOK (q_dir_step g pl pp cur part) a b := by
  unfold q_dir_step
  by_cases hP : (labelAt g pl pp).isEmpty = true
  · rw [if_pos hP]
    exact h
  · rw [if_neg hP]
    simp only []
    apply callsEdgeOK_mergeEdges
    apply callsEdgeOK_setProps
    by_cases hD : (labelAt g "Directory" cur).isEmpty = true
    · rw [if_pos hD]
      exact callsEdgeOK_addNode h
    · rw [if_neg hD]
      exact h

theorem dn_hasEdge {g : Graph} {L sym nm : String} {p : FPath} {ln : Nat}
    {a : Nat} {t : String} {b : Nat} (h : hasEdge g a t b = true) :
    hasEdge (q_def_node g L sym nm p ln) a t b = true := by
  unfold q_def_node
  by_cases hF : (labelAt g "File" p).isEmpty = true
  · rw [if_pos hF]
    exact h
  · rw [if_neg hF]
    simp only []
    apply hasEdge_mergeEdges
    rw [hasEdge_setProps]
    by_cases hS : (symAt g L sym).isEmpty = true
    · rw [if_pos hS, hasEdge_addNode]
      exact h
    · rw [if_neg hS]
      exact h

theorem dn_callsOK {g : Graph} {L sym nm : String} {p : FPath} {ln : Nat}
    {a b : Nat} (h : CallsEdgeOK g a b) :
    CallsEdgeOK (q_def_node g L sym nm p ln) a b := by
  unfold q_def_node
  by_cases hF : (labelAt g "File" p).isEmpty = true
  · rw [if_pos hF]
    exact h
  · rw [if_neg hF]
    simp only []
    apply callsEdgeOK_mergeEdges
    apply callsEdgeOK_setProps
    by_cases hS : (symAt g L sym).isEmpty = true
    · rw [if_pos hS]
      exact callsEdgeOK_addNode h
    · rw [if_neg hS]
      exact h

theorem qc_hasEdge {g : Graph} {sel : GNode → Bool} {tL tSym tName : String}
    {a : Nat} {t : String} {b : Nat} (h : hasEdge g a t b = true) :
    hasEdge ((q_calls g sel tL tSym tName).1) a t b = true := by
  unfold q_calls
  by_cases hC : (g.nodes.filter sel).isEmpty = true
  · rw [if_pos hC]
    exact h
  · rw [if_neg hC]
    simp only []
    rw [hasEdge_verifyEdges]
    apply hasEdge_mergeEdges
    by_cases hS : (symAt g tL tSym).isEmpty = true
    · rw [if_pos hS, hasEdge_addNode]
      exact h
    · rw [if_neg hS]
      exact h

theorem qc_callsOK {g : Graph} {sel : GNode → Bool} {tL tSym tName : String}
    {a b : Nat} (h : CallsEdgeOK g a b) :
    CallsEdgeOK ((q_calls g sel tL tSym tName).1) a b := by
  unfold q_calls
  by_cases hC : (g.nodes.filter sel).isEmpty = true
  · rw [if_pos hC]
    exact h
  · rw [if_neg hC]
    simp only []
    apply callsEdgeOK_verifyEdges
    apply callsEdgeOK_mergeEdges
    by_cases hS : (symAt g tL tSym).isEmpty = true
    · rw [if_pos hS]
      exact callsEdgeOK_addNode h
    · rw [if_neg hS]
      exact h

theorem lf_hasEdge {g : Graph} {pl : String} {pp fp : FPath}
    {a : Nat} {t : String} {b : Nat} (h : hasEdge g a t b = true) :
    hasEdge (q_link_file g pl pp fp) a t b = true := by
  unfold q_link_file
  exact hasEdge_mergeEdges h

theorem lf_callsOK {g : Graph} {pl : String} {pp fp : FPath}
    {a b : Nat} (h : CallsEdgeOK g a b) :
    CallsEdgeOK (q_link_file g pl pp fp) a b := by
  unfold q_link_file
  exact callsEdgeOK_mergeEdges h

/-! ## Filter stability of `q_merge_file` -/

theorem mf_symAt {g : Graph} {p : FPath} {rel nm : String} {L2 s : String}
    (hL : L2 ≠ "File") :
    symAt (q_merge_file g p rel nm) L2 s = symAt g L2 s := by
  unfold symAt
  rw [mf_nodes_shape]
  apply filter_shape
  · intro n hp
    obtain ⟨h1, _⟩ := symAtSel_iff.mp hp
    rw [Bool.eq_false_iff]
    intro hcon
    obtain ⟨h3, _⟩ := labelAtSel_iff.mp hcon
    exact hL (h1.symm.trans h3)
  · intro n hs2
    rw [Bool.eq_false_iff]
    intro hcon
    obtain ⟨h3, _⟩ := symAtSel_iff.mp hcon
    obtain ⟨h5, _⟩ := labelAtSel_iff.mp hs2
    exact hL (h3.symm.trans h5)
  · simp [mfNew]

theorem mf_callerName {g : Graph} {p : FPath} {rel nm : String} {p2 : FPath} {nm2 : String} :
    (q_merge_file g p rel nm).nodes.filter (callerNameSel p2 nm2)
      = g.nodes.filter (callerNameSel p2 nm2) := by
  rw [mf_nodes_shape]
  apply filter_shape
  · intro n hp
    obtain ⟨h1, _, _⟩ := callerNameSel_iff.mp hp
    rw [Bool.eq_false_iff]
    intro hcon
    obtain ⟨h4, _⟩ := labelAtSel_iff.mp hcon
    rcases h1 with h1 | h1 <;> rw [h1] at h4 <;> exact absurd h4 (by decide)
  · intro n hs2
    rw [Bool.eq_false_iff]
    intro hcon
    obtain ⟨h1, _, _⟩ := callerNameSel_iff.mp hcon
    obtain ⟨h5, _⟩ := labelAtSel_iff.mp hs2
    rcases h1 with h1 | h1 <;>
      · have hbad := h5.symm.trans h1
        exact absurd hbad (by decide)
  · simp [mfNew]

theorem mf_callerLine {g : Graph} {p : FPath} {rel nm : String} {p2 : FPath} {ln : Nat} :
    (q_merge_file g p rel nm).nodes.filter (callerLineSel p2 ln)
      = g.nodes.filter (callerLineSel p2 ln) := by
  rw [mf_nodes_shape]
  apply filter_shape
  · intro n hp
    obtain ⟨h1, _, _⟩ := callerLineSel_iff.mp hp
    rw [Bool.eq_false_iff]
    intro hcon
    obtain ⟨h4, _⟩ := labelAtSel_iff.mp hcon
    rcases h1 with h1 | h1 <;> rw [h1] at h4 <;> exact absurd h4 (by decide)
  · intro n hs2
    rw [Bool.eq_false_iff]
    intro hcon
    obtain ⟨h1, _, _⟩ := callerLineSel_iff.mp hcon
    obtain ⟨h5, _⟩ := labelAtSel_iff.mp hs2
    rcases h1 with h1 | h1 <;>
      · have hbad := h5.symm.trans h1
        exact absurd hbad (by decide)
  · simp [mfNew]

/-! ## Filter stability of `q_dir_step` -/

theorem ds_labelAt {g : Graph} {pl : String} {pp cur : FPath} {part : String}
    {L2 : String} {p2 : FPath} (h : L2 ≠ "Directory" ∨ p2 ≠ cur) :
    labelAt (q_dir_step g pl pp cur part) L2 p2 = labelAt g L2 p2 := by
  by_cases hP : labelAt g pl pp = []
  · rw [q_dir_step_fixed_empty hP]
  · unfold labelAt
    rw [ds_nodes_shape hP]
    apply filter_shape
    · intro n hp
      obtain ⟨h1, h2⟩ := labelAtSel_iff.mp hp
      rw [Bool.eq_false_iff]
      intro hcon
      obtain ⟨h3, h4⟩ := labelAtSel_iff.mp hcon
      rcases h with h | h
      · exact h (h1.symm.trans h3)
      · exact h (Option.some.inj (h2.symm.trans h4))
    · intro n hs2
      rw [Bool.eq_false_iff]
      intro hcon
      obtain ⟨h3, h4⟩ := labelAtSel_iff.mp hcon
      obtain ⟨h5, h6⟩ := labelAtSel_iff.mp hs2
      rcases h with h | h
      · exact h (h3.symm.trans h5)
      · exact h (Option.some.inj (h4.symm.trans h6))
    · simp [dsNew]

theorem ds_symAt {g : Graph} {pl : String} {pp cur : FPath} {part : String}
    {L2 s : String} (hL : L2 ≠ "Directory") :
    symAt (q_dir_step g pl pp cur part) L2 s = symAt g L2 s := by
  by_cases hP : labelAt g pl pp = []
  · rw [q_dir_step_fixed_empty hP]
  · unfold symAt
    rw [ds_nodes_shape hP]
    apply filter_shape
    · intro n hp
      obtain ⟨h1, _⟩ := symAtSel_iff.mp hp
      rw [Bool.eq_false_iff]
      intro hcon
      obtain ⟨h3, _⟩ := labelAtSel_iff.mp hcon
      exact hL (h1.symm.trans h3)
    · intro n hs2
      rw [Bool.eq_false_iff]
      intro hcon
      obtain ⟨h3, _⟩ := symAtSel_iff.mp hcon
      obtain ⟨h5, _⟩ := labelAtSel_iff.mp hs2
      exact hL (h3.symm.trans h5)
    · simp [dsNew]

theorem ds_callerName {g : Graph} {pl : String} {pp cur : FPath} {part : String}
    {p2 : FPath} {nm2 : String} :
    (q_dir_step g pl pp cur part).nodes.filter (callerNameSel p2 nm2)
      = g.nodes.filter (callerNameSel p2 nm2) := by
  by_cases hP : labelAt g pl pp = []
  · rw [q_dir_step_fixed_empty hP]
  · rw [ds_nodes_shape hP]
    apply filter_shape
    · intro n hp
      obtain ⟨h1, _, _⟩ := callerNameSel_iff.mp hp
      rw [Bool.eq_false_iff]
      intro hcon
      obtain ⟨h4, _⟩ := labelAtSel_iff.mp hcon
      rcases h1 with h1 | h1 <;> rw [h1] at h4 <;> exact absurd h4 (by decide)
    · intro n hs2
      rw [Bool.eq_false_iff]
      intro hcon
      obtain ⟨h1, _, _⟩ := callerNameSel_iff.mp hcon
      obtain ⟨h5, _⟩ := labelAtSel_iff.mp hs2
      rcases h1 with h1 | h1 <;>
        · have hbad := h5.symm.trans h1
          exact absurd hbad (by decide)
    · simp [dsNew]

theorem ds_callerLine {g : Graph} {pl : String} {pp cur : FPath} {part : String}
    {p2 : FPath} {ln : Nat} :
    (q_dir_step g pl pp cur part).nodes.filter (callerLineSel p2 ln)
      = g.nodes.filter (callerLineSel p2 ln) := by
  by_cases hP : labelAt g pl pp = []
  · rw [q_dir_step_fixed_empty hP]
  · rw [ds_nodes_shape hP]
    apply filter_shape
    · intro n hp
      obtain ⟨h1, _, _⟩ := callerLineSel_iff.mp hp
      rw [Bool.eq_false_iff]
      intro hcon
      obtain ⟨h4, _⟩ := labelAtSel_iff.mp hcon
      rcases h1 with h1 | h1 <;> rw [h1] at h4 <;> exact absurd h4 (by decide)
    · intro n hs2
      rw [Bool.eq_false_iff]
      intro hcon
      obtain ⟨h1, _, _⟩ := callerLineSel_iff.mp hcon
      obtain ⟨h5, _⟩ := labelAtSel_iff.mp hs2
      rcases h1 with h1 | h1 <;>
        · have hbad := h5.symm.trans h1
          exact absurd hbad (by decide)
    · simp [dsNew]

theorem ds_dirAt_stable {g : Graph} {pl : String} {pp cur : FPath} {part : String}
    (hne : labelAt g "Directory" cur ≠ [])
    (hnm : ∀ n ∈ labelAt g "Directory" cur, n.props.name = some part) :
    labelAt (q_dir_step g pl pp cur part) "Directory" cur = labelAt g "Directory" cur := by
  by_cases hP : labelAt g pl pp = []
  · rw [q_dir_step_fixed_empty hP]
  · unfold labelAt
    rw [ds_nodes_shape hP]
    rw [if_neg (by simpa [List.isEmpty_iff] using hne)]
    rw [filter_map_comm ?hk]
    · apply list_map_id
      intro n hn
      have hmem : n ∈ labelAt g "Directory" cur := hn
      by_cases hs : (n.label == "Directory" && n.props.path == some cur) = true
      · rw [if_pos hs]
        rw [nprops_upd_name (hnm n hmem)]
      · rw [if_neg hs]
    case hk =>
      intro n _
      by_cases hs : (n.label == "Directory" && n.props.path == some cur) = true
      · rw [if_pos hs]
      · rw [if_neg hs]

theorem filter_shape_mem {l : List GNode} {c : Bool} {x : GNode} {sel : GNode → Bool}
    {u : GNode → GNode} {pred : GNode → Bool}
    (hsel : ∀ n ∈ l, pred n = true → sel n = false)
    (hupd : ∀ n ∈ l, sel n = true → pred (u n) = false)
    (hxu : pred (if sel x then u x else x) = false) :
    ((if c then l ++ [x] else l).map (fun n => if sel n then u n else n)).filter pred
      = l.filter pred := by
  have hmain : (l.map (fun n => if sel n then u n else n)).filter pred = l.filter pred := by
    apply filter_map_eq
    intro n hn
    constructor
    · intro hp
      rw [hsel n hn hp]
      simp
    · intro hpf
      by_cases hs : sel n = true
      · rw [if_pos hs]
        exact hupd n hn hs
      · rw [if_neg hs]
        exact hpf
  by_cases hc : c = true
  · rw [if_pos hc, List.map_append, List.filter_append, hmain]
    simp only [List.map_cons, List.map_nil, List.filter_cons, hxu]
    rw [if_neg (by simp : ¬(false = true)), List.filter_nil, List.append_nil]
  · rw [if_neg hc]
    exact hmain

/-! ## Establishment facts for `q_dir_step` -/

theorem ds_dirAt_shape {g : Graph} {pl : String} {pp cur : FPath} {part : String}
    (hP : labelAt g pl pp ≠ []) :
    labelAt (q_dir_step g pl pp cur part) "Directory" cur =
      (labelAt g "Directory" cur).map
        (fun n => { n with props := { n.props with name := some part } }) ++
      (if (labelAt g "Directory" cur).isEmpty then
        [{ nid := g.nextId, label := "Directory",
           props := { name := some part, path := some cur } }] else []) := by
  unfold labelAt
  rw [ds_nodes_shape hP]
  rw [@filter_shape_sel g.nodes ((labelAt g "Directory" cur).isEmpty) (dsNew g cur)
    (fun n => n.label == "Directory" && n.props.path == some cur)
    (fun n => { n with props := { n.props with name := some part } })
    (fun n => rfl) (by simp [dsNew])]
  rfl

theorem ds_establish {g : Graph} {pl : String} {pp cur : FPath} {part : String}
    (hP : labelAt g pl pp ≠ []) :
    labelAt (q_dir_step g pl pp cur part) "Directory" cur ≠ [] ∧
    ∀ n ∈ labelAt (q_dir_step g pl pp cur part) "Directory" cur,
      n.props.name = some part := by
  rw [@ds_dirAt_shape g pl pp cur part hP]
  constructor
  · by_cases hc : (labelAt g "Directory" cur).isEmpty = true
    · rw [if_pos hc]
      simp
    · rw [if_neg hc, List.append_nil]
      cases hL : labelAt g "Directory" cur with
      | nil => exact absurd hL (by simpa [List.isEmpty_iff] using hc)
      | cons a l =>
        simp
  · intro n hn
    rcases List.mem_append.mp hn with hn2 | hn2
    · obtain ⟨m, _, rfl⟩ := List.mem_map.mp hn2
      rfl
    · by_cases hc : (labelAt g "Directory" cur).isEmpty = true
      · rw [if_pos hc] at hn2
        rcases List.mem_singleton.mp hn2 with rfl
        rfl
      · rw [if_neg hc] at hn2
        simp at hn2

theorem ds_dir_nids {g : Graph} {pl : String} {pp cur : FPath} {part : String}
    (hP : labelAt g pl pp ≠ []) :
    (labelAt (q_dir_step g pl pp cur part) "Directory" cur).map (·.nid) =
      (labelAt (if (labelAt g "Directory" cur).isEmpty then
          addNode g "Directory" { path := some cur } else g) "Directory" cur).map (·.nid) := by
  rw [@ds_dirAt_shape g pl pp cur part hP]
  by_cases hc : (labelAt g "Directory" cur).isEmpty = true
  · rw [if_pos hc, if_pos hc, labelAt_addNode, if_pos ⟨rfl, rfl⟩]
    rw [List.map_append, List.map_append, List.map_map]
    congr 1
  · rw [if_neg hc, if_neg hc, List.append_nil, List.map_map]
    rfl

theorem ds_edges_establish {g : Graph} {pl : String} {pp cur : FPath} {part : String}
    (hP : labelAt g pl pp ≠ []) :
    ∀ q ∈ labelAt g pl pp,
      ∀ dn2 ∈ labelAt (q_dir_step g pl pp cur part) "Directory" cur,
      hasEdge (q_dir_step g pl pp cur part) q.nid "CONTAINS" dn2.nid = true := by
  intro q hq dn2 hdn
  have hnid : dn2.nid ∈ (labelAt (if (labelAt g "Directory" cur).isEmpty then
      addNode g "Directory" { path := some cur } else g) "Directory" cur).map (·.nid) := by
    rw [← @ds_dir_nids g pl pp cur part hP]
    exact List.mem_map.mpr ⟨dn2, hdn, rfl⟩
  unfold q_dir_step
  rw [if_neg (by simpa [List.isEmpty_iff] using hP)]
  simp only []
  exact mergeEdges_ensures (q.nid, dn2.nid)
    (List.pair_mem_product.mpr ⟨List.mem_map.mpr ⟨q, hq, rfl⟩, hnid⟩)

/-! ## Filter stability and establishment for `q_def_node` -/

theorem dn_labelAt {g : Graph} {L sym nm : String} {p : FPath} {ln : Nat}
    {L2 : String} {p2 : FPath} (hL : L2 ≠ L) :
    labelAt (q_def_node g L sym nm p ln) L2 p2 = labelAt g L2 p2 := by
  by_cases hF : labelAt g "File" p = []
  · unfold q_def_node
    rw [if_pos (by simpa [List.isEmpty_iff] using hF)]
  · unfold labelAt
    rw [dn_nodes_shape hF]
    apply filter_shape
    · intro n hp
      obtain ⟨h1, _⟩ := labelAtSel_iff.mp hp
      rw [Bool.eq_false_iff]
      intro hcon
      obtain ⟨h3, _⟩ := symAtSel_iff.mp hcon
      exact hL (h1.symm.trans h3)
    · intro n hs2
      rw [Bool.eq_false_iff]
      intro hcon
      obtain ⟨h3, _⟩ := labelAtSel_iff.mp hcon
      obtain ⟨h5, _⟩ := symAtSel_iff.mp hs2
      exact hL (h3.symm.trans h5)
    · simp [dnNew]

theorem dn_symAt_other {g : Graph} {L sym nm : String} {p : FPath} {ln : Nat}
    {L2 s2 : String} (h : L2 ≠ L ∨ s2 ≠ sym) :
    symAt (q_def_node g L sym nm p ln) L2 s2 = symAt g L2 s2 := by
  by_cases hF : labelAt g "File" p = []
  · unfold q_def_node
    rw [if_pos (by simpa [List.isEmpty_iff] using hF)]
  · unfold symAt
    rw [dn_nodes_shape hF]
    apply filter_shape
    · intro n hp
      obtain ⟨h1, h2⟩ := symAtSel_iff.mp hp
      rw [Bool.eq_false_iff]
      intro hcon
      obtain ⟨h3, h4⟩ := symAtSel_iff.mp hcon
      rcases h with h | h
      · exact h (h1.symm.trans h3)
      · exact h (Option.some.inj (h2.symm.trans h4))
    · intro n hs2
      rw [Bool.eq_false_iff]
      intro hcon
      obtain ⟨h3, h4⟩ := symAtSel_iff.mp hcon
      obtain ⟨h5, h6⟩ := symAtSel_iff.mp hs2
      rcases h with h | h
      · exact h (h3.symm.trans h5)
      · exact h (Option.some.inj (h4.symm.trans h6))
    · simp [dnNew]

theorem dn_callerName {g : Graph} {L sym nm : String} {p : FPath} {ln : Nat}
    {p2 : FPath} {nm2 : String}
    (hpath : ∀ n ∈ g.nodes, n.props.scip_symbol = some sym →
      n.props.path = none ∨ n.props.path = some p)
    (hp2 : p2 ≠ p) :
    (q_def_node g L sym nm p ln).nodes.filter (callerNameSel p2 nm2)
      = g.nodes.filter (callerNameSel p2 nm2) := by
  by_cases hF : labelAt g "File" p = []
  · unfold q_def_node
    rw [if_pos (by simpa [List.isEmpty_iff] using hF)]
  · rw [dn_nodes_shape hF]
    apply filter_shape_mem
    · intro n hn hp
      obtain ⟨_, hpa, _⟩ := callerNameSel_iff.mp hp
      rw [Bool.eq_false_iff]
      intro hcon
      obtain ⟨_, h4⟩ := symAtSel_iff.mp hcon
      rcases hpath n hn h4 with hc | hc
      · rw [hpa] at hc
        exact Option.noConfusion hc
      · rw [hpa] at hc
        exact hp2 (Option.some.inj hc)
    · intro n _ _
      rw [Bool.eq_false_iff]
      intro hcon
      obtain ⟨_, hpa, _⟩ := callerNameSel_iff.mp hcon
      exact hp2 (Option.some.inj hpa).symm
    · have hx : ((dnNew g L sym).label == L &&
          (dnNew g L sym).props.scip_symbol == some sym) = true := by simp [dnNew]
      rw [if_pos hx, Bool.eq_false_iff]
      intro hcon
      obtain ⟨_, hpa, _⟩ := callerNameSel_iff.mp hcon
      exact hp2 (Option.some.inj hpa).symm

theorem dn_callerLine {g : Graph} {L sym nm : String} {p : FPath} {ln : Nat}
    {p2 : FPath} {ln2 : Nat}
    (hpath : ∀ n ∈ g.nodes, n.props.scip_symbol = some sym →
      n.props.path = none ∨ n.props.path = some p)
    (hp2 : p2 ≠ p) :
    (q_def_node g L sym nm p ln).nodes.filter (callerLineSel p2 ln2)
      = g.nodes.filter (callerLineSel p2 ln2) := by
  by_cases hF : labelAt g "File" p = []
  · unfold q_def_node
    rw [if_pos (by simpa [List.isEmpty_iff] using hF)]
  · rw [dn_nodes_shape hF]
    apply filter_shape_mem
    · intro n hn hp
      obtain ⟨_, hpa, _⟩ := callerLineSel_iff.mp hp
      rw [Bool.eq_false_iff]
      intro hcon
      obtain ⟨_, h4⟩ := symAtSel_iff.mp hcon
      rcases hpath n hn h4 with hc | hc
      · rw [hpa] at hc
        exact Option.noConfusion hc
      · rw [hpa] at hc
        exact hp2 (Option.some.inj hc)
    · intro n _ _
      rw [Bool.eq_false_iff]
      intro hcon
      obtain ⟨_, hpa, _⟩ := callerLineSel_iff.mp hcon
      exact hp2 (Option.some.inj hpa).symm
    · have hx : ((dnNew g L sym).label == L &&
          (dnNew g L sym).props.scip_symbol == some sym) = true := by simp [dnNew]
      rw [if_pos hx, Bool.eq_false_iff]
      intro hcon
      obtain ⟨_, hpa, _⟩ := callerLineSel_iff.mp hcon
      exact hp2 (Option.some.inj hpa).symm

theorem dn_symAt_shape {g : Graph} {L sym nm : String} {p : FPath} {ln : Nat}
    (hF : labelAt g "File" p ≠ []) :
    symAt (q_def_node g L sym nm p ln) L sym =
      (symAt g L sym).map
        (fun n => { n with props :=
          { n.props with name := some nm, path := some p, line_number := some ln } }) ++
      (if (symAt g L sym).isEmpty then
        [{ nid := g.nextId, label := L,
           props := { name := some nm, path := some p, line_number := some ln,
                      scip_symbol := some sym } }] else []) := by
  unfold symAt
  rw [dn_nodes_shape hF]
  rw [@filter_shape_sel g.nodes ((symAt g L sym).isEmpty) (dnNew g L sym)
    (fun n => n.label == L && n.props.scip_symbol == some sym)
    (fun n => { n with props :=
      { n.props with name := some nm, path := some p, line_number := some ln } })
    (fun n => rfl) (by simp [dnNew])]
  rfl

theorem dn_establish {g : Graph} {L sym nm : String} {p : FPath} {ln : Nat}
    (hF : labelAt g "File" p ≠ []) :
    symAt (q_def_node g L sym nm p ln) L sym ≠ [] ∧
    ∀ n ∈ symAt (q_def_node g L sym nm p ln) L sym,
      n.props.name = some nm ∧ n.props.path = some p ∧ n.props.line_number = some ln := by
  rw [@dn_symAt_shape g L sym nm p ln hF]
  constructor
  · by_cases hc : (symAt g L sym).isEmpty = true
    · rw [if_pos hc]
      simp
    · rw [if_neg hc, List.append_nil]
      cases hL : symAt g L sym with
      | nil => exact absurd hL (by simpa [List.isEmpty_iff] using hc)
      | cons a l => simp
  · intro n hn
    rcases List.mem_append.mp hn with hn2 | hn2
    · obtain ⟨m, _, rfl⟩ := List.mem_map.mp hn2
      exact ⟨rfl, rfl, rfl⟩
    · by_cases hc : (symAt g L sym).isEmpty = true
      · rw [if_pos hc] at hn2
        rcases List.mem_singleton.mp hn2 with rfl
        exact ⟨rfl, rfl, rfl⟩
      · rw [if_neg hc] at hn2
        simp at hn2

theorem dn_sym_nids {g : Graph} {L sym nm : String} {p : FPath} {ln : Nat}
    (hF : labelAt g "File" p ≠ []) :
    (symAt (q_def_node g L sym nm p ln) L sym).map (·.nid) =
      (symAt (if (symAt g L sym).isEmpty then
          addNode g L { scip_symbol := some sym } else g) L sym).map (·.nid) := by
  rw [@dn_symAt_shape g L sym nm p ln hF]
  by_cases hc : (symAt g L sym).isEmpty = true
  · rw [if_pos hc, if_pos hc, symAt_addNode, if_pos ⟨rfl, rfl⟩]
    rw [List.map_append, List.map_append, List.map_map]
    congr 1
  · rw [if_neg hc, if_neg hc, List.append_nil, List.map_map]
    rfl

theorem dn_symAt_nids {g : Graph} {L sym nm : String} {p : FPath} {ln : Nat}
    (hne : symAt g L sym ≠ []) :
    (symAt (q_def_node g L sym nm p ln) L sym).map (·.nid) =
      (symAt g L sym).map (·.nid) := by
  by_cases hF : labelAt g "File" p = []
  · unfold q_def_node
    rw [if_pos (by simpa [List.isEmpty_iff] using hF)]
  · rw [dn_sym_nids hF, if_neg (by simpa [List.isEmpty_iff] using hne)]

theorem dn_edges_establish {g : Graph} {L sym nm : String} {p : FPath} {ln : Nat}
    (hF : labelAt g "File" p ≠ []) :
    ∀ f ∈ labelAt g "File" p,
      ∀ n ∈ symAt (q_def_node g L sym nm p ln) L sym,
      hasEdge (q_def_node g L sym nm p ln) f.nid "CONTAINS" n.nid = true := by
  intro f hf n hn
  have hnid : n.nid ∈ (symAt (if (symAt g L sym).isEmpty then
      addNode g L { scip_symbol := some sym } else g) L sym).map (·.nid) := by
    rw [← @dn_sym_nids g L sym nm p ln hF]
    exact List.mem_map.mpr ⟨n, hn, rfl⟩
  unfold q_def_node
  rw [if_neg (by simpa [List.isEmpty_iff] using hF)]
  simp only []
  exact mergeEdges_ensures (f.nid, n.nid)
    (List.pair_mem_product.mpr ⟨List.mem_map.mpr ⟨f, hf, rfl⟩, hnid⟩)

/-! ## Filter stability and establishment for `q_calls` -/

theorem qc_identity {g : Graph} {sel : GNode → Bool} {tL tSym tName : String}
    (hC : g.nodes.filter sel = []) : (q_calls g sel tL tSym tName).1 = g := by
  unfold q_calls
  rw [if_pos (by simpa [List.isEmpty_iff] using hC)]

theorem qc_filter {g : Graph} {sel : GNode → Bool} {tL tSym tName : String}
    {pred : GNode → Bool}
    (hnew : pred (qcNew g tL tSym tName) = false) :
    ((q_calls g sel tL tSym tName).1).nodes.filter pred = g.nodes.filter pred := by
  by_cases hC : g.nodes.filter sel = []
  · rw [qc_identity hC]
  · rw [qc_nodes_shape hC]
    by_cases hS : (symAt g tL tSym).isEmpty = true
    · rw [if_pos hS, List.filter_append]
      simp [List.filter_cons, hnew]
    · rw [if_neg hS]

theorem qc_labelAt {g : Graph} {sel : GNode → Bool} {tL tSym tName : String}
    {L2 : String} {p2 : FPath} :
    labelAt ((q_calls g sel tL tSym tName).1) L2 p2 = labelAt g L2 p2 := by
  unfold labelAt
  apply qc_filter
  simp [qcNew]

theorem qc_symAt_other {g : Graph} {sel : GNode → Bool} {tL tSym tName : String}
    {L2 s2 : String} (h : L2 ≠ tL ∨ s2 ≠ tSym) :
    symAt ((q_calls g sel tL tSym tName).1) L2 s2 = symAt g L2 s2 := by
  unfold symAt
  apply qc_filter
  rw [Bool.eq_false_iff]
  intro hcon
  obtain ⟨h1, h2⟩ := symAtSel_iff.mp hcon
  rcases h with h | h
  · exact h (h1.symm ▸ rfl)
  · exact h (Option.some.inj h2).symm

theorem qc_callerName {g : Graph} {sel : GNode → Bool} {tL tSym tName : String}
    {p2 : FPath} {nm2 : String} :
    ((q_calls g sel tL tSym tName).1).nodes.filter (callerNameSel p2 nm2)
      = g.nodes.filter (callerNameSel p2 nm2) := by
  apply qc_filter
  rw [Bool.eq_false_iff]
  intro hcon
  obtain ⟨_, hpa, _⟩ := callerNameSel_iff.mp hcon
  exact Option.noConfusion hpa

theorem qc_callerLine {g : Graph} {sel : GNode → Bool} {tL tSym tName : String}
    {p2 : FPath} {ln2 : Nat} :
    ((q_calls g sel tL tSym tName).1).nodes.filter (callerLineSel p2 ln2)
      = g.nodes.filter (callerLineSel p2 ln2) := by
  apply qc_filter
  rw [Bool.eq_false_iff]
  intro hcon
  obtain ⟨_, hpa, _⟩ := callerLineSel_iff.mp hcon
  exact Option.noConfusion hpa

theorem qc_symAt_target {g : Graph} {sel : GNode → Bool} {tL tSym tName : String}
    (hne : symAt g tL tSym ≠ []) :
    symAt ((q_calls g sel tL tSym tName).1) tL tSym = symAt g tL tSym := by
  by_cases hC : g.nodes.filter sel = []
  · rw [qc_identity hC]
  · unfold symAt
    rw [qc_nodes_shape hC, if_neg (by simpa [List.isEmpty_iff] using hne)]

theorem callsEdgeOK_of_pair {g : Graph} {pairs : List (Nat × Nat)} {ab : Nat × Nat}
    (hab : ab ∈ pairs) :
    CallsEdgeOK (verifyEdges (mergeEdges g "CALLS" pairs) pairs) ab.1 ab.2 := by
  constructor
  · rw [hasEdge_verifyEdges]
    exact mergeEdges_ensures ab hab
  · intro e hmem hsrc htyp hdst
    unfold verifyEdges at hmem
    simp only [List.mem_map] at hmem
    obtain ⟨x, hx, hxe⟩ := hmem
    by_cases hcond : (pairs.any fun ab2 => x.src == ab2.1 && x.typ == "CALLS" && x.dst == ab2.2)
        = true
    · rw [if_pos hcond] at hxe
      rw [← hxe]
    · exfalso
      rw [if_neg hcond] at hxe
      subst hxe
      have : (pairs.any fun ab2 => x.src == ab2.1 && x.typ == "CALLS" && x.dst == ab2.2)
          = true := by
        rw [List.any_eq_true]
        exact ⟨ab, hab, by simp [hsrc, htyp, hdst]⟩
      exact hcond this

theorem qc_symAt_shape {g : Graph} {sel : GNode → Bool} {tL tSym tName : String}
    (hC : g.nodes.filter sel ≠ []) :
    symAt ((q_calls g sel tL tSym tName).1) tL tSym =
      symAt (if (symAt g tL tSym).isEmpty then
        addNode g tL { scip_symbol := some tSym, name := some tName } else g) tL tSym := by
  by_cases hS : (symAt g tL tSym).isEmpty = true
  · rw [if_pos hS]
    unfold symAt
    rw [qc_nodes_shape hC, if_pos hS]
    rfl
  · rw [if_neg hS]
    unfold symAt
    rw [qc_nodes_shape hC, if_neg hS]

theorem qc_target_ne {g : Graph} {sel : GNode → Bool} {tL tSym tName : String}
    (hC : g.nodes.filter sel ≠ []) :
    symAt ((q_calls g sel tL tSym tName).1) tL tSym ≠ [] := by
  rw [qc_symAt_shape hC]
  by_cases hS : (symAt g tL tSym).isEmpty = true
  · rw [if_pos hS, symAt_addNode, if_pos ⟨rfl, rfl⟩]
    simp
  · rw [if_neg hS]
    simpa [List.isEmpty_iff] using hS

theorem qc_establish {g : Graph} {sel : GNode → Bool} {tL tSym tName : String}
    (hC : g.nodes.filter sel ≠ [])
    (hns : sel (qcNew g tL tSym tName) = false) :
    CallsFixed ((q_calls g sel tL tSym tName).1)
      (((q_calls g sel tL tSym tName).1).nodes.filter sel) tL tSym := by
  refine ⟨qc_target_ne hC, ?_⟩
  intro c hc tn htn
  have hc2 : c ∈ g.nodes.filter sel := by
    rw [qc_filter hns] at hc
    exact hc
  have htn2 : tn ∈ symAt (if (symAt g tL tSym).isEmpty then
      addNode g tL { scip_symbol := some tSym, name := some tName } else g) tL tSym := by
    rw [qc_symAt_shape hC] at htn
    exact htn
  unfold q_calls
  rw [if_neg (by simpa [List.isEmpty_iff] using hC)]
  simp only []
  exact callsEdgeOK_of_pair (List.pair_mem_product.mpr
    ⟨List.mem_map.mpr ⟨c, hc2, rfl⟩, List.mem_map.mpr ⟨tn, htn2, rfl⟩⟩)

theorem callsFixed_mono {g g2 : Graph} {C C2 : List GNode} {tL tSym : String}
    (h : CallsFixed g C tL tSym)
    (hnids : (symAt g2 tL tSym).map (·.nid) = (symAt g tL tSym).map (·.nid))
    (hCnids : C2.map (·.nid) = C.map (·.nid))
    (hOK : ∀ a b, CallsEdgeOK g a b → CallsEdgeOK g2 a b) :
    CallsFixed g2 C2 tL tSym := by
  obtain ⟨h1, h2⟩ := h
  constructor
  · intro hnil
    rw [hnil] at hnids
    cases hL : symAt g tL tSym with
    | nil => exact h1 hL
    | cons a l =>
      rw [hL] at hnids
      simp at hnids
  · intro c hc tn htn
    have hcn : c.nid ∈ C.map (·.nid) := by
      rw [← hCnids]
      exact List.mem_map.mpr ⟨c, hc, rfl⟩
    have htnn : tn.nid ∈ (symAt g tL tSym).map (·.nid) := by
      rw [← hnids]
      exact List.mem_map.mpr ⟨tn, htn, rfl⟩
    obtain ⟨c0, hc0, hce⟩ := List.mem_map.mp hcn
    obtain ⟨t0, ht0, hte⟩ := List.mem_map.mp htnn
    rw [← hce, ← hte]
    exact hOK _ _ (h2 c0 hc0 t0 ht0)

/-! ## Invariant preservation through node-set coverage -/

theorem good_of_cover {g g2 : Graph} (h : GoodGraph g)
    (hc : ∀ n2 ∈ g2.nodes,
      (∃ n ∈ g.nodes, n2.label = n.label ∧ n2.props.scip_symbol = n.props.scip_symbol) ∨
      n2.props.scip_symbol = none ∨
      ((n2.label ≠ "File" ∧ n2.label ≠ "Directory" ∧ n2.label ≠ "Repository") ∧
        ∀ s, n2.props.scip_symbol = some s → strStartsWith s "local" = false)) :
    GoodGraph g2 := by
  constructor
  · intro n2 hn2 hlab
    rcases hc n2 hn2 with ⟨n, hn, hl, hs⟩ | hs | ⟨⟨hf, hd, hr⟩, _⟩
    · rw [hs]
      rw [hl] at hlab
      exact h.1 n hn hlab
    · exact hs
    · rcases hlab with h3 | h3 | h3
      · exact absurd h3 hf
      · exact absurd h3 hd
      · exact absurd h3 hr
  · intro n2 hn2 s hs
    rcases hc n2 hn2 with ⟨n, hn, _, hsc⟩ | hnone | ⟨_, hloc⟩
    · refine h.2 n hn s ?_
      rw [← hsc]
      exact hs
    · rw [hnone] at hs
      exact Option.noConfusion hs
    · exact hloc s hs

theorem sympath_of_cover {env : ScipEnv} {idx : ScipIndex} {g g2 : Graph}
    (h : SymPathInv env idx g)
    (hc : ∀ n2 ∈ g2.nodes,
      (∃ n ∈ g.nodes, n2.props.scip_symbol = n.props.scip_symbol ∧
        n2.props.path = n.props.path) ∨
      n2.props.scip_symbol = none ∨
      n2.props.path = none ∨
      (∃ d ∈ idx.documents, (∀ s, n2.props.scip_symbol = some s → s ∈ defSyms d) ∧
        n2.props.path = some (docFP env d))) :
    SymPathInv env idx g2 := by
  intro n2 hn2 sym hs
  rcases hc n2 hn2 with ⟨n, hn, hsc, hpa⟩ | hsnone | hnone | ⟨d, hd, hsd, hpd⟩
  · rw [hpa]
    refine h n hn sym ?_
    rw [← hsc]
    exact hs
  · rw [hsnone] at hs
    exact Option.noConfusion hs
  · exact Or.inl hnone
  · exact Or.inr ⟨d, hd, hsd sym hs, hpd⟩

theorem nodir_of_cover {g g2 : Graph} (h : NoDirNodes g)
    (hc : ∀ n2 ∈ g2.nodes, (∃ n ∈ g.nodes, n2.label = n.label) ∨ n2.label ≠ "Directory") :
    NoDirNodes g2 := by
  intro n2 hn2
  rcases hc n2 hn2 with ⟨n, hn, hl⟩ | hl
  · rw [hl]
    exact h n hn
  · exact hl

theorem good_nodes_eq {g g2 : Graph} (h : GoodGraph g) (he : g2.nodes = g.nodes) :
    GoodGraph g2 := by
  constructor
  · intro n hn
    rw [he] at hn
    exact h.1 n hn
  · intro n hn
    rw [he] at hn
    exact h.2 n hn

theorem sympath_nodes_eq {env : ScipEnv} {idx : ScipIndex} {g g2 : Graph}
    (h : SymPathInv env idx g) (he : g2.nodes = g.nodes) : SymPathInv env idx g2 := by
  intro n hn
  rw [he] at hn
  exact h n hn

theorem nodir_nodes_eq {g g2 : Graph} (h : NoDirNodes g) (he : g2.nodes = g.nodes) :
    NoDirNodes g2 := by
  intro n hn
  rw [he] at hn
  exact h n hn

/-! ## Invariant preservation per query -/

theorem good_mf {g : Graph} {p : FPath} {rel nm : String} (h : GoodGraph g) :
    GoodGraph (q_merge_file g p rel nm) := by
  apply good_of_cover h
  intro n2 hn2
  rw [mf_nodes_shape] at hn2
  rcases mem_shape hn2 with ⟨n, hn, rfl⟩ | rfl
  · left
    refine ⟨n, hn, ?_, ?_⟩ <;>
      · by_cases hs : (n.label == "File" && n.props.path == some p) = true
        · rw [if_pos hs]
        · rw [if_neg hs]
  · right
    left
    simp [mfNew]

theorem sympath_mf {env : ScipEnv} {idx : ScipIndex} {g : Graph} {p : FPath}
    {rel nm : String} (h : SymPathInv env idx g) :
    SymPathInv env idx (q_merge_file g p rel nm) := by
  apply sympath_of_cover h
  intro n2 hn2
  rw [mf_nodes_shape] at hn2
  rcases mem_shape hn2 with ⟨n, hn, rfl⟩ | rfl
  · left
    refine ⟨n, hn, ?_, ?_⟩ <;>
      · by_cases hs : (n.label == "File" && n.props.path == some p) = true
        · rw [if_pos hs]
        · rw [if_neg hs]
  · right
    left
    simp [mfNew]

theorem nodir_mf {g : Graph} {p : FPath} {rel nm : String} (h : NoDirNodes g) :
    NoDirNodes (q_merge_file g p rel nm) := by
  apply nodir_of_cover h
  intro n2 hn2
  rw [mf_nodes_shape] at hn2
  rcases mem_shape hn2 with ⟨n, hn, rfl⟩ | rfl
  · left
    refine ⟨n, hn, ?_⟩
    by_cases hs : (n.label == "File" && n.props.path == some p) = true
    · rw [if_pos hs]
    · rw [if_neg hs]
  · right
    simp [mfNew]

theorem good_ds {g : Graph} {pl : String} {pp cur : FPath} {part : String}
    (h : GoodGraph g) : GoodGraph (q_dir_step g pl pp cur part) := by
  by_cases hP : labelAt g pl pp = []
  · rw [q_dir_step_fixed_empty hP]
    exact h
  · apply good_of_cover h
    intro n2 hn2
    rw [ds_nodes_shape hP] at hn2
    rcases mem_shape hn2 with ⟨n, hn, rfl⟩ | rfl
    · left
      refine ⟨n, hn, ?_, ?_⟩ <;>
        · by_cases hs : (n.label == "Directory" && n.props.path == some cur) = true
          · rw [if_pos hs]
          · rw [if_neg hs]
    · right
      left
      simp [dsNew]

theorem sympath_ds {env : ScipEnv} {idx : ScipIndex} {g : Graph} {pl : String}
    {pp cur : FPath} {part : String} (h : SymPathInv env idx g) :
    SymPathInv env idx (q_dir_step g pl pp cur part) := by
  by_cases hP : labelAt g pl pp = []
  · rw [q_dir_step_fixed_empty hP]
    exact h
  · apply sympath_of_cover h
    intro n2 hn2
    rw [ds_nodes_shape hP] at hn2
    rcases mem_shape hn2 with ⟨n, hn, rfl⟩ | rfl
    · left
      refine ⟨n, hn, ?_, ?_⟩ <;>
        · by_cases hs : (n.label == "Directory" && n.props.path == some cur) = true
          · rw [if_pos hs]
          · rw [if_neg hs]
    · right
      left
      simp [dsNew]

theorem good_dn {g : Graph} {L sym nm : String} {p : FPath} {ln : Nat}
    (hL : L ≠ "File" ∧ L ≠ "Directory" ∧ L ≠ "Repository")
    (hnl : strStartsWith sym "local" = false)
    (h : GoodGraph g) : GoodGraph (q_def_node g L sym nm p ln) := by
  by_cases hF : labelAt g "File" p = []
  · unfold q_def_node
    rw [if_pos (by simpa [List.isEmpty_iff] using hF)]
    exact h
  · apply good_of_cover h
    intro n2 hn2
    rw [dn_nodes_shape hF] at hn2
    rcases mem_shape hn2 with ⟨n, hn, rfl⟩ | rfl
    · left
      refine ⟨n, hn, ?_, ?_⟩ <;>
        · by_cases hs : (n.label == L && n.props.scip_symbol == some sym) = true
          · rw [if_pos hs]
          · rw [if_neg hs]
    · right
      right
      refine ⟨?_, ?_⟩
      · have hx : ((dnNew g L sym).label == L &&
            (dnNew g L sym).props.scip_symbol == some sym) = true := by simp [dnNew]
        rw [if_pos hx]
        exact hL
      · intro s hs
        have hx : ((dnNew g L sym).label == L &&
            (dnNew g L sym).props.scip_symbol == some sym) = true := by simp [dnNew]
        rw [if_pos hx] at hs
        have : sym = s := Option.some.inj hs
        rw [← this]
        exact hnl

theorem sympath_dn {env : ScipEnv} {idx : ScipIndex} {g : Graph} {L sym nm : String}
    {ln : Nat} {d : Document} (hd : d ∈ idx.documents) (hsym : sym ∈ defSyms d)
    (h : SymPathInv env idx g) :
    SymPathInv env idx (q_def_node g L sym nm (docFP env d) ln) := by
  by_cases hF : labelAt g "File" (docFP env d) = []
  · unfold q_def_node
    rw [if_pos (by simpa [List.isEmpty_iff] using hF)]
    exact h
  · apply sympath_of_cover h
    intro n2 hn2
    rw [dn_nodes_shape hF] at hn2
    rcases mem_shape hn2 with ⟨n, hn, rfl⟩ | rfl
    · by_cases hs : (n.label == L && n.props.scip_symbol == some sym) = true
      · right
        right
        right
        refine ⟨d, hd, ?_, ?_⟩
        · intro s hsome
          rw [if_pos hs] at hsome
          obtain ⟨_, h4⟩ := symAtSel_iff.mp hs
          have : some sym = some s := by
            rw [← h4]
            exact hsome
          rw [← Option.some.inj this]
          exact hsym
        · rw [if_pos hs]
      · left
        refine ⟨n, hn, ?_, ?_⟩ <;> rw [if_neg hs]
    · right
      right
      right
      refine ⟨d, hd, ?_, ?_⟩
      · intro s hsome
        have hx : ((dnNew g L sym).label == L &&
            (dnNew g L sym).props.scip_symbol == some sym) = true := by simp [dnNew]
        rw [if_pos hx] at hsome
        have : sym = s := Option.some.inj hsome
        rw [← this]
        exact hsym
      · have hx : ((dnNew g L sym).label == L &&
            (dnNew g L sym).props.scip_symbol == some sym) = true := by simp [dnNew]
        rw [if_pos hx]

theorem nodir_dn {g : Graph} {L sym nm : String} {p : FPath} {ln : Nat}
    (hL : L ≠ "Directory") (h : NoDirNodes g) : NoDirNodes (q_def_node g L sym nm p ln) := by
  by_cases hF : labelAt g "File" p = []
  · unfold q_def_node
    rw [if_pos (by simpa [List.isEmpty_iff] using hF)]
    exact h
  · apply nodir_of_cover h
    intro n2 hn2
    rw [dn_nodes_shape hF] at hn2
    rcases mem_shape hn2 with ⟨n, hn, rfl⟩ | rfl
    · left
      refine ⟨n, hn, ?_⟩
      by_cases hs : (n.label == L && n.props.scip_symbol == some sym) = true
      · rw [if_pos hs]
      · rw [if_neg hs]
    · right
      have hx : ((dnNew g L sym).label == L &&
          (dnNew g L sym).props.scip_symbol == some sym) = true := by simp [dnNew]
      rw [if_pos hx]
      exact hL

theorem good_qc {g : Graph} {sel : GNode → Bool} {tL tSym tName : String}
    (hL : tL ≠ "File" ∧ tL ≠ "Directory" ∧ tL ≠ "Repository")
    (hnl : strStartsWith tSym "local" = false)
    (h : GoodGraph g) : GoodGraph ((q_calls g sel tL tSym tName).1) := by
  by_cases hC : g.nodes.filter sel = []
  · rw [qc_identity hC]
    exact h
  · apply good_of_cover h
    intro n2 hn2
    rw [qc_nodes_shape hC] at hn2
    by_cases hS : (symAt g tL tSym).isEmpty = true
    · rw [if_pos hS] at hn2
      rcases List.mem_append.mp hn2 with hn2 | hn2
      · exact Or.inl ⟨n2, hn2, rfl, rfl⟩
      · rcases List.mem_singleton.mp hn2 with rfl
        right
        right
        refine ⟨hL, ?_⟩
        intro s hs
        have : tSym = s := Option.some.inj hs
        rw [← this]
        exact hnl
    · rw [if_neg hS] at hn2
      exact Or.inl ⟨n2, hn2, rfl, rfl⟩

theorem sympath_qc {env : ScipEnv} {idx : ScipIndex} {g : Graph} {sel : GNode → Bool}
    {tL tSym tName : String} (h : SymPathInv env idx g) :
    SymPathInv env idx ((q_calls g sel tL tSym tName).1) := by
  by_cases hC : g.nodes.filter sel = []
  · rw [qc_identity hC]
    exact h
  · apply sympath_of_cover h
    intro n2 hn2
    rw [qc_nodes_shape hC] at hn2
    by_cases hS : (symAt g tL tSym).isEmpty = true
    · rw [if_pos hS] at hn2
      rcases List.mem_append.mp hn2 with hn2 | hn2
      · exact Or.inl ⟨n2, hn2, rfl, rfl⟩
      · rcases List.mem_singleton.mp hn2 with rfl
        right
        right
        left
        rfl
    · rw [if_neg hS] at hn2
      exact Or.inl ⟨n2, hn2, rfl, rfl⟩

theorem nodir_qc {g : Graph} {sel : GNode → Bool} {tL tSym tName : String}
    (hL : tL ≠ "Directory") (h : NoDirNodes g) :
    NoDirNodes ((q_calls g sel tL tSym tName).1) := by
  by_cases hC : g.nodes.filter sel = []
  · rw [qc_identity hC]
    exact h
  · apply nodir_of_cover h
    intro n2 hn2
    rw [qc_nodes_shape hC] at hn2
    by_cases hS : (symAt g tL tSym).isEmpty = true
    · rw [if_pos hS] at hn2
      rcases List.mem_append.mp hn2 with hn2 | hn2
      · exact Or.inl ⟨n2, hn2, rfl⟩
      · rcases List.mem_singleton.mp hn2 with rfl
        exact Or.inr hL
    · rw [if_neg hS] at hn2
      exact Or.inl ⟨n2, hn2, rfl⟩

/-! ## Frame lemmas for `q_link_file`, `q_merge_file` establishment, chain helpers -/

theorem lf_filter {g : Graph} {pl : String} {pp fp : FPath} {pred : GNode → Bool} :
    (q_link_file g pl pp fp).nodes.filter pred = g.nodes.filter pred := by
  rw [lf_nodes]

theorem lf_labelAt {g : Graph} {pl : String} {pp fp : FPath} {L2 : String} {p2 : FPath} :
    labelAt (q_link_file g pl pp fp) L2 p2 = labelAt g L2 p2 := by
  unfold labelAt
  rw [lf_nodes]

theorem lf_symAt {g : Graph} {pl : String} {pp fp : FPath} {L2 s2 : String} :
    symAt (q_link_file g pl pp fp) L2 s2 = symAt g L2 s2 := by
  unfold symAt
  rw [lf_nodes]

theorem mf_fileAt_shape {g : Graph} {p : FPath} {rel nm : String} :
    labelAt (q_merge_file g p rel nm) "File" p =
      (labelAt g "File" p).map
        (fun n => { n with props :=
          { n.props with relative_path := some rel, name := some nm } }) ++
      (if (labelAt g "File" p).isEmpty then
        [{ nid := g.nextId, label := "File",
           props := { name := some nm, path := some p, relative_path := some rel } }]
       else []) := by
  unfold labelAt
  rw [mf_nodes_shape]
  rw [@filter_shape_sel g.nodes ((labelAt g "File" p).isEmpty) (mfNew g p)
    (fun n => n.label == "File" && n.props.path == some p)
    (fun n => { n with props :=
      { n.props with relative_path := some rel, name := some nm } })
    (fun n => rfl) (by simp [mfNew])]
  rfl

theorem mf_establish {g : Graph} {p : FPath} {rel nm : String} :
    labelAt (q_merge_file g p rel nm) "File" p ≠ [] ∧
    ∀ n ∈ labelAt (q_merge_file g p rel nm) "File" p,
      n.props.relative_path = some rel ∧ n.props.name = some nm := by
  rw [@mf_fileAt_shape g p rel nm]
  constructor
  · by_cases hc : (labelAt g "File" p).isEmpty = true
    · rw [if_pos hc]
      simp
    · rw [if_neg hc, List.append_nil]
      cases hL : labelAt g "File" p with
      | nil => exact absurd hL (by simpa [List.isEmpty_iff] using hc)
      | cons a l => simp
  · intro n hn
    rcases List.mem_append.mp hn with hn2 | hn2
    · obtain ⟨m, _, rfl⟩ := List.mem_map.mp hn2
      exact ⟨rfl, rfl⟩
    · by_cases hc : (labelAt g "File" p).isEmpty = true
      · rw [if_pos hc] at hn2
        rcases List.mem_singleton.mp hn2 with rfl
        exact ⟨rfl, rfl⟩
      · rw [if_neg hc] at hn2
        simp at hn2

theorem mf_fileAt_nids {g : Graph} {p : FPath} {rel nm : String}
    (hne : labelAt g "File" p ≠ []) :
    (labelAt (q_merge_file g p rel nm) "File" p).map (·.nid) =
      (labelAt g "File" p).map (·.nid) := by
  rw [@mf_fileAt_shape g p rel nm,
    if_neg (by simpa [List.isEmpty_iff] using hne), List.append_nil, List.map_map]
  rfl

theorem concat_eq_concat {l1 l2 : List String} {a b : String}
    (h : l1 ++ [a] = l2 ++ [b]) : a = b := by
  have hlen : l1.length = l2.length := by
    have := congrArg List.length h
    simpa using this
  obtain ⟨-, h2⟩ := List.append_inj h hlen
  exact (List.cons.injEq a [] b []).mp h2 |>.1

theorem edges_all_mono {g g2 : Graph} {S T S2 T2 : List GNode} {t : String}
    (h : ∀ p ∈ S, ∀ f ∈ T, hasEdge g p.nid t f.nid = true)
    (hS : S2.map (·.nid) = S.map (·.nid)) (hT : T2.map (·.nid) = T.map (·.nid))
    (hmono : ∀ a b, hasEdge g a t b = true → hasEdge g2 a t b = true) :
    ∀ p ∈ S2, ∀ f ∈ T2, hasEdge g2 p.nid t f.nid = true := by
  intro p hp f hf
  have hpn : p.nid ∈ S.map (·.nid) := by
    rw [← hS]
    exact List.mem_map.mpr ⟨p, hp, rfl⟩
  have hfn : f.nid ∈ T.map (·.nid) := by
    rw [← hT]
    exact List.mem_map.mpr ⟨f, hf, rfl⟩
  obtain ⟨p0, hp0, hpe⟩ := List.mem_map.mp hpn
  obtain ⟨f0, hf0, hfe⟩ := List.mem_map.mp hfn
  rw [← hpe, ← hfe]
  exact hmono _ _ (h p0 hp0 f0 hf0)

theorem labelAt_nil_of_nodir {g : Graph} (h : NoDirNodes g) (q : FPath) :
    labelAt g "Directory" q = [] := by
  unfold labelAt
  rw [List.filter_eq_nil_iff]
  intro n hn
  intro hcond
  obtain ⟨h1, _⟩ := labelAtSel_iff.mp hcond
  exact h n hn h1

theorem hier_go_id_of_empty {fp : FPath} :
    ∀ (parts : List String) (pl : String) (pp : FPath) (g : Graph),
      labelAt g pl pp = [] → NoDirNodes g → hier_go fp pl pp parts g = g := by
  intro parts
  induction parts with
  | nil =>
    intro pl pp g h _
    show q_link_file g pl pp fp = g
    unfold q_link_file
    rw [h]
    rfl
  | cons part rest ih =>
    intro pl pp g h hnd
    show hier_go fp "Directory" (pp ++ [part]) rest (q_dir_step g pl pp (pp ++ [part]) part)
      = g
    rw [q_dir_step_fixed_empty h]
    exact ih "Directory" (pp ++ [part]) g (labelAt_nil_of_nodir hnd _) hnd

theorem chainFixed_regimeA {g : Graph} {fp : FPath} :
    ∀ (parts : List String) (pl : String) (pp : FPath),
      labelAt g pl pp = [] → NoDirNodes g → ChainFixed g fp pl pp parts := by
  intro parts
  induction parts with
  | nil =>
    intro pl pp h _
    exact Or.inl h
  | cons part rest ih =>
    intro pl pp h hnd
    exact ⟨Or.inl h, ih "Directory" (pp ++ [part]) (labelAt_nil_of_nodir hnd _) hnd⟩

theorem chainDone_chainFixed {g : Graph} {fp : FPath} :
    ∀ (parts : List String) (pl : String) (pp : FPath),
      ChainDone g fp pl pp parts → ChainFixed g fp pl pp parts := by
  intro parts
  induction parts with
  | nil =>
    intro pl pp h
    exact Or.inr h.2
  | cons part rest ih =>
    intro pl pp h
    obtain ⟨_, hD, hN, hE, hrest⟩ := h
    exact ⟨Or.inr ⟨hD, hN, hE⟩, ih "Directory" (pp ++ [part]) hrest⟩

/-! ## Frame lemmas for a whole hierarchy pass -/

theorem hier_go_labelAt {fp : FPath} :
    ∀ (parts : List String) (pl : String) (pp : FPath) (g : Graph) (L2 : String) (p2 : FPath),
      (L2 ≠ "Directory" ∨ p2.length ≤ pp.length) →
      labelAt (hier_go fp pl pp parts g) L2 p2 = labelAt g L2 p2 := by
  intro parts
  induction parts with
  | nil =>
    intro pl pp g L2 p2 _
    exact lf_labelAt
  | cons part rest ih =>
    intro pl pp g L2 p2 h
    show labelAt (hier_go fp "Directory" (pp ++ [part]) rest
      (q_dir_step g pl pp (pp ++ [part]) part)) L2 p2 = labelAt g L2 p2
    rw [ih "Directory" (pp ++ [part]) _ L2 p2 ?hc]
    · apply ds_labelAt
      rcases h with h | h
      · exact Or.inl h
      · refine Or.inr ?_
        intro heq
        rw [heq] at h
        simp at h
    case hc =>
      rcases h with h | h
      · exact Or.inl h
      · refine Or.inr (le_trans h ?_)
        simp

theorem hier_go_symAt {fp : FPath} :
    ∀ (parts : List String) (pl : String) (pp : FPath) (g : Graph) (L2 s2 : String),
      L2 ≠ "Directory" →
      symAt (hier_go fp pl pp parts g) L2 s2 = symAt g L2 s2 := by
  intro parts
  induction parts with
  | nil =>
    intro pl pp g L2 s2 _
    exact lf_symAt
  | cons part rest ih =>
    intro pl pp g L2 s2 h
    show symAt (hier_go fp "Directory" (pp ++ [part]) rest
      (q_dir_step g pl pp (pp ++ [part]) part)) L2 s2 = symAt g L2 s2
    rw [ih "Directory" (pp ++ [part]) _ L2 s2 h]
    exact ds_symAt h

theorem hier_go_callerName {fp : FPath} :
    ∀ (parts : List String) (pl : String) (pp : FPath) (g : Graph) (p2 : FPath) (nm2 : String),
      (hier_go fp pl pp parts g).nodes.filter (callerNameSel p2 nm2)
        = g.nodes.filter (callerNameSel p2 nm2) := by
  intro parts
  induction parts with
  | nil =>
    intro pl pp g p2 nm2
    exact lf_filter
  | cons part rest ih =>
    intro pl pp g p2 nm2
    show (hier_go fp "Directory" (pp ++ [part]) rest
      (q_dir_step g pl pp (pp ++ [part]) part)).nodes.filter (callerNameSel p2 nm2) = _
    rw [ih "Directory" (pp ++ [part]) _ p2 nm2]
    exact ds_callerName

theorem hier_go_callerLine {fp : FPath} :
    ∀ (parts : List String) (pl : String) (pp : FPath) (g : Graph) (p2 : FPath) (ln2 : Nat),
      (hier_go fp pl pp parts g).nodes.filter (callerLineSel p2 ln2)
        = g.nodes.filter (callerLineSel p2 ln2) := by
  intro parts
  induction parts with
  | nil =>
    intro pl pp g p2 ln2
    exact lf_filter
  | cons part rest ih =>
    intro pl pp g p2 ln2
    show (hier_go fp "Directory" (pp ++ [part]) rest
      (q_dir_step g pl pp (pp ++ [part]) part)).nodes.filter (callerLineSel p2 ln2) = _
    rw [ih "Directory" (pp ++ [part]) _ p2 ln2]
    exact ds_callerLine

theorem hier_go_hasEdge {fp : FPath} :
    ∀ (parts : List String) (pl : String) (pp : FPath) (g : Graph) (a : Nat) (t : String)
      (b : Nat), hasEdge g a t b = true →
      hasEdge (hier_go fp pl pp parts g) a t b = true := by
  intro parts
  induction parts with
  | nil =>
    intro pl pp g a t b h
    exact lf_hasEdge h
  | cons part rest ih =>
    intro pl pp g a t b h
    exact ih "Directory" (pp ++ [part]) _ a t b (ds_hasEdge h)

theorem hier_go_callsOK {fp : FPath} :
    ∀ (parts : List String) (pl : String) (pp : FPath) (g : Graph) (a b : Nat),
      CallsEdgeOK g a b → CallsEdgeOK (hier_go fp pl pp parts g) a b := by
  intro parts
  induction parts with
  | nil =>
    intro pl pp g a b h
    exact lf_callsOK h
  | cons part rest ih =>
    intro pl pp g a b h
    exact ih "Directory" (pp ++ [part]) _ a b (ds_callsOK h)

theorem good_hier {fp : FPath} :
    ∀ (parts : List String) (pl : String) (pp : FPath) (g : Graph),
      GoodGraph g → GoodGraph (hier_go fp pl pp parts g) := by
  intro parts
  induction parts with
  | nil =>
    intro pl pp g h
    exact good_nodes_eq h (lf_nodes g pl pp fp)
  | cons part rest ih =>
    intro pl pp g h
    exact ih "Directory" (pp ++ [part]) _ (good_ds h)

theorem sympath_hier {env : ScipEnv} {idx : ScipIndex} {fp : FPath} :
    ∀ (parts : List String) (pl : String) (pp : FPath) (g : Graph),
      SymPathInv env idx g → SymPathInv env idx (hier_go fp pl pp parts g) := by
  intro parts
  induction parts with
  | nil =>
    intro pl pp g h
    exact sympath_nodes_eq h (lf_nodes g pl pp fp)
  | cons part rest ih =>
    intro pl pp g h
    exact ih "Directory" (pp ++ [part]) _ (sympath_ds h)

/-! ## Hierarchy establishment (Repository root present) -/

theorem hier_establish {fp : FPath} :
    ∀ (parts : List String) (pl : String) (pp : FPath) (g : Graph),
      labelAt g pl pp ≠ [] → labelAt g "File" fp ≠ [] →
      ChainDone (hier_go fp pl pp parts g) fp pl pp parts := by
  intro parts
  induction parts with
  | nil =>
    intro pl pp g hP hF
    show ChainDone (q_link_file g pl pp fp) fp pl pp []
    refine ⟨?_, ?_⟩
    · rw [lf_labelAt]
      exact hP
    · intro q hq f hf
      rw [lf_labelAt] at hq hf
      unfold q_link_file
      exact mergeEdges_ensures (q.nid, f.nid)
        (List.pair_mem_product.mpr
          ⟨List.mem_map.mpr ⟨q, hq, rfl⟩, List.mem_map.mpr ⟨f, hf, rfl⟩⟩)
  | cons part rest ih =>
    intro pl pp g hP hF
    have hE := @ds_establish g pl pp (pp ++ [part]) part hP
    have hEdges := @ds_edges_establish g pl pp (pp ++ [part]) part hP
    have hP1 : labelAt (q_dir_step g pl pp (pp ++ [part]) part) pl pp = labelAt g pl pp := by
      apply ds_labelAt
      refine Or.inr ?_
      intro heq
      have := congrArg List.length heq
      simp at this
    have hF1 : labelAt (q_dir_step g pl pp (pp ++ [part]) part) "File" fp
        = labelAt g "File" fp := ds_labelAt (Or.inl (by decide))
    have hrest := ih "Directory" (pp ++ [part]) (q_dir_step g pl pp (pp ++ [part]) part)
      hE.1 (by rw [hF1]; exact hF)
    show ChainDone (hier_go fp "Directory" (pp ++ [part]) rest
      (q_dir_step g pl pp (pp ++ [part]) part)) fp pl pp (part :: rest)
    have hstab : ∀ (L2 : String) (p2 : FPath), (L2 ≠ "Directory" ∨ p2.length ≤ pp.length + 1) →
        labelAt (hier_go fp "Directory" (pp ++ [part]) rest
          (q_dir_step g pl pp (pp ++ [part]) part)) L2 p2
        = labelAt (q_dir_step g pl pp (pp ++ [part]) part) L2 p2 := by
      intro L2 p2 h2
      apply hier_go_labelAt
      rcases h2 with h2 | h2
      · exact Or.inl h2
      · refine Or.inr ?_
        simpa using h2
    refine ⟨?_, ?_, ?_, ?_, hrest⟩
    · rw [hstab pl pp (Or.inr (by simp))]
      rw [hP1]
      exact hP
    · rw [hstab "Directory" (pp ++ [part]) (Or.inr (by simp))]
      exact hE.1
    · intro dn2 hdn
      rw [hstab "Directory" (pp ++ [part]) (Or.inr (by simp))] at hdn
      exact hE.2 dn2 hdn
    · intro q hq dn2 hdn
      rw [hstab pl pp (Or.inr (by simp)), hP1] at hq
      rw [hstab "Directory" (pp ++ [part]) (Or.inr (by simp))] at hdn
      exact hier_go_hasEdge rest "Directory" (pp ++ [part]) _ _ _ _ (hEdges q hq dn2 hdn)

/-! ## `ChainDone` preservation under the queries -/

theorem ds_labelAt_pres {g : Graph} {pl2 : String} {pp2 : FPath} {part2 : String}
    {L2 : String} {p2 : FPath}
    (hcase : L2 ≠ "Directory" ∨ p2 ≠ pp2 ++ [part2] ∨
      (labelAt g L2 p2 ≠ [] ∧ ∃ pp0 part0, p2 = pp0 ++ [part0] ∧
        ∀ n ∈ labelAt g L2 p2, n.props.name = some part0)) :
    labelAt (q_dir_step g pl2 pp2 (pp2 ++ [part2]) part2) L2 p2 = labelAt g L2 p2 := by
  rcases hcase with h | h | ⟨hne, pp0, part0, heq, hnames⟩
  · exact ds_labelAt (Or.inl h)
  · exact ds_labelAt (Or.inr h)
  · by_cases hd : L2 = "Directory"
    · by_cases hp : p2 = pp2 ++ [part2]
      · subst hd
        have hpe : part0 = part2 := concat_eq_concat (heq.symm.trans hp)
        rw [hp] at hne hnames ⊢
        apply ds_dirAt_stable hne
        intro n hn
        rw [← hpe]
        exact hnames n hn
      · exact ds_labelAt (Or.inr hp)
    · exact ds_labelAt (Or.inl hd)

theorem chainDone_of_eq {g g2 : Graph} {fp : FPath}
    (hlab : ∀ (L2 : String) (p2 : FPath),
      L2 = "Repository" ∨ L2 = "Directory" ∨ L2 = "File" →
      labelAt g2 L2 p2 = labelAt g L2 p2)
    (hmono : ∀ (a : Nat) (t : String) (b : Nat),
      hasEdge g a t b = true → hasEdge g2 a t b = true) :
    ∀ (parts : List String) (pl : String) (pp : FPath),
      (pl = "Repository" ∨ pl = "Directory") →
      ChainDone g fp pl pp parts → ChainDone g2 fp pl pp parts := by
  intro parts
  induction parts with
  | nil =>
    intro pl pp hpl h
    obtain ⟨h1, h2⟩ := h
    have hplh : pl = "Repository" ∨ pl = "Directory" ∨ pl = "File" := by
      rcases hpl with h3 | h3
      · exact Or.inl h3
      · exact Or.inr (Or.inl h3)
    refine ⟨?_, ?_⟩
    · rw [hlab pl pp hplh]
      exact h1
    · intro q hq f hf
      rw [hlab pl pp hplh] at hq
      rw [hlab "File" fp (Or.inr (Or.inr rfl))] at hf
      exact hmono _ _ _ (h2 q hq f hf)
  | cons part rest ih =>
    intro pl pp hpl h
    obtain ⟨h1, h2, h3, h4, h5⟩ := h
    have hplh : pl = "Repository" ∨ pl = "Directory" ∨ pl = "File" := by
      rcases hpl with h6 | h6
      · exact Or.inl h6
      · exact Or.inr (Or.inl h6)
    refine ⟨?_, ?_, ?_, ?_, ih "Directory" (pp ++ [part]) (Or.inr rfl) h5⟩
    · rw [hlab pl pp hplh]
      exact h1
    · rw [hlab "Directory" _ (Or.inr (Or.inl rfl))]
      exact h2
    · intro dn hdn
      rw [hlab "Directory" _ (Or.inr (Or.inl rfl))] at hdn
      exact h3 dn hdn
    · intro q hq dn hdn
      rw [hlab pl pp hplh] at hq
      rw [hlab "Directory" _ (Or.inr (Or.inl rfl))] at hdn
      exact hmono _ _ _ (h4 q hq dn hdn)

theorem chainDone_dn {g : Graph} {fp : FPath} {L sym nm : String} {p : FPath} {ln : Nat}
    (hL : L ≠ "File" ∧ L ≠ "Directory" ∧ L ≠ "Repository") :
    ∀ (parts : List String) (pl : String) (pp : FPath),
      (pl = "Repository" ∨ pl = "Directory") →
      ChainDone g fp pl pp parts →
      ChainDone (q_def_node g L sym nm p ln) fp pl pp parts := by
  apply chainDone_of_eq
  · intro L2 p2 hc
    apply dn_labelAt
    rcases hc with rfl | rfl | rfl
    · exact Ne.symm hL.2.2
    · exact Ne.symm hL.2.1
    · exact Ne.symm hL.1
  · intro a t b h
    exact dn_hasEdge h

theorem chainDone_qc {g : Graph} {fp : FPath} {sel : GNode → Bool} {tL tSym tName : String} :
    ∀ (parts : List String) (pl : String) (pp : FPath),
      (pl = "Repository" ∨ pl = "Directory") →
      ChainDone g fp pl pp parts →
      ChainDone ((q_calls g sel tL tSym tName).1) fp pl pp parts := by
  apply chainDone_of_eq
  · intro L2 p2 _
    exact qc_labelAt
  · intro a t b h
    exact qc_hasEdge h

theorem chainDone_lf {g : Graph} {fp : FPath} {pl3 : String} {pp3 fp3 : FPath} :
    ∀ (parts : List String) (pl : String) (pp : FPath),
      (pl = "Repository" ∨ pl = "Directory") →
      ChainDone g fp pl pp parts →
      ChainDone (q_link_file g pl3 pp3 fp3) fp pl pp parts := by
  apply chainDone_of_eq
  · intro L2 p2 _
    exact lf_labelAt
  · intro a t b h
    exact lf_hasEdge h

theorem chainDone_mf {g : Graph} {fp p : FPath} {rel nm : String}
    (hF : labelAt g "File" fp ≠ []) :
    ∀ (parts : List String) (pl : String) (pp : FPath),
      (pl = "Repository" ∨ pl = "Directory") →
      ChainDone g fp pl pp parts →
      ChainDone (q_merge_file g p rel nm) fp pl pp parts := by
  have hlabRD : ∀ (L2 : String) (p2 : FPath), L2 = "Repository" ∨ L2 = "Directory" →
      labelAt (q_merge_file g p rel nm) L2 p2 = labelAt g L2 p2 := by
    intro L2 p2 hc
    apply mf_labelAt
    rcases hc with rfl | rfl
    · exact Or.inl (by decide)
    · exact Or.inl (by decide)
  have hfnids : (labelAt (q_merge_file g p rel nm) "File" fp).map (·.nid)
      = (labelAt g "File" fp).map (·.nid) := by
    by_cases hp : fp = p
    · subst hp
      exact mf_fileAt_nids hF
    · rw [mf_labelAt (Or.inr hp)]
  intro parts
  induction parts with
  | nil =>
    intro pl pp hpl h
    obtain ⟨h1, h2⟩ := h
    refine ⟨?_, ?_⟩
    · rw [hlabRD pl pp hpl]
      exact h1
    · have hSn : (labelAt (q_merge_file g p rel nm) pl pp).map (·.nid)
          = (labelAt g pl pp).map (·.nid) := by rw [hlabRD pl pp hpl]
      exact edges_all_mono h2 hSn hfnids
        (fun a b hh => by rw [mf_hasEdge]; exact hh)
  | cons part rest ih =>
    intro pl pp hpl h
    obtain ⟨h1, h2, h3, h4, h5⟩ := h
    refine ⟨?_, ?_, ?_, ?_, ih "Directory" (pp ++ [part]) (Or.inr rfl) h5⟩
    · rw [hlabRD pl pp hpl]
      exact h1
    · rw [hlabRD "Directory" _ (Or.inr rfl)]
      exact h2
    · intro dn hdn
      rw [hlabRD "Directory" _ (Or.inr rfl)] at hdn
      exact h3 dn hdn
    · intro q hq dn hdn
      rw [hlabRD pl pp hpl] at hq
      rw [hlabRD "Directory" _ (Or.inr rfl)] at hdn
      rw [mf_hasEdge]
      exact h4 q hq dn hdn

theorem chainDone_ds {g : Graph} {fp : FPath} {pl2 : String} {pp2 : FPath} {part2 : String} :
    ∀ (parts : List String) (pl : String) (pp : FPath),
      ChainDone g fp pl pp parts →
      (pl = "Directory" → labelAt g pl pp ≠ [] ∧ ∃ pp0 part0, pp = pp0 ++ [part0] ∧
        ∀ n ∈ labelAt g pl pp, n.props.name = some part0) →
      ChainDone (q_dir_step g pl2 pp2 (pp2 ++ [part2]) part2) fp pl pp parts := by
  intro parts
  induction parts with
  | nil =>
    intro pl pp h HP
    obtain ⟨h1, h2⟩ := h
    have hpar : labelAt (q_dir_step g pl2 pp2 (pp2 ++ [part2]) part2) pl pp
        = labelAt g pl pp := by
      by_cases hd : pl = "Directory"
      · obtain ⟨hne, pp0, part0, heq, hnames⟩ := HP hd
        subst hd
        exact ds_labelAt_pres (Or.inr (Or.inr ⟨hne, pp0, part0, heq, hnames⟩))
      · exact ds_labelAt (Or.inl hd)
    have hfile : labelAt (q_dir_step g pl2 pp2 (pp2 ++ [part2]) part2) "File" fp
        = labelAt g "File" fp := ds_labelAt (Or.inl (by decide))
    refine ⟨by rw [hpar]; exact h1, ?_⟩
    intro q hq f hf
    rw [hpar] at hq
    rw [hfile] at hf
    exact ds_hasEdge (h2 q hq f hf)
  | cons part rest ih =>
    intro pl pp h HP
    obtain ⟨h1, h2, h3, h4, h5⟩ := h
    have hpar : labelAt (q_dir_step g pl2 pp2 (pp2 ++ [part2]) part2) pl pp
        = labelAt g pl pp := by
      by_cases hd : pl = "Directory"
      · obtain ⟨hne, pp0, part0, heq, hnames⟩ := HP hd
        subst hd
        exact ds_labelAt_pres (Or.inr (Or.inr ⟨hne, pp0, part0, heq, hnames⟩))
      · exact ds_labelAt (Or.inl hd)
    have hdir : labelAt (q_dir_step g pl2 pp2 (pp2 ++ [part2]) part2) "Directory"
        (pp ++ [part]) = labelAt g "Directory" (pp ++ [part]) :=
      ds_labelAt_pres (Or.inr (Or.inr ⟨h2, pp, part, rfl, h3⟩))
    refine ⟨by rw [hpar]; exact h1, by rw [hdir]; exact h2, ?_, ?_,
      ih "Directory" (pp ++ [part]) h5 (fun _ => ⟨h2, pp, part, rfl, h3⟩)⟩
    · intro dn hdn
      rw [hdir] at hdn
      exact h3 dn hdn
    · intro q hq dn hdn
      rw [hpar] at hq
      rw [hdir] at hdn
      exact ds_hasEdge (h4 q hq dn hdn)

/-! ## Transport of `FileFixed`, `DefFixed`, `RefFixed` -/

theorem fileFixed_of_eq {env : ScipEnv} {d : Document} {g g2 : Graph}
    (h : FileFixed env d g)
    (he : labelAt g2 "File" (docFP env d) = labelAt g "File" (docFP env d)) :
    FileFixed env d g2 := by
  unfold FileFixed at h ⊢
  rw [he]
  exact h

theorem defFixed_of_eq {sm : SymbolMap} {p : FPath} {g g2 : Graph} {occ : Occurrence}
    (h : DefFixed sm p g occ)
    (hfile : labelAt g2 "File" p = labelAt g "File" p)
    (hsym : symAt g2 (defLabelOf (((smGet sm occ.symbol).map (·.kind)).getD 0) occ.symbol)
        occ.symbol
      = symAt g (defLabelOf (((smGet sm occ.symbol).map (·.kind)).getD 0) occ.symbol)
        occ.symbol)
    (hmono : ∀ a b, hasEdge g a "CONTAINS" b = true → hasEdge g2 a "CONTAINS" b = true) :
    DefFixed sm p g2 occ := by
  rcases h with h | h | ⟨h1, h2, h3⟩
  · exact Or.inl h
  · refine Or.inr (Or.inl ?_)
    rw [hfile]
    exact h
  · refine Or.inr (Or.inr ⟨by rw [hsym]; exact h1, ?_, ?_⟩)
    · intro n hn
      rw [hsym] at hn
      exact h2 n hn
    · intro f hf n hn
      rw [hfile] at hf
      rw [hsym] at hn
      exact hmono _ _ (h3 f hf n hn)

theorem refFixed_of_stable {sm : SymbolMap} {p : FPath} {functions : List FuncSpan}
    {g g2 : Graph} {ref : Occurrence}
    (h : RefFixed sm p functions g ref)
    (hname : ∀ nm2 : String,
      g2.nodes.filter (callerNameSel p nm2) = g.nodes.filter (callerNameSel p nm2))
    (hline : ∀ ln2 : Nat,
      g2.nodes.filter (callerLineSel p ln2) = g.nodes.filter (callerLineSel p ln2))
    (hsym : symAt g (targetLabelOf (((smGet sm ref.symbol).map (·.kind)).getD 0) ref.symbol)
        ref.symbol ≠ [] →
      (symAt g2 (targetLabelOf (((smGet sm ref.symbol).map (·.kind)).getD 0) ref.symbol)
        ref.symbol).map (·.nid)
      = (symAt g (targetLabelOf (((smGet sm ref.symbol).map (·.kind)).getD 0) ref.symbol)
        ref.symbol).map (·.nid))
    (hOK : ∀ a b, CallsEdgeOK g a b → CallsEdgeOK g2 a b) :
    RefFixed sm p functions g2 ref := by
  rcases h with h | h | h
  · exact Or.inl h
  · exact Or.inr (Or.inl h)
  · refine Or.inr (Or.inr ?_)
    intro caller hc
    obtain ⟨hA, hB⟩ := h caller hc
    constructor
    · intro hempty2
      rw [hname caller.name] at hempty2
      rcases hA hempty2 with hl | hcf
      · left
        rw [hline caller.line_number]
        exact hl
      · right
        exact callsFixed_mono hcf (hsym hcf.1) (by rw [hline]) hOK
    · intro hne2
      rw [hname caller.name] at hne2
      exact callsFixed_mono (hB hne2) (hsym (hB hne2).1) (by rw [hname]) hOK

/-! ## Per-query preservation of the document facts -/

theorem targetLabel_not_hier (k : Nat) (symbol : String) :
    targetLabelOf k symbol ≠ "File" ∧ targetLabelOf k symbol ≠ "Directory" ∧
    targetLabelOf k symbol ≠ "Repository" := by
  rw [← defLabelOf_eq_targetLabelOf]
  exact defLabelOf_not_hier k symbol

theorem fileFixed_mf {env : ScipEnv} {d : Document} {g : Graph} {p : FPath}
    {rel nm : String} (hne : docFP env d ≠ p) (h : FileFixed env d g) :
    FileFixed env d (q_merge_file g p rel nm) :=
  fileFixed_of_eq h (mf_labelAt (Or.inr hne))

theorem fileFixed_ds {env : ScipEnv} {d : Document} {g : Graph} {pl : String}
    {pp cur : FPath} {part : String} (h : FileFixed env d g) :
    FileFixed env d (q_dir_step g pl pp cur part) :=
  fileFixed_of_eq h (ds_labelAt (Or.inl (by decide)))

theorem fileFixed_lf {env : ScipEnv} {d : Document} {g : Graph} {pl : String}
    {pp fp : FPath} (h : FileFixed env d g) :
    FileFixed env d (q_link_file g pl pp fp) :=
  fileFixed_of_eq h lf_labelAt

theorem fileFixed_dn {env : ScipEnv} {d : Document} {g : Graph} {L sym nm : String}
    {p : FPath} {ln : Nat} (hL : L ≠ "File") (h : FileFixed env d g) :
    FileFixed env d (q_def_node g L sym nm p ln) :=
  fileFixed_of_eq h (dn_labelAt (Ne.symm hL))

theorem fileFixed_qc {env : ScipEnv} {d : Document} {g : Graph} {sel : GNode → Bool}
    {tL tSym tName : String} (h : FileFixed env d g) :
    FileFixed env d ((q_calls g sel tL tSym tName).1) :=
  fileFixed_of_eq h qc_labelAt

theorem fileFixed_hier {env : ScipEnv} {d : Document} {g : Graph} {fp : FPath}
    {parts : List String} {pl : String} {pp : FPath} (h : FileFixed env d g) :
    FileFixed env d (hier_go fp pl pp parts g) :=
  fileFixed_of_eq h (hier_go_labelAt parts pl pp g "File" (docFP env d) (Or.inl (by decide)))

theorem defFixed_mf {sm : SymbolMap} {p : FPath} {g : Graph} {occ : Occurrence}
    {p2 : FPath} {rel nm : String} (hne : p ≠ p2) (h : DefFixed sm p g occ) :
    DefFixed sm p (q_merge_file g p2 rel nm) occ :=
  defFixed_of_eq h (mf_labelAt (Or.inr hne))
    (mf_symAt (defLabelOf_not_hier _ _).1)
    (fun a b hh => by rw [mf_hasEdge]; exact hh)

theorem defFixed_ds {sm : SymbolMap} {p : FPath} {g : Graph} {occ : Occurrence}
    {pl : String} {pp cur : FPath} {part : String} (h : DefFixed sm p g occ) :
    DefFixed sm p (q_dir_step g pl pp cur part) occ :=
  defFixed_of_eq h (ds_labelAt (Or.inl (by decide)))
    (ds_symAt (defLabelOf_not_hier _ _).2.1)
    (fun a b hh => ds_hasEdge hh)

theorem defFixed_lf {sm : SymbolMap} {p : FPath} {g : Graph} {occ : Occurrence}
    {pl : String} {pp fp : FPath} (h : DefFixed sm p g occ) :
    DefFixed sm p (q_link_file g pl pp fp) occ :=
  defFixed_of_eq h lf_labelAt lf_symAt (fun a b hh => lf_hasEdge hh)

theorem defFixed_hier {sm : SymbolMap} {p : FPath} {g : Graph} {occ : Occurrence}
    {fp : FPath} {parts : List String} {pl : String} {pp : FPath}
    (h : DefFixed sm p g occ) : DefFixed sm p (hier_go fp pl pp parts g) occ :=
  defFixed_of_eq h
    (hier_go_labelAt parts pl pp g "File" p (Or.inl (by decide)))
    (hier_go_symAt parts pl pp g _ _ (defLabelOf_not_hier _ _).2.1)
    (fun a b hh => hier_go_hasEdge parts pl pp g a "CONTAINS" b hh)

theorem defFixed_dn {sm : SymbolMap} {p : FPath} {g : Graph} {occ : Occurrence}
    {L2 sym2 nm2 : String} {p2 : FPath} {ln2 : Nat}
    (hL2 : L2 ≠ "File") (hsymne : sym2 ≠ occ.symbol) (h : DefFixed sm p g occ) :
    DefFixed sm p (q_def_node g L2 sym2 nm2 p2 ln2) occ :=
  defFixed_of_eq h (dn_labelAt (Ne.symm hL2))
    (dn_symAt_other (Or.inr (fun he => hsymne he.symm)))
    (fun a b hh => dn_hasEdge hh)

theorem defFixed_qc {sm : SymbolMap} {p : FPath} {g : Graph} {occ : Occurrence}
    {sel : GNode → Bool} {tL tSym tName : String}
    (hcase : tSym ≠ occ.symbol ∨
      tL = defLabelOf (((smGet sm occ.symbol).map (·.kind)).getD 0) occ.symbol)
    (h : DefFixed sm p g occ) :
    DefFixed sm p ((q_calls g sel tL tSym tName).1) occ := by
  rcases h with h | h | ⟨h1, h2, h3⟩
  · exact Or.inl h
  · refine Or.inr (Or.inl ?_)
    rw [qc_labelAt]
    exact h
  · have hsym : symAt ((q_calls g sel tL tSym tName).1)
        (defLabelOf (((smGet sm occ.symbol).map (·.kind)).getD 0) occ.symbol) occ.symbol
      = symAt g (defLabelOf (((smGet sm occ.symbol).map (·.kind)).getD 0) occ.symbol)
        occ.symbol := by
      by_cases hts : tSym = occ.symbol
      · rcases hcase with hc | hc
        · exact absurd hts hc
        · rw [← hc, ← hts]
          rw [← hc, ← hts] at h1
          exact qc_symAt_target h1
      · exact qc_symAt_other (Or.inr (fun he => hts he.symm))
    exact defFixed_of_eq (Or.inr (Or.inr ⟨h1, h2, h3⟩)) qc_labelAt hsym
      (fun a b hh => qc_hasEdge hh)

theorem refFixed_mf {sm : SymbolMap} {p : FPath} {functions : List FuncSpan}
    {g : Graph} {ref : Occurrence} {p2 : FPath} {rel nm : String}
    (h : RefFixed sm p functions g ref) :
    RefFixed sm p functions (q_merge_file g p2 rel nm) ref :=
  refFixed_of_stable h (fun _ => mf_callerName) (fun _ => mf_callerLine)
    (fun _ => by rw [mf_symAt (targetLabel_not_hier _ _).1])
    (fun a b hh => mf_callsOK hh)

theorem refFixed_ds {sm : SymbolMap} {p : FPath} {functions : List FuncSpan}
    {g : Graph} {ref : Occurrence} {pl : String} {pp cur : FPath} {part : String}
    (h : RefFixed sm p functions g ref) :
    RefFixed sm p functions (q_dir_step g pl pp cur part) ref :=
  refFixed_of_stable h (fun _ => ds_callerName) (fun _ => ds_callerLine)
    (fun _ => by rw [ds_symAt (targetLabel_not_hier _ _).2.1])
    (fun a b hh => ds_callsOK hh)

theorem refFixed_lf {sm : SymbolMap} {p : FPath} {functions : List FuncSpan}
    {g : Graph} {ref : Occurrence} {pl : String} {pp fp : FPath}
    (h : RefFixed sm p functions g ref) :
    RefFixed sm p functions (q_link_file g pl pp fp) ref :=
  refFixed_of_stable h (fun _ => lf_filter) (fun _ => lf_filter)
    (fun _ => by rw [lf_symAt]) (fun a b hh => lf_callsOK hh)

theorem refFixed_hier {sm : SymbolMap} {p : FPath} {functions : List FuncSpan}
    {g : Graph} {ref : Occurrence} {fp : FPath} {parts : List String} {pl : String}
    {pp : FPath} (h : RefFixed sm p functions g ref) :
    RefFixed sm p functions (hier_go fp pl pp parts g) ref :=
  refFixed_of_stable h (fun nm2 => hier_go_callerName parts pl pp g p nm2)
    (fun ln2 => hier_go_callerLine parts pl pp g p ln2)
    (fun _ => by rw [hier_go_symAt parts pl pp g _ _ (targetLabel_not_hier _ _).2.1])
    (fun a b hh => hier_go_callsOK parts pl pp g a b hh)

theorem refFixed_dn {sm : SymbolMap} {p : FPath} {functions : List FuncSpan}
    {g : Graph} {ref : Occurrence} {L2 sym2 nm2 : String} {p2 : FPath} {ln2 : Nat}
    (hpath : ∀ n ∈ g.nodes, n.props.scip_symbol = some sym2 →
      n.props.path = none ∨ n.props.path = some p2)
    (hp : p ≠ p2)
    (hcase : sym2 ≠ ref.symbol ∨
      L2 = targetLabelOf (((smGet sm ref.symbol).map (·.kind)).getD 0) ref.symbol)
    (h : RefFixed sm p functions g ref) :
    RefFixed sm p functions (q_def_node g L2 sym2 nm2 p2 ln2) ref := by
  refine refFixed_of_stable h (fun nm3 => dn_callerName hpath hp)
    (fun ln3 => dn_callerLine hpath hp) ?_ (fun a b hh => dn_callsOK hh)
  intro hne
  by_cases hts : sym2 = ref.symbol
  · rcases hcase with hc | hc
    · exact absurd hts hc
    · rw [← hc, ← hts] at hne ⊢
      exact dn_symAt_nids hne
  · rw [dn_symAt_other (Or.inr (fun he => hts he.symm))]

theorem refFixed_qc {sm : SymbolMap} {p : FPath} {functions : List FuncSpan}
    {g : Graph} {ref : Occurrence} {sel : GNode → Bool} {tL tSym tName : String}
    (hcase : tSym ≠ ref.symbol ∨
      tL = targetLabelOf (((smGet sm ref.symbol).map (·.kind)).getD 0) ref.symbol)
    (h : RefFixed sm p functions g ref) :
    RefFixed sm p functions ((q_calls g sel tL tSym tName).1) ref := by
  refine refFixed_of_stable h (fun nm3 => qc_callerName) (fun ln3 => qc_callerLine)
    ?_ (fun a b hh => qc_callsOK hh)
  intro hne
  by_cases hts : tSym = ref.symbol
  · rcases hcase with hc | hc
    · exact absurd hts hc
    · rw [← hc, ← hts] at hne ⊢
      rw [qc_symAt_target hne]
  · rw [qc_symAt_other (Or.inr (fun he => hts he.symm))]

/-! ## Step-level lemmas for `def_step` and `ref_step` -/

theorem mem_filter_of_docDefs {d : Document} {occ : Occurrence} (h : occ ∈ docDefs d) :
    occ ∈ d.occurrences.filter isDefinition := by
  unfold docDefs sortOccs at h
  exact (List.perm_insertionSort occLe (d.occurrences.filter isDefinition)).mem_iff.mp h

theorem mem_defSyms_of_docDefs {d : Document} {occ : Occurrence} (h : occ ∈ docDefs d)
    (hnl : strStartsWith occ.symbol "local" = false) : occ.symbol ∈ defSyms d := by
  unfold defSyms
  refine List.mem_map.mpr ⟨occ, ?_, rfl⟩
  refine List.mem_filter.mpr ⟨mem_filter_of_docDefs h, ?_⟩
  simp [hnl]

theorem def_step_pres {sm : SymbolMap} {p2 : FPath} {g : Graph} {occ2 : Occurrence}
    {P : Graph → Prop}
    (hdn : strStartsWith occ2.symbol "local" = false →
      ∀ (g2 : Graph) (nm : String) (ln : Nat), P g2 →
      P (q_def_node g2
        (defLabelOf (((smGet sm occ2.symbol).map (·.kind)).getD 0) occ2.symbol)
        occ2.symbol nm p2 ln))
    (h : P g) : P (def_step sm p2 g occ2) := by
  unfold def_step
  by_cases hl : strStartsWith occ2.symbol "local" = true
  · rw [if_pos hl]
    exact h
  · rw [if_neg hl]
    simp only []
    exact hdn (Bool.eq_false_iff.mpr hl) _ _ _ h

theorem ref_step_pres {sm : SymbolMap} {p2 : FPath} {functions2 : List FuncSpan}
    {g : Graph} {ref2 : Occurrence} {P : Graph → Prop}
    (hqc : strStartsWith ref2.symbol "local" = false →
      ∀ (g2 : Graph) (sel : GNode → Bool) (tName : String), P g2 →
      P ((q_calls g2 sel
        (targetLabelOf (((smGet sm ref2.symbol).map (·.kind)).getD 0) ref2.symbol)
        ref2.symbol tName).1))
    (h : P g) : P (ref_step sm p2 functions2 g ref2) := by
  unfold ref_step
  by_cases hl : strStartsWith ref2.symbol "local" = true
  · rw [if_pos hl]
    exact h
  · rw [if_neg hl]
    cases hc : chooseCaller functions2 (r0 ref2 + 1) with
    | none => exact h
    | some caller =>
      simp only []
      unfold ref_upsert
      have hnl := Bool.eq_false_iff.mpr hl
      by_cases h0 : (q_calls g (callerNameSel p2 caller.name)
          (targetLabelOf (((smGet sm ref2.symbol).map (·.kind)).getD 0) ref2.symbol)
          ref2.symbol (extract_name ref2.symbol (smGet sm ref2.symbol))).2 = 0
      · rw [if_pos h0]
        exact hqc hnl _ _ _ (hqc hnl _ _ _ h)
      · rw [if_neg h0]
        exact hqc hnl _ _ _ h

theorem def_step_establishes {sm : SymbolMap} {p : FPath} {g : Graph} {occ : Occurrence}
    (hF : labelAt g "File" p ≠ []) :
    DefFixed sm p (def_step sm p g occ) occ := by
  unfold def_step
  by_cases hl : strStartsWith occ.symbol "local" = true
  · rw [if_pos hl]
    exact Or.inl hl
  · rw [if_neg hl]
    simp only []
    refine Or.inr (Or.inr ⟨(dn_establish hF).1, (dn_establish hF).2, ?_⟩)
    intro f hf n hn
    rw [dn_labelAt (Ne.symm (defLabelOf_not_hier _ _).1)] at hf
    exact dn_edges_establish hF f hf n hn

theorem ref_step_establishes {sm : SymbolMap} {p : FPath} {functions : List FuncSpan}
    {g : Graph} {ref : Occurrence} :
    RefFixed sm p functions (ref_step sm p functions g ref) ref := by
  unfold ref_step
  by_cases hl : strStartsWith ref.symbol "local" = true
  · rw [if_pos hl]
    exact Or.inl hl
  · rw [if_neg hl]
    cases hc : chooseCaller functions (r0 ref + 1) with
    | none => exact Or.inr (Or.inl hc)
    | some caller =>
      simp only []
      refine Or.inr (Or.inr ?_)
      intro caller2 hc2
      have hceq : caller = caller2 := Option.some.inj (hc.symm.trans hc2)
      subst hceq
      unfold ref_upsert
      by_cases hCname : g.nodes.filter (callerNameSel p caller.name) = []
      · rw [if_pos ((q_calls_count _ _ _ _ _).mpr hCname)]
        rw [qc_identity hCname]
        by_cases hCline : g.nodes.filter (callerLineSel p caller.line_number) = []
        · rw [qc_identity hCline]
          constructor
          · intro _
            exact Or.inl hCline
          · intro hne
            exact absurd hCname hne
        · constructor
          · intro _
            right
            exact qc_establish hCline (by simp [qcNew, callerLineSel])
          · intro hne2
            rw [qc_callerName] at hne2
            exact absurd hCname hne2
      · rw [if_neg (fun h0 => hCname ((q_calls_count _ _ _ _ _).mp h0))]
        constructor
        · intro hempty
          rw [qc_callerName] at hempty
          exact absurd hempty hCname
        · intro _
          exact qc_establish hCname (by simp [qcNew, callerNameSel])

/-! ## Stage-level lemmas: the definitions fold and the references fold -/

theorem pairwise_gate {α β : Type} {q : α → Bool} {f : α → β} {l : List α}
    (h : ((l.filter q).map f).Nodup) :
    l.Pairwise (fun a b => q a = true → q b = true → f a ≠ f b) := by
  induction l with
  | nil => exact List.Pairwise.nil
  | cons a t ih =>
    rw [List.filter_cons] at h
    by_cases hq : q a = true
    · rw [if_pos hq, List.map_cons] at h
      have h2 := List.nodup_cons.mp h
      refine List.Pairwise.cons ?_ (ih h2.2)
      intro b hb _ hqb hfe
      apply h2.1
      rw [hfe]
      exact List.mem_map.mpr ⟨b, List.mem_filter.mpr ⟨hb, hqb⟩, rfl⟩
    · rw [if_neg hq] at h
      refine List.Pairwise.cons ?_ (ih h)
      intro b _ hqa
      exact absurd hqa hq

theorem pairwise_docDefs {d : Document} (h : (defSyms d).Nodup) :
    (docDefs d).Pairwise (fun a b =>
      strStartsWith a.symbol "local" = false → strStartsWith b.symbol "local" = false →
      a.symbol ≠ b.symbol) := by
  have hperm : List.Perm (docDefs d) (d.occurrences.filter isDefinition) := by
    unfold docDefs sortOccs
    exact List.perm_insertionSort occLe (d.occurrences.filter isDefinition)
  have hiff := List.Perm.pairwise_iff (R := fun a b : Occurrence =>
      strStartsWith a.symbol "local" = false → strStartsWith b.symbol "local" = false →
      a.symbol ≠ b.symbol)
    (fun hxy hb ha he => hxy ha hb he.symm) hperm
  rw [hiff]
  have h2 : ((List.filter (fun o => !strStartsWith o.symbol "local")
      (List.filter isDefinition d.occurrences)).map
      (fun o : Occurrence => o.symbol)).Nodup := h
  have hgate := pairwise_gate (q := fun o => !strStartsWith o.symbol "local")
    (f := fun o : Occurrence => o.symbol) (l := d.occurrences.filter isDefinition) h2
  refine hgate.imp ?_
  intro a b hab ha hb
  exact hab (by simp [ha]) (by simp [hb])

theorem defs_stage_pres {sm : SymbolMap} {env : ScipEnv} {d : Document} {g : Graph}
    {P : Graph → Prop}
    (hstep : ∀ (g2 : Graph) (occ : Occurrence), occ ∈ docDefs d →
      P g2 → P (def_step sm (docFP env d) g2 occ))
    (h : P g) : P (doc_stage_defs sm env d g) := by
  unfold doc_stage_defs
  exact foldl_pres (docDefs d) g hstep h

theorem refs_stage_pres {sm : SymbolMap} {env : ScipEnv} {d : Document} {g : Graph}
    {P : Graph → Prop}
    (hstep : ∀ (functions : List FuncSpan) (g2 : Graph) (ref : Occurrence),
      ref ∈ docRefs d → P g2 → P (ref_step sm (docFP env d) functions g2 ref))
    (h : P g) : P (doc_stage_refs sm env d g) := by
  unfold doc_stage_refs
  by_cases hfe : (!env.fileExists (docFP env d)) = true
  · rw [if_pos hfe]
    exact h
  · rw [if_neg hfe]
    cases hts : env.tsFunctions (docFP env d) with
    | none => exact h
    | some functions =>
      show P (if functions.isEmpty = true then g
        else if (docRefs d).isEmpty = true then g
        else (docRefs d).foldl (ref_step sm (docFP env d) functions) g)
      by_cases h1 : functions.isEmpty = true
      · rw [if_pos h1]
        exact h
      · rw [if_neg h1]
        by_cases h2 : (docRefs d).isEmpty = true
        · rw [if_pos h2]
          exact h
        · rw [if_neg h2]
          exact foldl_pres (docRefs d) g (fun g2 r hr hp => hstep functions g2 r hr hp) h

theorem defFixed_def_step {sm : SymbolMap} {p p2 : FPath} {g : Graph}
    {occ occ2 : Occurrence} (hsymne : occ2.symbol ≠ occ.symbol)
    (h : DefFixed sm p g occ) : DefFixed sm p (def_step sm p2 g occ2) occ := by
  refine def_step_pres (P := fun g3 => DefFixed sm p g3 occ) ?_ h
  intro hnl g3 nm ln hp
  exact defFixed_dn (defLabelOf_not_hier _ _).1 hsymne hp

theorem fileNe_dn {g : Graph} {L sym nm : String} {p : FPath} {ln : Nat} {p3 : FPath}
    (hL : L ≠ "File") (h : labelAt g "File" p3 ≠ []) :
    labelAt (q_def_node g L sym nm p ln) "File" p3 ≠ [] := by
  rw [dn_labelAt (Ne.symm hL)]
  exact h

set_option maxHeartbeats 1000000 in
theorem defs_step_inv {sm : SymbolMap} {env : ScipEnv} {idx : ScipIndex}
    {d : Document} (hd : d ∈ idx.documents) :
    ∀ (g2 : Graph) (occ : Occurrence), occ ∈ docDefs d →
      (GoodGraph g2 ∧ SymPathInv env idx g2 ∧ labelAt g2 "File" (docFP env d) ≠ []) →
      (GoodGraph (def_step sm (docFP env d) g2 occ) ∧
        SymPathInv env idx (def_step sm (docFP env d) g2 occ) ∧
        labelAt (def_step sm (docFP env d) g2 occ) "File" (docFP env d) ≠ []) := by
  intro g2 occ hocc hq
  refine ⟨?_, ?_, ?_⟩
  · exact def_step_pres (P := GoodGraph)
      (fun hnl g3 nm ln hp => good_dn (defLabelOf_not_hier _ _) hnl hp) hq.1
  · exact def_step_pres (P := SymPathInv env idx)
      (fun hnl g3 nm ln hp =>
        sympath_dn hd (mem_defSyms_of_docDefs hocc hnl) hp) hq.2.1
  · exact def_step_pres (P := fun g3 => labelAt g3 "File" (docFP env d) ≠ [])
      (fun hnl g3 nm ln hp => fileNe_dn (defLabelOf_not_hier _ _).1 hp) hq.2.2

set_option maxHeartbeats 1000000 in
theorem defs_step_est {sm : SymbolMap} {env : ScipEnv} {idx : ScipIndex} {d : Document} :
    ∀ (g2 : Graph) (occ : Occurrence), occ ∈ docDefs d →
      (GoodGraph g2 ∧ SymPathInv env idx g2 ∧ labelAt g2 "File" (docFP env d) ≠ []) →
      DefFixed sm (docFP env d) (def_step sm (docFP env d) g2 occ) occ := by
  intro g2 occ _ hq
  exact def_step_establishes hq.2.2

set_option maxHeartbeats 1000000 in
theorem defs_step_keep {sm : SymbolMap} {env : ScipEnv} {idx : ScipIndex} {d : Document} :
    ∀ (g2 : Graph) (occ occ2 : Occurrence), occ ∈ docDefs d → occ2 ∈ docDefs d →
      (strStartsWith occ.symbol "local" = false →
        strStartsWith occ2.symbol "local" = false → occ.symbol ≠ occ2.symbol) →
      (GoodGraph g2 ∧ SymPathInv env idx g2 ∧ labelAt g2 "File" (docFP env d) ≠ []) →
      DefFixed sm (docFP env d) g2 occ →
      DefFixed sm (docFP env d) (def_step sm (docFP env d) g2 occ2) occ := by
  intro g2 occ occ2 _ _ hr _ hp
  by_cases hl2 : strStartsWith occ2.symbol "local" = true
  · unfold def_step
    rw [if_pos hl2]
    exact hp
  · by_cases hl1 : strStartsWith occ.symbol "local" = true
    · exact Or.inl hl1
    · exact defFixed_def_step
        (Ne.symm (hr (Bool.eq_false_iff.mpr hl1) (Bool.eq_false_iff.mpr hl2))) hp

set_option maxHeartbeats 1000000 in
theorem defs_stage_establish {sm : SymbolMap} {env : ScipEnv} {idx : ScipIndex}
    {d : Document} {g : Graph}
    (hd : d ∈ idx.documents) (hns : (defSyms d).Nodup)
    (hQ : GoodGraph g ∧ SymPathInv env idx g ∧ labelAt g "File" (docFP env d) ≠ []) :
    (∀ occ ∈ docDefs d, DefFixed sm (docFP env d) (doc_stage_defs sm env d g) occ) ∧
    (GoodGraph (doc_stage_defs sm env d g) ∧
      SymPathInv env idx (doc_stage_defs sm env d g) ∧
      labelAt (doc_stage_defs sm env d g) "File" (docFP env d) ≠ []) := by
  unfold doc_stage_defs
  exact foldl_establish
    (Q := fun g2 => GoodGraph g2 ∧ SymPathInv env idx g2 ∧
      labelAt g2 "File" (docFP env d) ≠ [])
    (P := fun occ g2 => DefFixed sm (docFP env d) g2 occ)
    (R := fun a b =>
      strStartsWith a.symbol "local" = false → strStartsWith b.symbol "local" = false →
      a.symbol ≠ b.symbol)
    (f := def_step sm (docFP env d))
    (docDefs d) g (pairwise_docDefs hns) (defs_step_inv hd) defs_step_est defs_step_keep hQ

theorem pairwise_trivial {α : Type} : ∀ (l : List α), l.Pairwise (fun _ _ => True)
  | [] => List.Pairwise.nil
  | _ :: t => List.Pairwise.cons (fun _ _ => trivial) (pairwise_trivial t)

set_option maxHeartbeats 1000000 in
theorem refs_stage_establish {sm : SymbolMap} {env : ScipEnv} {idx : ScipIndex}
    {d : Document} {g : Graph}
    (hQ : GoodGraph g ∧ SymPathInv env idx g) :
    RefsStageFixed sm env d (doc_stage_refs sm env d g) ∧
    (GoodGraph (doc_stage_refs sm env d g) ∧ SymPathInv env idx (doc_stage_refs sm env d g)) := by
  unfold doc_stage_refs
  by_cases hfe : (!env.fileExists (docFP env d)) = true
  · rw [if_pos hfe]
    refine ⟨Or.inl ?_, hQ⟩
    simpa using hfe
  · rw [if_neg hfe]
    cases hts : env.tsFunctions (docFP env d) with
    | none => exact ⟨Or.inr (Or.inl hts), hQ⟩
    | some functions =>
      show RefsStageFixed sm env d (if functions.isEmpty = true then g
          else if (docRefs d).isEmpty = true then g
          else (docRefs d).foldl (ref_step sm (docFP env d) functions) g) ∧
        (GoodGraph (if functions.isEmpty = true then g
          else if (docRefs d).isEmpty = true then g
          else (docRefs d).foldl (ref_step sm (docFP env d) functions) g) ∧
        SymPathInv env idx (if functions.isEmpty = true then g
          else if (docRefs d).isEmpty = true then g
          else (docRefs d).foldl (ref_step sm (docFP env d) functions) g))
      by_cases h1 : functions.isEmpty = true
      · rw [if_pos h1]
        exact ⟨Or.inr (Or.inr ⟨functions, hts,
          Or.inl (by simpa [List.isEmpty_iff] using h1)⟩), hQ⟩
      · rw [if_neg h1]
        by_cases h2 : (docRefs d).isEmpty = true
        · rw [if_pos h2]
          exact ⟨Or.inr (Or.inr ⟨functions, hts,
            Or.inr (Or.inl (by simpa [List.isEmpty_iff] using h2))⟩), hQ⟩
        · rw [if_neg h2]
          have hfold := foldl_establish
            (Q := fun g2 => GoodGraph g2 ∧ SymPathInv env idx g2)
            (P := fun r g2 => RefFixed sm (docFP env d) functions g2 r)
            (R := fun _ _ => True)
            (f := ref_step sm (docFP env d) functions)
            (docRefs d) g (pairwise_trivial (docRefs d)) ?_ ?_ ?_ hQ
          · exact ⟨Or.inr (Or.inr ⟨functions, hts, Or.inr (Or.inr hfold.1)⟩), hfold.2⟩
          · intro g2 r _ hq
            refine ⟨?_, ?_⟩
            · exact ref_step_pres
                (fun hnl g3 sel tName hp =>
                  good_qc (targetLabel_not_hier _ _) hnl hp) hq.1
            · exact ref_step_pres
                (fun hnl g3 sel tName hp => sympath_qc hp) hq.2
          · intro g2 r _ _
            exact ref_step_establishes
          · intro g2 r r2 _ _ _ _ hp
            refine ref_step_pres
              (P := fun g3 => RefFixed sm (docFP env d) functions g3 r) ?_ hp
            intro hnl g3 sel tName hp2
            refine refFixed_qc ?_ hp2
            by_cases heq : r2.symbol = r.symbol
            · right
              rw [heq]
            · exact Or.inl heq

/-! ## Constancy of the Repository match set through a whole document -/

theorem repoEq_dn {g g0 : Graph} {L sym nm : String} {p : FPath} {ln : Nat} {q : FPath}
    (hL : L ≠ "Repository")
    (h : labelAt g "Repository" q = labelAt g0 "Repository" q) :
    labelAt (q_def_node g L sym nm p ln) "Repository" q = labelAt g0 "Repository" q := by
  rw [dn_labelAt (Ne.symm hL)]
  exact h

theorem repoEq_qc {g g0 : Graph} {sel : GNode → Bool} {tL tSym tName : String} {q : FPath}
    (h : labelAt g "Repository" q = labelAt g0 "Repository" q) :
    labelAt ((q_calls g sel tL tSym tName).1) "Repository" q
      = labelAt g0 "Repository" q := by
  rw [qc_labelAt]
  exact h

theorem repoAt_def_step {sm : SymbolMap} {p2 : FPath} {g : Graph} {occ2 : Occurrence}
    {q : FPath} :
    labelAt (def_step sm p2 g occ2) "Repository" q = labelAt g "Repository" q :=
  def_step_pres (P := fun g3 => labelAt g3 "Repository" q = labelAt g "Repository" q)
    (fun _ g3 nm ln hp => repoEq_dn (defLabelOf_not_hier _ _).2.2 hp) rfl

theorem repoAt_ref_step {sm : SymbolMap} {p2 : FPath} {functions2 : List FuncSpan}
    {g : Graph} {ref2 : Occurrence} {q : FPath} :
    labelAt (ref_step sm p2 functions2 g ref2) "Repository" q
      = labelAt g "Repository" q :=
  ref_step_pres (P := fun g3 => labelAt g3 "Repository" q = labelAt g "Repository" q)
    (fun _ g3 sel tName hp => repoEq_qc hp) rfl

theorem repoAt_defs {sm : SymbolMap} {env : ScipEnv} {d : Document} {g : Graph}
    {q : FPath} :
    labelAt (doc_stage_defs sm env d g) "Repository" q = labelAt g "Repository" q :=
  defs_stage_pres (P := fun g3 => labelAt g3 "Repository" q = labelAt g "Repository" q)
    (fun g2 occ _ hp => repoAt_def_step.trans hp) rfl

theorem repoAt_refs {sm : SymbolMap} {env : ScipEnv} {d : Document} {g : Graph}
    {q : FPath} :
    labelAt (doc_stage_refs sm env d g) "Repository" q = labelAt g "Repository" q :=
  refs_stage_pres (P := fun g3 => labelAt g3 "Repository" q = labelAt g "Repository" q)
    (fun functions g2 r _ hp => repoAt_ref_step.trans hp) rfl

theorem repoAt_process {sm : SymbolMap} {env : ScipEnv} {d : Document} {g : Graph}
    {q : FPath} :
    labelAt (process_document env sm g d) "Repository" q = labelAt g "Repository" q := by
  unfold process_document
  by_cases hskip : docSkip d = true
  · rw [if_pos hskip]
  · rw [if_neg hskip]
    rw [repoAt_refs, repoAt_defs]
    unfold doc_stage_hier
    rw [hier_go_labelAt (docDirs d) "Repository" env.repoPath _ "Repository" q
      (Or.inl (by decide))]
    rw [hier_go_labelAt (docDirs d) "Repository" env.repoPath _ "Repository" q
      (Or.inl (by decide))]
    unfold doc_stage_file
    exact mf_labelAt (Or.inl (by decide))

/-! ## `ChainDone` transported through a foreign hierarchy pass -/

theorem chainDone_hier {fp0 : FPath} {parts0 : List String} {fp2 : FPath} :
    ∀ (parts2 : List String) (pl2 : String) (pp2 : FPath) (g : Graph),
      ChainDone g fp0 "Repository" env0 parts0 →
      ChainDone (hier_go fp2 pl2 pp2 parts2 g) fp0 "Repository" env0 parts0 := by
  intro parts2
  induction parts2 with
  | nil =>
    intro pl2 pp2 g h
    exact chainDone_lf parts0 "Repository" env0 (Or.inl rfl) h
  | cons part2 rest2 ih =>
    intro pl2 pp2 g h
    show ChainDone (hier_go fp2 "Directory" (pp2 ++ [part2]) rest2
      (q_dir_step g pl2 pp2 (pp2 ++ [part2]) part2)) fp0 "Repository" env0 parts0
    exact ih "Directory" (pp2 ++ [part2]) _
      (chainDone_ds parts0 "Repository" env0 h (fun hcon => absurd hcon (by decide)))

/-! ## Per-step transport wrappers for whole-document reasoning -/

theorem noLocal_of_good {g : Graph} (h : GoodGraph g) : NoLocalNodes g := by
  intro n hn
  unfold localNode
  cases hsym : n.props.scip_symbol with
  | none => rfl
  | some s => exact h.2 n hn s hsym

theorem fileFixed_def_step {sm : SymbolMap} {env : ScipEnv} {d : Document} {p2 : FPath}
    {g : Graph} {occ2 : Occurrence} (h : FileFixed env d g) :
    FileFixed env d (def_step sm p2 g occ2) :=
  def_step_pres (P := FileFixed env d)
    (fun _ g3 nm ln hp => fileFixed_dn (defLabelOf_not_hier _ _).1 hp) h

theorem fileFixed_ref_step {sm : SymbolMap} {env : ScipEnv} {d : Document} {p2 : FPath}
    {functions2 : List FuncSpan} {g : Graph} {ref2 : Occurrence}
    (h : FileFixed env d g) :
    FileFixed env d (ref_step sm p2 functions2 g ref2) :=
  ref_step_pres (P := FileFixed env d)
    (fun _ g3 sel tName hp => fileFixed_qc hp) h

theorem nodir_def_step {sm : SymbolMap} {p2 : FPath} {g : Graph} {occ2 : Occurrence}
    (h : NoDirNodes g) : NoDirNodes (def_step sm p2 g occ2) :=
  def_step_pres (P := NoDirNodes)
    (fun _ g3 nm ln hp => nodir_dn (defLabelOf_not_hier _ _).2.1 hp) h

theorem nodir_ref_step {sm : SymbolMap} {p2 : FPath} {functions2 : List FuncSpan}
    {g : Graph} {ref2 : Occurrence} (h : NoDirNodes g) :
    NoDirNodes (ref_step sm p2 functions2 g ref2) :=
  ref_step_pres (P := NoDirNodes)
    (fun _ g3 sel tName hp => nodir_qc (targetLabel_not_hier _ _).2.1 hp) h

theorem chainDone_def_step {sm : SymbolMap} {p2 : FPath} {g : Graph} {occ2 : Occurrence}
    {fp : FPath} {parts : List String} {rp0 : FPath}
    (h : ChainDone g fp "Repository" rp0 parts) :
    ChainDone (def_step sm p2 g occ2) fp "Repository" rp0 parts :=
  def_step_pres (P := fun g3 => ChainDone g3 fp "Repository" rp0 parts)
    (fun _ g3 nm ln hp =>
      chainDone_dn (defLabelOf_not_hier _ _) parts "Repository" rp0 (Or.inl rfl) hp) h

theorem chainDone_ref_step {sm : SymbolMap} {p2 : FPath} {functions2 : List FuncSpan}
    {g : Graph} {ref2 : Occurrence} {fp : FPath} {parts : List String} {rp0 : FPath}
    (h : ChainDone g fp "Repository" rp0 parts) :
    ChainDone (ref_step sm p2 functions2 g ref2) fp "Repository" rp0 parts :=
  ref_step_pres (P := fun g3 => ChainDone g3 fp "Repository" rp0 parts)
    (fun _ g3 sel tName hp => chainDone_qc parts "Repository" rp0 (Or.inl rfl) hp) h

theorem good_def_step {sm : SymbolMap} {p2 : FPath} {g : Graph} {occ2 : Occurrence}
    (h : GoodGraph g) : GoodGraph (def_step sm p2 g occ2) :=
  def_step_pres (P := GoodGraph)
    (fun hnl g3 nm ln hp => good_dn (defLabelOf_not_hier _ _) hnl hp) h

theorem good_ref_step {sm : SymbolMap} {p2 : FPath} {functions2 : List FuncSpan}
    {g : Graph} {ref2 : Occurrence} (h : GoodGraph g) :
    GoodGraph (ref_step sm p2 functions2 g ref2) :=
  ref_step_pres (P := GoodGraph)
    (fun hnl g3 sel tName hp => good_qc (targetLabel_not_hier _ _) hnl hp) h

theorem sympath_ref_step {sm : SymbolMap} {env : ScipEnv} {idx : ScipIndex} {p2 : FPath}
    {functions2 : List FuncSpan} {g : Graph} {ref2 : Occurrence}
    (h : SymPathInv env idx g) :
    SymPathInv env idx (ref_step sm p2 functions2 g ref2) :=
  ref_step_pres (P := SymPathInv env idx)
    (fun hnl g3 sel tName hp => sympath_qc hp) h

theorem sympath_def_step {sm : SymbolMap} {env : ScipEnv} {idx : ScipIndex}
    {d2 : Document} {g : Graph} {occ2 : Occurrence}
    (hd2 : d2 ∈ idx.documents) (hocc2 : occ2 ∈ docDefs d2)
    (h : SymPathInv env idx g) :
    SymPathInv env idx (def_step sm (docFP env d2) g occ2) :=
  def_step_pres (P := SymPathInv env idx)
    (fun hnl g3 nm ln hp => sympath_dn hd2 (mem_defSyms_of_docDefs hocc2 hnl) hp) h

/-! ## Case helpers for the target label of a foreign upsert -/

theorem rfq_case (sm : SymbolMap) (ref2 ref : Occurrence) :
    ref2.symbol ≠ ref.symbol ∨
      targetLabelOf (((smGet sm ref2.symbol).map (·.kind)).getD 0) ref2.symbol
        = targetLabelOf (((smGet sm ref.symbol).map (·.kind)).getD 0) ref.symbol := by
  by_cases heq : ref2.symbol = ref.symbol
  · right
    rw [heq]
  · exact Or.inl heq

theorem dfq_case (sm : SymbolMap) (ref2 occ : Occurrence) :
    ref2.symbol ≠ occ.symbol ∨
      targetLabelOf (((smGet sm ref2.symbol).map (·.kind)).getD 0) ref2.symbol
        = defLabelOf (((smGet sm occ.symbol).map (·.kind)).getD 0) occ.symbol := by
  by_cases heq : ref2.symbol = occ.symbol
  · right
    rw [heq]
    exact (defLabelOf_eq_targetLabelOf _ _).symm
  · exact Or.inl heq

theorem dno_case (sm : SymbolMap) (occ2 ref : Occurrence) :
    occ2.symbol ≠ ref.symbol ∨
      defLabelOf (((smGet sm occ2.symbol).map (·.kind)).getD 0) occ2.symbol
        = targetLabelOf (((smGet sm ref.symbol).map (·.kind)).getD 0) ref.symbol := by
  by_cases heq : occ2.symbol = ref.symbol
  · right
    rw [heq]
    exact defLabelOf_eq_targetLabelOf _ _
  · exact Or.inl heq

/-! ## Transport of the reference-stage and definitions facts -/

theorem refsStage_of_step {sm : SymbolMap} {env : ScipEnv} {d : Document} {g g2 : Graph}
    (hstep : ∀ (functions : List FuncSpan), ∀ ref ∈ docRefs d,
      RefFixed sm (docFP env d) functions g ref →
      RefFixed sm (docFP env d) functions g2 ref)
    (h : RefsStageFixed sm env d g) : RefsStageFixed sm env d g2 := by
  rcases h with h | h | ⟨functions, hts, h⟩
  · exact Or.inl h
  · exact Or.inr (Or.inl h)
  · refine Or.inr (Or.inr ⟨functions, hts, ?_⟩)
    rcases h with h | h | h
    · exact Or.inl h
    · exact Or.inr (Or.inl h)
    · exact Or.inr (Or.inr (fun ref hr => hstep functions ref hr (h ref hr)))

theorem refsStage_mf {sm : SymbolMap} {env : ScipEnv} {d : Document} {g : Graph}
    {p2 : FPath} {rel nm : String} (h : RefsStageFixed sm env d g) :
    RefsStageFixed sm env d (q_merge_file g p2 rel nm) :=
  refsStage_of_step (fun functions ref _ hp => refFixed_mf hp) h

theorem refsStage_hier {sm : SymbolMap} {env : ScipEnv} {d : Document} {g : Graph}
    {fp2 : FPath} {parts2 : List String} {pl2 : String} {pp2 : FPath}
    (h : RefsStageFixed sm env d g) :
    RefsStageFixed sm env d (hier_go fp2 pl2 pp2 parts2 g) :=
  refsStage_of_step (fun functions ref _ hp => refFixed_hier hp) h

theorem refsStage_ref_step {sm : SymbolMap} {env : ScipEnv} {d : Document} {g : Graph}
    {p2 : FPath} {functions2 : List FuncSpan} {ref2 : Occurrence}
    (h : RefsStageFixed sm env d g) :
    RefsStageFixed sm env d (ref_step sm p2 functions2 g ref2) :=
  refsStage_of_step
    (fun functions ref _ hp =>
      ref_step_pres (P := fun g3 => RefFixed sm (docFP env d) functions g3 ref)
        (fun hnl g3 sel tName hp2 => refFixed_qc (rfq_case sm ref2 ref) hp2) hp) h

theorem defsAll_ref_step {sm : SymbolMap} {p : FPath} {d : Document} {p2 : FPath}
    {functions2 : List FuncSpan} {g : Graph} {ref2 : Occurrence}
    (h : ∀ occ ∈ docDefs d, DefFixed sm p g occ) :
    ∀ occ ∈ docDefs d, DefFixed sm p (ref_step sm p2 functions2 g ref2) occ :=
  ref_step_pres (P := fun g3 => ∀ occ ∈ docDefs d, DefFixed sm p g3 occ)
    (fun _ g3 sel tName hp occ hocc => defFixed_qc (dfq_case sm ref2 occ) (hp occ hocc)) h

theorem defsAll_def_step {sm : SymbolMap} {p : FPath} {d : Document} {p2 : FPath}
    {g : Graph} {occ2 : Occurrence}
    (hdisj : strStartsWith occ2.symbol "local" = false →
      ∀ occ ∈ docDefs d, strStartsWith occ.symbol "local" = false →
      occ2.symbol ≠ occ.symbol)
    (h : ∀ occ ∈ docDefs d, DefFixed sm p g occ) :
    ∀ occ ∈ docDefs d, DefFixed sm p (def_step sm p2 g occ2) occ := by
  intro occ hocc
  by_cases hl : strStartsWith occ.symbol "local" = true
  · exact Or.inl hl
  · by_cases hl2 : strStartsWith occ2.symbol "local" = true
    · unfold def_step
      rw [if_pos hl2]
      exact h occ hocc
    · exact defFixed_def_step
        (hdisj (Bool.eq_false_iff.mpr hl2) occ hocc (Bool.eq_false_iff.mpr hl))
        (h occ hocc)

theorem refFixed_def_step {sm : SymbolMap} {env : ScipEnv} {idx : ScipIndex}
    {p : FPath} {functions : List FuncSpan} {g : Graph} {ref : Occurrence}
    {d2 : Document} {occ2 : Occurrence}
    (hfp : p ≠ docFP env d2)
    (huniq : strStartsWith occ2.symbol "local" = false →
      ∀ dw ∈ idx.documents, occ2.symbol ∈ defSyms dw → docFP env dw = docFP env d2)
    (hsp : SymPathInv env idx g)
    (h : RefFixed sm p functions g ref) :
    RefFixed sm p functions (def_step sm (docFP env d2) g occ2) ref := by
  unfold def_step
  by_cases hl2 : strStartsWith occ2.symbol "local" = true
  · rw [if_pos hl2]
    exact h
  · rw [if_neg hl2]
    simp only []
    refine refFixed_dn ?_ hfp ?_ h
    · intro n hn hsym
      rcases hsp n hn occ2.symbol hsym with hc | ⟨dw, hdw, hsymdw, hpw⟩
      · exact Or.inl hc
      · right
        rw [hpw, huniq (Bool.eq_false_iff.mpr hl2) dw hdw hsymdw]
    · exact dno_case sm occ2 ref

theorem refsStage_def_step {sm : SymbolMap} {env : ScipEnv} {idx : ScipIndex}
    {d : Document} {g : Graph} {d2 : Document} {occ2 : Occurrence}
    (hfp : docFP env d ≠ docFP env d2)
    (huniq : strStartsWith occ2.symbol "local" = false →
      ∀ dw ∈ idx.documents, occ2.symbol ∈ defSyms dw → docFP env dw = docFP env d2)
    (hsp : SymPathInv env idx g)
    (h : RefsStageFixed sm env d g) :
    RefsStageFixed sm env d (def_step sm (docFP env d2) g occ2) :=
  refsStage_of_step
    (fun functions ref _ hp => refFixed_def_step hfp huniq hsp hp) h

/-! ## Joint transport of `DocDone` and `IngestInv` through a foreign document -/

theorem pair_mf {sm : SymbolMap} {env : ScipEnv} {idx : ScipIndex} {d : Document}
    {g : Graph} {p2 : FPath} {rel nm : String}
    (hne : docFP env d ≠ p2)
    (h : DocDone sm env d g ∧ IngestInv env idx g) :
    DocDone sm env d (q_merge_file g p2 rel nm) ∧
    IngestInv env idx (q_merge_file g p2 rel nm) := by
  obtain ⟨hdd, good0, sp0, reg0⟩ := h
  refine ⟨?_, good_mf good0, sympath_mf sp0, ?_⟩
  · rcases hdd with hskip | ⟨hF, hcond, hdefs, hrefs⟩
    · exact Or.inl hskip
    · refine Or.inr ⟨fileFixed_mf hne hF, ?_,
        fun occ hocc => defFixed_mf hne (hdefs occ hocc), refsStage_mf hrefs⟩
      intro hne2
      rw [mf_labelAt (Or.inl (by decide))] at hne2
      exact chainDone_mf hF.1 (docDirs d) "Repository" env.repoPath (Or.inl rfl)
        (hcond hne2)
  · intro hemp
    rw [mf_labelAt (Or.inl (by decide))] at hemp
    exact nodir_mf (reg0 hemp)

theorem pair_hier {sm : SymbolMap} {env : ScipEnv} {idx : ScipIndex} {d : Document}
    {g : Graph} {fp2 : FPath} {parts2 : List String}
    (h : DocDone sm env d g ∧ IngestInv env idx g) :
    DocDone sm env d (hier_go fp2 "Repository" env.repoPath parts2 g) ∧
    IngestInv env idx (hier_go fp2 "Repository" env.repoPath parts2 g) := by
  obtain ⟨hdd, good0, sp0, reg0⟩ := h
  by_cases hemp : labelAt g "Repository" env.repoPath = []
  · rw [hier_go_id_of_empty parts2 "Repository" env.repoPath g hemp (reg0 hemp)]
    exact ⟨hdd, good0, sp0, reg0⟩
  · refine ⟨?_, good_hier parts2 "Repository" env.repoPath g good0,
      sympath_hier parts2 "Repository" env.repoPath g sp0, ?_⟩
    · rcases hdd with hskip | ⟨hF, hcond, hdefs, hrefs⟩
      · exact Or.inl hskip
      · refine Or.inr ⟨fileFixed_hier hF, ?_,
          fun occ hocc => defFixed_hier (hdefs occ hocc), refsStage_hier hrefs⟩
        intro hne2
        rw [hier_go_labelAt parts2 "Repository" env.repoPath g "Repository"
          env.repoPath (Or.inl (by decide))] at hne2
        exact chainDone_hier parts2 "Repository" env.repoPath g (hcond hne2)
    · intro hemp2
      rw [hier_go_labelAt parts2 "Repository" env.repoPath g "Repository"
        env.repoPath (Or.inl (by decide))] at hemp2
      exact absurd hemp2 hemp

theorem pair_def_step {sm : SymbolMap} {env : ScipEnv} {idx : ScipIndex}
    {d : Document} {g : Graph} {d2 : Document} {occ2 : Occurrence}
    (hd2 : d2 ∈ idx.documents) (hocc2 : occ2 ∈ docDefs d2)
    (hfp : docFP env d ≠ docFP env d2) (hd : d ∈ idx.documents)
    (huniq : strStartsWith occ2.symbol "local" = false →
      ∀ dw ∈ idx.documents, occ2.symbol ∈ defSyms dw → docFP env dw = docFP env d2)
    (h : DocDone sm env d g ∧ IngestInv env idx g) :
    DocDone sm env d (def_step sm (docFP env d2) g occ2) ∧
    IngestInv env idx (def_step sm (docFP env d2) g occ2) := by
  obtain ⟨hdd, good0, sp0, reg0⟩ := h
  refine ⟨?_, good_def_step good0, sympath_def_step hd2 hocc2 sp0, ?_⟩
  · rcases hdd with hskip | ⟨hF, hcond, hdefs, hrefs⟩
    · exact Or.inl hskip
    · refine Or.inr ⟨fileFixed_def_step hF, ?_, ?_,
        refsStage_def_step hfp huniq sp0 hrefs⟩
      · intro hne2
        rw [repoAt_def_step] at hne2
        exact chainDone_def_step (hcond hne2)
      · refine defsAll_def_step ?_ hdefs
        intro hnl2 occ hocc hnl heq
        have hm : occ2.symbol ∈ defSyms d := by
          rw [heq]
          exact mem_defSyms_of_docDefs hocc hnl
        exact hfp (huniq hnl2 d hd hm)
  · intro hemp
    rw [repoAt_def_step] at hemp
    exact nodir_def_step (reg0 hemp)

theorem pair_ref_step {sm : SymbolMap} {env : ScipEnv} {idx : ScipIndex}
    {d : Document} {g : Graph} {p2 : FPath} {functions2 : List FuncSpan}
    {ref2 : Occurrence}
    (h : DocDone sm env d g ∧ IngestInv env idx g) :
    DocDone sm env d (ref_step sm p2 functions2 g ref2) ∧
    IngestInv env idx (ref_step sm p2 functions2 g ref2) := by
  obtain ⟨hdd, good0, sp0, reg0⟩ := h
  refine ⟨?_, good_ref_step good0, sympath_ref_step sp0, ?_⟩
  · rcases hdd with hskip | ⟨hF, hcond, hdefs, hrefs⟩
    · exact Or.inl hskip
    · refine Or.inr ⟨fileFixed_ref_step hF, ?_, defsAll_ref_step hdefs,
        refsStage_ref_step hrefs⟩
      intro hne2
      rw [repoAt_ref_step] at hne2
      exact chainDone_ref_step (hcond hne2)
  · intro hemp
    rw [repoAt_ref_step] at hemp
    exact nodir_ref_step (reg0 hemp)

set_option maxHeartbeats 1000000 in
theorem process_preserve {sm : SymbolMap} {env : ScipEnv} {idx : ScipIndex}
    {d d2 : Document} {g : Graph}
    (hd : d ∈ idx.documents) (hd2 : d2 ∈ idx.documents)
    (hfp : docFP env d ≠ docFP env d2)
    (huniq : ∀ s ∈ defSyms d2, ∀ dw ∈ idx.documents, s ∈ defSyms dw →
      docFP env dw = docFP env d2)
    (h : DocDone sm env d g ∧ IngestInv env idx g) :
    DocDone sm env d (process_document env sm g d2) ∧
    IngestInv env idx (process_document env sm g d2) := by
  unfold process_document
  by_cases hskip : docSkip d2 = true
  · rw [if_pos hskip]
    exact h
  · rw [if_neg hskip]
    refine refs_stage_pres
      (P := fun g3 => DocDone sm env d g3 ∧ IngestInv env idx g3)
      (fun functions g2 r _ hp => pair_ref_step hp) ?_
    refine defs_stage_pres
      (P := fun g3 => DocDone sm env d g3 ∧ IngestInv env idx g3)
      (fun g2 occ2 hocc2 hp => pair_def_step hd2 hocc2 hfp hd
        (fun hnl2 => huniq occ2.symbol (mem_defSyms_of_docDefs hocc2 hnl2)) hp) ?_
    unfold doc_stage_hier doc_stage_file
    exact pair_hier (pair_hier (pair_mf hfp h))

/-! ## Establishment of `DocDone` by one document processing -/

set_option maxHeartbeats 1000000 in
theorem tailDR_establish {sm : SymbolMap} {env : ScipEnv} {idx : ScipIndex}
    {d : Document} {g3 : Graph}
    (hd : d ∈ idx.documents) (hns : (defSyms d).Nodup)
    (hF : FileFixed env d g3) (good3 : GoodGraph g3) (sp3 : SymPathInv env idx g3)
    (hch : labelAt g3 "Repository" env.repoPath ≠ [] →
      ChainDone g3 (docFP env d) "Repository" env.repoPath (docDirs d))
    (hnd : labelAt g3 "Repository" env.repoPath = [] → NoDirNodes g3) :
    DocDone sm env d (doc_stage_refs sm env d (doc_stage_defs sm env d g3)) ∧
    IngestInv env idx (doc_stage_refs sm env d (doc_stage_defs sm env d g3)) := by
  obtain ⟨hdefs4, good4, sp4, hFne4⟩ :=
    @defs_stage_establish sm env idx d g3 hd hns ⟨good3, sp3, hF.1⟩
  have hF4 : FileFixed env d (doc_stage_defs sm env d g3) :=
    defs_stage_pres (P := FileFixed env d)
      (fun g2 occ _ hp => fileFixed_def_step hp) hF
  have hch4 : labelAt (doc_stage_defs sm env d g3) "Repository" env.repoPath ≠ [] →
      ChainDone (doc_stage_defs sm env d g3) (docFP env d) "Repository"
        env.repoPath (docDirs d) := by
    intro hne
    rw [repoAt_defs] at hne
    exact defs_stage_pres
      (P := fun g2 => ChainDone g2 (docFP env d) "Repository" env.repoPath (docDirs d))
      (fun g2 occ _ hp => chainDone_def_step hp) (hch hne)
  have hnd4 : labelAt (doc_stage_defs sm env d g3) "Repository" env.repoPath = [] →
      NoDirNodes (doc_stage_defs sm env d g3) := by
    intro hemp
    rw [repoAt_defs] at hemp
    exact defs_stage_pres (P := NoDirNodes)
      (fun g2 occ _ hp => nodir_def_step hp) (hnd hemp)
  obtain ⟨hrefs5, good5, sp5⟩ :=
    @refs_stage_establish sm env idx d (doc_stage_defs sm env d g3) ⟨good4, sp4⟩
  have hF5 : FileFixed env d
      (doc_stage_refs sm env d (doc_stage_defs sm env d g3)) :=
    refs_stage_pres (P := FileFixed env d)
      (fun functions g2 r _ hp => fileFixed_ref_step hp) hF4
  have hdefs5 : ∀ occ ∈ docDefs d, DefFixed sm (docFP env d)
      (doc_stage_refs sm env d (doc_stage_defs sm env d g3)) occ :=
    refs_stage_pres (P := fun g2 => ∀ occ ∈ docDefs d, DefFixed sm (docFP env d) g2 occ)
      (fun functions g2 r _ hp => defsAll_ref_step hp) hdefs4
  have hch5 : labelAt (doc_stage_refs sm env d (doc_stage_defs sm env d g3))
      "Repository" env.repoPath ≠ [] →
      ChainDone (doc_stage_refs sm env d (doc_stage_defs sm env d g3)) (docFP env d)
        "Repository" env.repoPath (docDirs d) := by
    intro hne
    rw [repoAt_refs] at hne
    exact refs_stage_pres
      (P := fun g2 => ChainDone g2 (docFP env d) "Repository" env.repoPath (docDirs d))
      (fun functions g2 r _ hp => chainDone_ref_step hp) (hch4 hne)
  have hnd5 : labelAt (doc_stage_refs sm env d (doc_stage_defs sm env d g3))
      "Repository" env.repoPath = [] →
      NoDirNodes (doc_stage_refs sm env d (doc_stage_defs sm env d g3)) := by
    intro hemp
    rw [repoAt_refs] at hemp
    exact refs_stage_pres (P := NoDirNodes)
      (fun functions g2 r _ hp => nodir_ref_step hp) (hnd4 hemp)
  exact ⟨Or.inr ⟨hF5, hch5, hdefs5, hrefs5⟩, good5, sp5, hnd5⟩

set_option maxHeartbeats 1000000 in
theorem tail_establish {sm : SymbolMap} {env : ScipEnv} {idx : ScipIndex}
    {d : Document} {g1 : Graph}
    (hd : d ∈ idx.documents) (hns : (defSyms d).Nodup)
    (hF : FileFixed env d g1) (good1 : GoodGraph g1) (sp1 : SymPathInv env idx g1)
    (reg1 : labelAt g1 "Repository" env.repoPath = [] → NoDirNodes g1) :
    DocDone sm env d (doc_stage_refs sm env d (doc_stage_defs sm env d
      (hier_go (docFP env d) "Repository" env.repoPath (docDirs d)
        (hier_go (docFP env d) "Repository" env.repoPath (docDirs d) g1)))) ∧
    IngestInv env idx (doc_stage_refs sm env d (doc_stage_defs sm env d
      (hier_go (docFP env d) "Repository" env.repoPath (docDirs d)
        (hier_go (docFP env d) "Repository" env.repoPath (docDirs d) g1)))) := by
  by_cases hemp : labelAt g1 "Repository" env.repoPath = []
  · have hid : hier_go (docFP env d) "Repository" env.repoPath (docDirs d) g1 = g1 :=
      hier_go_id_of_empty (docDirs d) "Repository" env.repoPath g1 hemp (reg1 hemp)
    rw [hid, hid]
    exact tailDR_establish hd hns hF good1 sp1 (fun hne => absurd hemp hne) reg1
  · have hch2 : ChainDone
        (hier_go (docFP env d) "Repository" env.repoPath (docDirs d) g1)
        (docFP env d) "Repository" env.repoPath (docDirs d) :=
      hier_establish (docDirs d) "Repository" env.repoPath g1 hemp hF.1
    have hid2 : hier_go (docFP env d) "Repository" env.repoPath (docDirs d)
        (hier_go (docFP env d) "Repository" env.repoPath (docDirs d) g1)
        = hier_go (docFP env d) "Repository" env.repoPath (docDirs d) g1 :=
      hier_go_fixed (docDirs d) "Repository" env.repoPath _
        (chainDone_chainFixed (docDirs d) "Repository" env.repoPath hch2)
    rw [hid2]
    refine tailDR_establish hd hns (fileFixed_hier hF)
      (good_hier (docDirs d) "Repository" env.repoPath g1 good1)
      (sympath_hier (docDirs d) "Repository" env.repoPath g1 sp1)
      (fun _ => hch2) ?_
    intro hemp2
    rw [hier_go_labelAt (docDirs d) "Repository" env.repoPath g1 "Repository"
      env.repoPath (Or.inl (by decide))] at hemp2
    exact absurd hemp2 hemp

set_option maxHeartbeats 1000000 in
theorem process_establish {sm : SymbolMap} {env : ScipEnv} {idx : ScipIndex}
    {d : Document} {g : Graph}
    (hd : d ∈ idx.documents) (hns : (defSyms d).Nodup)
    (hInv : IngestInv env idx g) :
    DocDone sm env d (process_document env sm g d) ∧
    IngestInv env idx (process_document env sm g d) := by
  obtain ⟨good0, sp0, reg0⟩ := hInv
  unfold process_document
  by_cases hskip : docSkip d = true
  · rw [if_pos hskip]
    exact ⟨Or.inl hskip, good0, sp0, reg0⟩
  · rw [if_neg hskip]
    unfold doc_stage_hier doc_stage_file
    refine tail_establish hd hns ?_ (good_mf good0) (sympath_mf sp0) ?_
    · unfold FileFixed
      exact mf_establish
    · intro hemp
      rw [mf_labelAt (Or.inl (by decide))] at hemp
      exact nodir_mf (reg0 hemp)

/-! ## The fold over all documents -/

theorem pairwise_to_forall {α : Type} {R : α → α → Prop} {l : List α}
    (h : l.Pairwise R) :
    ∀ a ∈ l, ∀ b ∈ l, a ≠ b → (R a b ∨ R b a) := by
  induction l with
  | nil =>
    intro a ha
    simp at ha
  | cons x t ih =>
    intro a ha b hb hne
    rcases List.mem_cons.mp ha with rfl | ha2
    · rcases List.mem_cons.mp hb with rfl | hb2
      · exact absurd rfl hne
      · exact Or.inl ((List.pairwise_cons.mp h).1 b hb2)
    · rcases List.mem_cons.mp hb with rfl | hb2
      · exact Or.inr ((List.pairwise_cons.mp h).1 a ha2)
      · exact ih (List.pairwise_cons.mp h).2 a ha2 b hb2 hne

theorem huniq_of_pairwise {env : ScipEnv} {idx : ScipIndex}
    (hpair : idx.documents.Pairwise (fun a b =>
      docFP env a ≠ docFP env b ∧ ∀ s ∈ defSyms a, s ∉ defSyms b)) :
    ∀ d2 ∈ idx.documents, ∀ s ∈ defSyms d2, ∀ dw ∈ idx.documents,
      s ∈ defSyms dw → docFP env dw = docFP env d2 := by
  intro d2 hd2 s hs dw hdw hsw
  by_cases heq : dw = d2
  · rw [heq]
  · rcases pairwise_to_forall hpair dw hdw d2 hd2 heq with ⟨hfp, hdisj⟩ | ⟨hfp, hdisj⟩
    · exact absurd hs (hdisj s hsw)
    · exact absurd hsw (hdisj s hs)

set_option maxHeartbeats 1000000 in
theorem docs_fold_establish {sm : SymbolMap} {env : ScipEnv} {idx : ScipIndex}
    {g : Graph}
    (hpair : idx.documents.Pairwise (fun a b =>
      docFP env a ≠ docFP env b ∧ ∀ s ∈ defSyms a, s ∉ defSyms b))
    (hnodup : ∀ d ∈ idx.documents, (defSyms d).Nodup)
    (hInv : IngestInv env idx g) :
    (∀ d ∈ idx.documents,
      DocDone sm env d (idx.documents.foldl (process_document env sm) g)) ∧
    IngestInv env idx (idx.documents.foldl (process_document env sm) g) :=
  foldl_establish
    (Q := IngestInv env idx)
    (P := fun d g2 => DocDone sm env d g2)
    (R := fun a b => docFP env a ≠ docFP env b ∧ ∀ s ∈ defSyms a, s ∉ defSyms b)
    (f := process_document env sm)
    idx.documents g hpair
    (fun g2 a ha hq => (process_establish ha (hnodup a ha) hq).2)
    (fun g2 a ha hq => (process_establish ha (hnodup a ha) hq).1)
    (fun g2 a b ha hb hr hq hp =>
      (process_preserve ha hb hr.1 (huniq_of_pairwise hpair b hb) ⟨hp, hq⟩).1)
    hInv

theorem docFixed_of_done {sm : SymbolMap} {env : ScipEnv} {idx : ScipIndex}
    {d : Document} {g : Graph}
    (hInv : IngestInv env idx g) (h : DocDone sm env d g) :
    DocFixed sm env d g := by
  rcases h with hskip | ⟨hF, hcond, hdefs, hrefs⟩
  · exact Or.inl hskip
  · refine Or.inr ⟨hF, ?_, hdefs, hrefs⟩
    by_cases hemp : labelAt g "Repository" env.repoPath = []
    · exact chainFixed_regimeA (docDirs d) "Repository" env.repoPath hemp
        (hInv.2.2 hemp)
    · exact chainDone_chainFixed (docDirs d) "Repository" env.repoPath (hcond hemp)

theorem inv_of_clean {env : ScipEnv} {idx : ScipIndex} {g : Graph}
    (hsym : ∀ n ∈ g.nodes, n.props.scip_symbol = none)
    (hdir : ∀ n ∈ g.nodes, n.label ≠ "Directory") :
    IngestInv env idx g := by
  refine ⟨⟨fun n hn _ => hsym n hn, fun n hn sym hs => ?_⟩,
    fun n hn sym hs => ?_, fun _ => hdir⟩
  · rw [hsym n hn] at hs
    exact absurd hs (by simp)
  · rw [hsym n hn] at hs
    exact absurd hs (by simp)

/-- C3 (amended): re-ingestion is idempotent from a well-prepared store.
If the starting graph carries no `scip_symbol` on any node and no Directory
node, the documents of the index have pairwise distinct file paths, their
non-local definition symbols are pairwise disjoint across documents and
duplicate-free within each document, then running `ingest_index` a second
time over the resulting graph returns it unchanged. (Plain idempotence from
an arbitrary graph state is refuted by `C3_counterexample`: the final
cleanup pass deletes any pre-existing node whose `scip_symbol` starts with
"local", so the first run is not a pure upsert.) -/
theorem C3_amended_reingest_idempotent
    (env : ScipEnv) (g : Graph) (idx : ScipIndex)
    (hsym : ∀ n ∈ g.nodes, n.props.scip_symbol = none)
    (hdir : ∀ n ∈ g.nodes, n.label ≠ "Directory")
    (hpair : idx.documents.Pairwise (fun a b =>
      docFP env a ≠ docFP env b ∧ ∀ s ∈ defSyms a, s ∉ defSyms b))
    (hnodup : ∀ d ∈ idx.documents, (defSyms d).Nodup) :
    ingest_index env (ingest_index env g idx) idx = ingest_index env g idx := by
  obtain ⟨hdocs, hinvf⟩ := @docs_fold_establish (buildSymbolMap idx) env idx g
    hpair hnodup (inv_of_clean hsym hdir)
  have hnl : NoLocalNodes (idx.documents.foldl
      (process_document env (buildSymbolMap idx)) g) :=
    noLocal_of_good hinvf.1
  have hgi : ingest_index env g idx
      = idx.documents.foldl (process_document env (buildSymbolMap idx)) g := by
    unfold ingest_index
    exact q_cleanup_fixed hnl
  rw [hgi]
  exact ingest_index_fixed
    (fun d hd => docFixed_of_done hinvf (hdocs d hd)) hnl

/-- Witness for the amended C3 theorem at a concrete index and empty store. -/
theorem C3_witness :
    ingest_index exEnvC3 (ingest_index exEnvC3 exGraphEmpty exIdxC3) exIdxC3
      = ingest_index exEnvC3 exGraphEmpty exIdxC3 :=
  C3_amended_reingest_idempotent exEnvC3 exGraphEmpty exIdxC3
    (fun n hn => absurd hn (by simp [exGraphEmpty]))
    (fun n hn => absurd hn (by simp [exGraphEmpty]))
    (by simp [exIdxC3])
    (fun d hd => by
      simp only [exIdxC3] at hd
      rw [List.mem_singleton.mp hd]
      decide)

end CGC
